import Mathlib

/-!
Vorto vehicle-routing solver: embedding and verified properties.

Shallow embedding of `VortoProblemGolang 2/main.go` (and of the distance
function of `util/util.go`).

Modelling conventions.

* `float64` values are modelled by an arbitrary linearly ordered commutative
  ring `R`; the square root of `math.Sqrt` is a parameter `sqrt : R → R`.
  Statements that need facts about square roots are stated for `ℝ` and
  `Real.sqrt`; the definitions can be run on `ℤ` with `isqrt`.
* Where rounding decides a statement, the distance, cost, savings and merge
  functions are repeated on `F64`, a model of the finite `float64` values with
  the rounded operations of IEEE 754 (section "Binary floating point").
* A `*Load` is modelled by the value `Load R`: the program only ever compares
  the `ID` fields of loads.
* A `*Driver` is modelled by its position in `Solution.drivers`: every driver is
  created by `NewDriver` and stored once, so pointer equality of drivers is
  equality of positions.
* The Go map `loadByID` is modelled by the list of its values; the order in
  which a `range` loop visits the map is the order of a list.  The functions
  ending in `With` take the visiting orders as explicit arguments.
* The loaders take the text of the problem file; the `bufio.Scanner` is
  modelled by `scanLines`, which fails on a line of 64 KiB or more.
  `strconv.ParseFloat` is a parameter `toFloat : String → R`; a Go panic and
  the error return of `LoadProblemFromFile` are the result `none`.
* `localSearch` loops until a pass keeps no swap; the embedding bounds the
  number of passes by a `fuel` argument and returns `none` when it runs out.
  For `n` loads, `n! + 1` passes always suffice (see the termination section).
-/

namespace Vorto

/-! ## Data model -/

/-- Point represents a Cartesian coordinate. -/
structure Point (R : Type) where
  X : R
  Y : R
deriving DecidableEq

/-- Load represents a load with a pickup and dropoff point. -/
structure Load (R : Type) where
  ID : String
  Pickup : Point R
  Dropoff : Point R
deriving DecidableEq

/-- Driver represents a driver with a route of loads. -/
structure Driver (R : Type) where
  Route : List (Load R)
deriving DecidableEq

/-- Solution represents the VRP solution.  `loadByID` lists the values of the Go
map. -/
structure Solution (R : Type) where
  drivers : List (Driver R)
  loadByID : List (Load R)
  depot : Point R
  maxDistance : R
deriving DecidableEq

/-- Entry of the savings list of `clarkeWrightSavings` (an anonymous struct in
the source). -/
structure SavingsEntry (R : Type) where
  From : Load R
  To : Load R
  Saving : R
deriving DecidableEq

section Defs

variable {R : Type} [LinearOrderedCommRing R]

/-- NewDriver creates a new driver, with an empty route. -/
def NewDriver : Driver R := ⟨[]⟩

/-- NewSolution creates a new solution: no drivers, no loads, the depot at the
origin and `maxDistance = 12 * 60`. -/
def NewSolution : Solution R :=
  { drivers := [], loadByID := [], depot := ⟨0, 0⟩, maxDistance := 12 * 60 }

/-- DistanceBetweenPoints of `main.go`:
`math.Sqrt(math.Pow(p2.X-p1.X, 2) + math.Pow(p2.Y-p1.Y, 2))`. -/
def DistanceBetweenPoints (sqrt : R → R) (p1 p2 : Point R) : R :=
  sqrt ((p2.X - p1.X) ^ 2 + (p2.Y - p1.Y) ^ 2)

/-- DistanceBetweenPoints of `util/util.go`:
`xDiff := p1.X - p2.X; yDiff := p1.Y - p2.Y; math.Sqrt(xDiff*xDiff + yDiff*yDiff)`. -/
def Util.DistanceBetweenPoints (sqrt : R → R) (p1 p2 : Point R) : R :=
  let xDiff := p1.X - p2.X
  let yDiff := p1.Y - p2.Y
  sqrt (xDiff * xDiff + yDiff * yDiff)

/-- Body of the `for i := range nodes` loop of `computeDistance`: the leg to the
pickup of `nodes[i]` (from the depot when `i = 0`, from the dropoff of
`nodes[i-1]` otherwise) and the leg from that pickup to its dropoff. -/
def computeDistanceStep (sqrt : R → R) (s : Solution R) (nodes : List (Load R))
    (distance : R) (i : Nat) : R :=
  match nodes[i]? with
  | none => distance
  | some n =>
    let distance :=
      if i = 0 then distance + DistanceBetweenPoints sqrt s.depot n.Pickup
      else
        match nodes[i - 1]? with
        | none => distance
        | some p => distance + DistanceBetweenPoints sqrt p.Dropoff n.Pickup
    distance + DistanceBetweenPoints sqrt n.Pickup n.Dropoff

/-- computeDistance computes the total distance for a route: `0` for the empty
route, otherwise the loop over the indices followed by the return leg from the
dropoff of the last load to the depot. -/
def computeDistance (sqrt : R → R) (s : Solution R) (nodes : List (Load R)) : R :=
  match nodes.getLast? with
  | none => 0
  | some last =>
    let distance := (List.range nodes.length).foldl (computeDistanceStep sqrt s nodes) 0
    distance + DistanceBetweenPoints sqrt last.Dropoff s.depot

/-- calculateCost calculates the total cost of the solution:
`500 * len(drivers)` plus the sum of the route distances. -/
def calculateCost (sqrt : R → R) (s : Solution R) : R :=
  let totalDistance :=
    s.drivers.foldl (fun totalDistance driver =>
      totalDistance + computeDistance sqrt s driver.Route) 0
  500 * (s.drivers.length : R) + totalDistance

/-- findDriverForLoad finds the driver for a specific load: the position of the
first driver whose route holds a load with the same `ID`, `none` for `nil`. -/
def findDriverForLoad (s : Solution R) (load : Load R) : Option Nat :=
  s.drivers.findIdx? (fun driver => driver.Route.any (fun l => l.ID == load.ID))

/-- removeDriver removes a driver from the solution (the driver at position
`i`). -/
def removeDriver (s : Solution R) (i : Nat) : Solution R :=
  { s with drivers := s.drivers.eraseIdx i }

/-- Route of the driver at position `i` (`s.drivers[i].Route`). -/
def routeAt (s : Solution R) (i : Nat) : List (Load R) :=
  (s.drivers.getD i NewDriver).Route

/-- Assignment `s.drivers[i].Route = route`. -/
def setRoute (s : Solution R) (i : Nat) (route : List (Load R)) : Solution R :=
  { s with drivers := s.drivers.set i ⟨route⟩ }

/-- Step 1 of `clarkeWrightSavings`: the savings of all ordered pairs of loads
with different ids, visiting the map in the orders `outer` (outer loop) and
`inner load1` (inner loop run for `load1`). -/
def savingsListWith (sqrt : R → R) (s : Solution R) (outer : List (Load R))
    (inner : Load R → List (Load R)) : List (SavingsEntry R) :=
  outer.foldl (fun savings load1 =>
    (inner load1).foldl (fun savings load2 =>
      if load1.ID == load2.ID then savings
      else
        let saving := DistanceBetweenPoints sqrt s.depot load1.Pickup
          + DistanceBetweenPoints sqrt load2.Dropoff s.depot
          - DistanceBetweenPoints sqrt load1.Pickup load2.Dropoff
        savings ++ [⟨load1, load2, saving⟩]) savings) []

/-- Step 1 of `clarkeWrightSavings` with the map visited in list order. -/
def savingsList (sqrt : R → R) (s : Solution R) : List (SavingsEntry R) :=
  savingsListWith sqrt s s.loadByID (fun _ => s.loadByID)

/-- Step 2 of `clarkeWrightSavings`: `sort.Slice` with
`less(i, j) = savings[i].Saving > savings[j].Saving` (descending savings),
modelled by insertion sort. -/
def sortSavings (savings : List (SavingsEntry R)) : List (SavingsEntry R) :=
  savings.insertionSort (fun a b => b.Saving ≤ a.Saving)

/-- Body of the merge loop (step 3) of `clarkeWrightSavings` for one entry of
the sorted savings list. -/
def mergeStep (sqrt : R → R) (s : Solution R) (saving : SavingsEntry R) : Solution R :=
  let fromDriver := findDriverForLoad s saving.From
  let toDriver := findDriverForLoad s saving.To
  match fromDriver, toDriver with
  | none, none =>
    { s with drivers := s.drivers ++ [⟨[saving.From, saving.To]⟩] }
  | some f, none =>
    if computeDistance sqrt s (routeAt s f ++ [saving.To]) ≤ s.maxDistance then
      setRoute s f (routeAt s f ++ [saving.To])
    else s
  | none, some t =>
    if computeDistance sqrt s ([saving.From] ++ routeAt s t) ≤ s.maxDistance then
      setRoute s t ([saving.From] ++ routeAt s t)
    else s
  | some f, some t =>
    if f ≠ t then
      if computeDistance sqrt s (routeAt s f ++ routeAt s t) ≤ s.maxDistance then
        removeDriver (setRoute s f (routeAt s f ++ routeAt s t)) t
      else s
    else s

/-- Step 3 of `clarkeWrightSavings`: the merge loop over the savings list. -/
def mergeRoutes (sqrt : R → R) (s : Solution R) (savings : List (SavingsEntry R)) : Solution R :=
  savings.foldl (mergeStep sqrt) s

/-- Inner loop of `reassignLoads` for one load: the pair `(bestDriver, bestCost)`,
`none` standing for `bestDriver = -1`, `bestCost = math.MaxFloat64` (a cost that
passes `cost <= maxDistance` is below `math.MaxFloat64`). -/
def bestDriverFor (sqrt : R → R) (s : Solution R) (load : Load R) : Option (Nat × R) :=
  (List.range s.drivers.length).foldl (fun best i =>
    let newRoute := routeAt s i ++ [load]
    let cost := computeDistance sqrt s newRoute
    if cost ≤ s.maxDistance then
      match best with
      | none => some (i, cost)
      | some b => if cost < b.2 then some (i, cost) else best
    else best) none

/-- Body of the second loop of `reassignLoads` for one unassigned load. -/
def reassignOne (sqrt : R → R) (s : Solution R) (load : Load R) : Solution R :=
  match bestDriverFor sqrt s load with
  | none => { s with drivers := s.drivers ++ [⟨[load]⟩] }
  | some b => setRoute s b.1 (routeAt s b.1 ++ [load])

/-- reassignLoads reassigns unassigned loads, the map being visited in the
order `order`. -/
def reassignLoadsWith (sqrt : R → R) (order : List (Load R)) (s : Solution R) : Solution R :=
  let unassigned := order.filter (fun load => (findDriverForLoad s load).isNone)
  unassigned.foldl (reassignOne sqrt) s

/-- reassignLoads reassigns unassigned loads (map visited in list order). -/
def reassignLoads (sqrt : R → R) (s : Solution R) : Solution R :=
  reassignLoadsWith sqrt s.loadByID s

/-- clarkeWrightSavings with the savings list (after sorting) and the visiting
order of `reassignLoads` given explicitly. -/
def clarkeWrightSavingsWith (sqrt : R → R) (savings : List (SavingsEntry R))
    (order : List (Load R)) (s : Solution R) : Solution R :=
  reassignLoadsWith sqrt order (mergeRoutes sqrt s savings)

/-- clarkeWrightSavings implements the Clarke-Wright Savings Algorithm. -/
def clarkeWrightSavings (sqrt : R → R) (s : Solution R) : Solution R :=
  reassignLoads sqrt (mergeRoutes sqrt s (sortSavings (savingsList sqrt s)))

/-- initialSolution creates an initial solution. -/
def initialSolution (sqrt : R → R) (s : Solution R) : Solution R :=
  clarkeWrightSavings sqrt s

/-- The exchange `driver1.Route[i], driver2.Route[j] = driver2.Route[j], driver1.Route[i]`
for the drivers at positions `a` and `b`: both values are read, then
`driver1.Route[i]` and `driver2.Route[j]` are written in this order. -/
def swapLoads (s : Solution R) (a b i j : Nat) : Solution R :=
  match (routeAt s a)[i]?, (routeAt s b)[j]? with
  | some x, some y =>
    let s1 := setRoute s a ((routeAt s a).set i y)
    setRoute s1 b ((routeAt s1 b).set j x)
  | _, _ => s

/-- State of the loops of `swapLoadsBetweenDrivers`. -/
structure SwapState (R : Type) where
  sol : Solution R
  bestCost : R
  bestSwap : Bool

/-- Body of the inner loop of `swapLoadsBetweenDrivers`: exchange the two loads,
keep the exchange when the new cost is below `bestCost`, exchange them again
otherwise. -/
def swapStep (sqrt : R → R) (a b i : Nat) (st : SwapState R) (j : Nat) : SwapState R :=
  let swapped := swapLoads st.sol a b i j
  let newCost := calculateCost sqrt swapped
  if newCost < st.bestCost then
    { sol := swapped, bestCost := newCost, bestSwap := true }
  else
    { st with sol := swapLoads swapped a b i j }

/-- swapLoadsBetweenDrivers tries to swap loads between two drivers (at positions
`a` and `b`) to reduce cost; returns the new solution and `bestSwap`.  The loop
bounds `len(driver1.Route)`, `len(driver2.Route)` are taken at the start: an
exchange changes no route length (`swapLoads_sameSlots`). -/
def swapLoadsBetweenDrivers (sqrt : R → R) (s : Solution R) (a b : Nat) : Solution R × Bool :=
  let st := (List.range (routeAt s a).length).foldl (fun st i =>
    (List.range (routeAt s b).length).foldl (swapStep sqrt a b i) st)
    { sol := s, bestCost := calculateCost sqrt s, bestSwap := false }
  (st.sol, st.bestSwap)

/-- One pass of the outer loop of `localSearch`: both `for` loops over the pairs
of drivers `i < j`; returns the new solution and `improvement`.  The bound
`len(s.drivers)` is taken at the start of the pass: an exchange changes no
number of drivers (`swapLoads_sameSlots`). -/
def localSearchPass (sqrt : R → R) (s : Solution R) : Solution R × Bool :=
  (List.range s.drivers.length).foldl (fun st i =>
    (List.range' (i + 1) (s.drivers.length - (i + 1))).foldl (fun st j =>
      let r := swapLoadsBetweenDrivers sqrt st.1 i j
      (r.1, if r.2 then true else st.2)) st) (s, false)

/-- localSearch performs local search to improve the solution: passes are
repeated while a pass reports an improvement.  `fuel` bounds the number of
passes; `none` means the bound was reached. -/
def localSearch (sqrt : R → R) : Nat → Solution R → Option (Solution R)
  | 0, _ => none
  | fuel + 1, s =>
    let r := localSearchPass sqrt s
    if r.2 then localSearch sqrt fuel r.1 else some r.1

/-- Newton iteration for the integer square root of `n`, from the guess `x`. -/
def isqrtIter (n : Nat) : Nat → Nat → Nat
  | 0, x => x
  | fuel + 1, x =>
    let y := (x + n / x) / 2
    if y < x then isqrtIter n fuel y else x

/-- Integer square root (`0` for `z ≤ 0`), used to run the definitions on
integer coordinates. -/
def isqrt (z : Int) : Int :=
  if z ≤ 0 then 0 else (isqrtIter z.toNat 64 z.toNat : Nat)

/-! ## Auxiliary definitions used in the statements -/

/-- Length of the path that starts at `prev` and serves the loads of `nodes` in
order, ending at the last dropoff. -/
def openLegs (sqrt : R → R) (prev : Point R) : List (Load R) → R
  | [] => 0
  | l :: rest =>
    DistanceBetweenPoints sqrt prev l.Pickup + DistanceBetweenPoints sqrt l.Pickup l.Dropoff
      + openLegs sqrt l.Dropoff rest

/-- Dropoff of the last load of `pre`, the depot when `pre` is empty. -/
def lastPoint (depot : Point R) (pre : List (Load R)) : Point R :=
  match pre.getLast? with
  | none => depot
  | some p => p.Dropoff

/-- Closed-tour length in the words of the specification: `0` for the empty
route; otherwise depot to first pickup, plus every pickup-to-dropoff leg, plus
every leg from a dropoff to the next pickup, plus last dropoff to depot. -/
def routeDistance (sqrt : R → R) (depot : Point R) : List (Load R) → R
  | [] => 0
  | first :: rest =>
    DistanceBetweenPoints sqrt depot first.Pickup
      + ((first :: rest).map (fun l => DistanceBetweenPoints sqrt l.Pickup l.Dropoff)).sum
      + (List.zipWith (fun l next => DistanceBetweenPoints sqrt l.Dropoff next.Pickup)
          (first :: rest) rest).sum
      + DistanceBetweenPoints sqrt ((first :: rest).getLast (List.cons_ne_nil _ _)).Dropoff depot

/-- Load `A` of the worked example: `(0,0) -> (0,10)`. -/
def exampleA : Load R := ⟨"A", ⟨0, 0⟩, ⟨0, 10⟩⟩

/-- Load `B` of the worked example: `(0,20) -> (0,30)`. -/
def exampleB : Load R := ⟨"B", ⟨0, 20⟩, ⟨0, 30⟩⟩

/-- Load `(0,100) -> (0,300)`; its own round trip from the origin is `600`. -/
def overCapA : Load R := ⟨"1", ⟨0, 100⟩, ⟨0, 300⟩⟩

/-- Load `(0,350) -> (0,100)`; its own round trip from the origin is `700`. -/
def overCapB : Load R := ⟨"2", ⟨0, 350⟩, ⟨0, 100⟩⟩

/-- Load `(0,1) -> (0,2)`. -/
def searchA : Load R := ⟨"A", ⟨0, 1⟩, ⟨0, 2⟩⟩

/-- Load `(0,0) -> (0,1)`. -/
def searchC : Load R := ⟨"C", ⟨0, 0⟩, ⟨0, 1⟩⟩

/-- Load `(0,2) -> (0,3)`. -/
def searchD : Load R := ⟨"D", ⟨0, 2⟩, ⟨0, 3⟩⟩

/-- A solution with the two routes `[A, C]` and `[D]`, on which local search
keeps one swap. -/
def searchStart : Solution R :=
  { (NewSolution : Solution R) with
    drivers := [⟨[searchA, searchC]⟩, ⟨[searchD]⟩]
    loadByID := [searchA, searchC, searchD] }

/-- The solution local search reaches from `searchStart`: routes `[A, D]` and
`[C]`. -/
def searchEnd : Solution R :=
  { (NewSolution : Solution R) with
    drivers := [⟨[searchA, searchD]⟩, ⟨[searchC]⟩]
    loadByID := [searchA, searchC, searchD] }

/-- Load `(0,300) -> (0,350)`. -/
def capA : Load R := ⟨"A", ⟨0, 300⟩, ⟨0, 350⟩⟩

/-- Load `(0,-5) -> (0,-10)`. -/
def capC : Load R := ⟨"C", ⟨0, -5⟩, ⟨0, -10⟩⟩

/-- Load `(0,340) -> (0,360)`. -/
def capD : Load R := ⟨"D", ⟨0, 340⟩, ⟨0, 360⟩⟩

/-- A solution with the routes `[A, C]` and `[D]`, both of distance `720`. -/
def capStart : Solution R :=
  { (NewSolution : Solution R) with
    drivers := [⟨[capA, capC]⟩, ⟨[capD]⟩]
    loadByID := [capA, capC, capD] }

/-- The solution local search reaches from `capStart`: routes `[A, D]` (distance
`740`) and `[C]`. -/
def capEnd : Solution R :=
  { (NewSolution : Solution R) with
    drivers := [⟨[capA, capD]⟩, ⟨[capC]⟩]
    loadByID := [capA, capC, capD] }

/-- A fresh solution (`NewSolution`) whose map holds the given loads. -/
def withLoads (loads : List (Load R)) : Solution R :=
  { (NewSolution : Solution R) with loadByID := loads }

/-- Invariant of the loops of `swapLoadsBetweenDrivers` started at cost `c`:
`bestCost` is the cost of the current solution, it never exceeds `c`, and it is
below `c` once a swap was kept. -/
def SwapInv (sqrt : R → R) (c : R) (st : SwapState R) : Prop :=
  st.bestCost = calculateCost sqrt st.sol ∧ st.bestCost ≤ c ∧ (st.bestSwap = true → st.bestCost < c)

/-- The routes of the drivers, in driver order. -/
def routes (s : Solution R) : List (List (Load R)) :=
  s.drivers.map (fun d => d.Route)

/-- Total number of loads satisfying `p` over all routes. -/
def countIn (p : Load R → Bool) (s : Solution R) : Nat :=
  (s.drivers.map (fun d => d.Route.countP p)).sum

/-- Cut a list into consecutive pieces of the given lengths. -/
def regroup {α : Type} : List Nat → List α → List (List α)
  | [], _ => []
  | n :: ns, l => l.take n :: regroup ns (l.drop n)

/-- The solution `t` holds the loads of `s` rearranged over the same route
slots: same depot, same route lengths, and the loads over all routes of `t` are
a permutation of those of `s`. -/
def SameSlots (s t : Solution R) : Prop :=
  t.depot = s.depot ∧ (routes t).map List.length = (routes s).map List.length
    ∧ (routes t).flatten.Perm (routes s).flatten

/-- The costs of all arrangements of the loads of `s` over its route slots. -/
def arrangementCosts (sqrt : R → R) (s : Solution R) : List R :=
  (routes s).flatten.permutations.map (fun p =>
    calculateCost sqrt
      { s with drivers := (regroup ((routes s).map List.length) p).map (fun r => ⟨r⟩) })

/-- Number of arrangement costs of `s` strictly below the cost of `t`. -/
def costsBelow (sqrt : R → R) (s t : Solution R) : Nat :=
  ((arrangementCosts sqrt s).toFinset.filter (fun c => c < calculateCost sqrt t)).card

/-- Invariant of the merge loop for the loads `L` of the map: the map is not
changed, no id occurs twice over the routes, and every load of a route is a load
of the map. -/
def MergeInv (L : List (Load R)) (s : Solution R) : Prop :=
  s.loadByID = L ∧ (∀ id : String, countIn (fun x => x.ID == id) s ≤ 1)
    ∧ countIn (fun x => decide (x ∉ L)) s = 0

/-- The entries a savings list may hold for the loads `L`: pairs of loads of the
map with different ids. -/
def SavingsOver (L : List (Load R))
    (savings : List (SavingsEntry R)) : Prop :=
  ∀ sv ∈ savings, sv.From ∈ L ∧ sv.To ∈ L ∧ sv.From.ID ≠ sv.To.ID

/-- Every load of the map is in exactly one route, exactly once, and the routes
hold loads of the map only. -/
def FullAssignment (s : Solution R) : Prop :=
  (∀ l ∈ s.loadByID, ∃ i, i < s.drivers.length
      ∧ (routeAt s i).countP (fun x => x.ID == l.ID) = 1
      ∧ ∀ j, j < s.drivers.length → j ≠ i → (routeAt s j).countP (fun x => x.ID == l.ID) = 0)
    ∧ ∀ d ∈ s.drivers, ∀ x ∈ d.Route, x ∈ s.loadByID

/-- State of the inner loop of `reassignLoads` after the drivers `0 .. k-1`:
`none` when none of them can take the load within the cap, otherwise the first
of them with the least resulting route distance, together with that distance. -/
def BestAmong (sqrt : R → R) (s : Solution R)
    (load : Load R) (k : Nat) (best : Option (Nat × R)) : Prop :=
  match best with
  | none => ∀ j < k, ¬ computeDistance sqrt s (routeAt s j ++ [load]) ≤ s.maxDistance
  | some b =>
    b.1 < k ∧ b.2 = computeDistance sqrt s (routeAt s b.1 ++ [load])
      ∧ b.2 ≤ s.maxDistance
      ∧ (∀ j < k, computeDistance sqrt s (routeAt s j ++ [load]) ≤ s.maxDistance →
          b.2 ≤ computeDistance sqrt s (routeAt s j ++ [load]))
      ∧ (∀ j < b.1, computeDistance sqrt s (routeAt s j ++ [load]) ≤ s.maxDistance →
          b.2 < computeDistance sqrt s (routeAt s j ++ [load]))

/-! ## Reading a problem file -/

/-- The character `(`. -/
def lparen : Char := Char.ofNat 40

/-- The character `)`. -/
def rparen : Char := Char.ofNat 41

/-- The character `,`. -/
def comma : Char := Char.ofNat 44

/-- Go `unicode.IsSpace`: tab, line feed, vertical tab, form feed, carriage
return, space, U+0085, U+00A0 and the other characters with the White_Space
property. -/
def isSpace (c : Char) : Bool :=
  let n := c.toNat
  n == 9 || n == 10 || n == 11 || n == 12 || n == 13 || n == 32 || n == 0x85 || n == 0xA0
    || n == 0x1680 || (0x2000 ≤ n && n ≤ 0x200A) || n == 0x2028 || n == 0x2029
    || n == 0x202F || n == 0x205F || n == 0x3000

/-- Loop of `strings.Fields`: `cur` holds the current field, reversed. -/
def fieldsFrom : List Char → List Char → List String
  | [], cur => if cur.isEmpty then [] else [String.mk cur.reverse]
  | c :: cs, cur =>
    if isSpace c then
      if cur.isEmpty then fieldsFrom cs [] else String.mk cur.reverse :: fieldsFrom cs []
    else fieldsFrom cs (c :: cur)

/-- Go `strings.Fields`: the maximal runs of non-space characters. -/
def Fields (s : String) : List String := fieldsFrom s.toList []

/-- Loop of `strings.Split`: `cur` holds the current piece, reversed. -/
def splitFrom (sep : Char) : List Char → List Char → List String
  | [], cur => [String.mk cur.reverse]
  | c :: cs, cur =>
    if c = sep then String.mk cur.reverse :: splitFrom sep cs [] else splitFrom sep cs (c :: cur)

/-- Go `strings.Split(s, sep)` for a separator of one character. -/
def Split (s : String) (sep : Char) : List String := splitFrom sep s.toList []

/-- Go `strings.Trim(s, cutset)`: drop the leading and trailing characters that
are in `cutset`. -/
def Trim (s : String) (cutset : List Char) : String :=
  String.mk ((s.toList.dropWhile (fun c => cutset.contains c)).reverse.dropWhile
    (fun c => cutset.contains c)).reverse

/-- Go `strings.TrimSpace`. -/
def TrimSpace (s : String) : String :=
  String.mk ((s.toList.dropWhile isSpace).reverse.dropWhile isSpace).reverse

/-- Go `strings.ReplaceAll(s, c, "")` for one character `c`. -/
def removeChar (s : String) (c : Char) : String :=
  String.mk (s.toList.filter (fun x => x != c))

/-- The line feed character. -/
def lineFeed : Char := Char.ofNat 10

/-- The carriage return character. -/
def carriageReturn : Char := Char.ofNat 13

/-- MaxScanTokenSize of `bufio`: the largest buffer a `bufio.Scanner` made by
`bufio.NewScanner` allocates, `64 * 1024` bytes. -/
def MaxScanTokenSize : Nat := 64 * 1024

/-- dropCR of `bufio`: drop one trailing carriage return. -/
def dropCR (data : String) : String :=
  match data.toList.reverse with
  | c :: rest => if c = carriageReturn then String.mk rest.reverse else data
  | [] => data

/-- The lines `bufio.ScanLines` cuts from a text, before `dropCR`: the pieces
between line feeds; nothing follows a final line feed, and the empty text has no
line. -/
def rawLines (text : String) : List String :=
  let pieces := splitFrom lineFeed text.toList []
  if pieces.getLast? = some "" then pieces.dropLast else pieces

/-- Outcome of the loop `for scanner.Scan() { ... scanner.Text() ... }` over a
text: `lines` are the values of `scanner.Text()` in order, `err` tells whether
`scanner.Err()` is not `nil` afterwards. -/
structure Scanned where
  lines : List String
  err : Bool
deriving DecidableEq

/-- A `bufio.Scanner` made by `bufio.NewScanner` (split function `ScanLines`,
buffer of at most `MaxScanTokenSize` bytes) run over a text.  `Scan` yields the
lines one by one; it stops with `bufio.ErrTooLong` at the first line that does
not end within a full buffer, that is, a line of `MaxScanTokenSize` bytes or
more before its line feed (a carriage return before the line feed counts).
The text is valid UTF-8, its length in bytes is `String.utf8ByteSize`; read
errors of the underlying file are not modelled. -/
def scanLines (text : String) : Scanned :=
  let raw := rawLines text
  { lines := (raw.takeWhile (fun l => l.utf8ByteSize < MaxScanTokenSize)).map dropCR
    err := raw.any (fun l => MaxScanTokenSize ≤ l.utf8ByteSize) }

/-- LoadProblemFromFile of `main.go`, applied to the text of the opened file;
`toFloat` stands for the function `toFloat` of the source
(`strconv.ParseFloat`, `0` on error).  An empty line, a line with fewer than
three fields and a line whose second or third field has no comma are skipped
(`continue`).  When the scanner ends with an error the loads read so far are
dropped and the error is returned (`return nil, err`): the result `none`. -/
def LoadProblemFromFile (toFloat : String → R) (text : String) : Option (List (Load R)) :=
  let scanner := scanLines text
  let loads := scanner.lines.foldl (fun loads line =>
    if line = "" then loads
    else
      match Fields line with
      | id :: p1 :: p2 :: _ =>
        let pickupCoords := Trim p1 [lparen, rparen]
        let dropoffCoords := Trim p2 [lparen, rparen]
        match Split pickupCoords comma, Split dropoffCoords comma with
        | px :: py :: _, dx :: dy :: _ =>
          loads ++ [⟨id, ⟨toFloat px, toFloat py⟩, ⟨toFloat dx, toFloat dy⟩⟩]
        | _, _ => loads
      | _ => loads) []
  if scanner.err then none else some loads

/-- getPointFromPointStr of `util/util.go`; `none` stands for the panic of
`splits[1]` when the text has no comma. -/
def Util.getPointFromPointStr (toFloat : String → R) (pointStr : String) : Option (Point R) :=
  let pointStr := removeChar pointStr lparen
  let pointStr := removeChar pointStr rparen
  match Split pointStr comma with
  | x :: y :: _ => some ⟨toFloat x, toFloat y⟩
  | _ => none

/-- Loop of `util.LoadProblemFromProblemStr` after the header line: stops
(`break`) at the first line that is empty once trimmed; `none` stands for a
panic (`splits[1]`, `splits[2]` out of range).  The fields `Assigned` and
`DeliveryDistance` of `util.Load` are left out. -/
def Util.loadLines (toFloat : String → R) : List String → Option (List (Load R))
  | [] => some []
  | raw :: rest =>
    let line := TrimSpace raw
    if line = "" then some []
    else
      match Fields line with
      | id :: p1 :: p2 :: _ =>
        match Util.getPointFromPointStr toFloat p1, Util.getPointFromPointStr toFloat p2 with
        | some pickup, some dropoff =>
          (Util.loadLines toFloat rest).map (fun loads => ⟨id, pickup, dropoff⟩ :: loads)
        | _, _ => none
      | _ => none

/-- LoadProblemFromProblemStr of `util/util.go`: the first line the scanner
yields is the header and is skipped.  When the scanner ends with an error the
error is printed and the loads read so far are returned. -/
def Util.LoadProblemFromProblemStr (toFloat : String → R) (problemStr : String) :
    Option (List (Load R)) :=
  Util.loadLines toFloat ((scanLines problemStr).lines.drop 1)

/-- The load a line describes, in the words of the specification:
`<id> <pickupX,pickupY> <dropoffX,dropoffY>`, fields separated by white space,
parentheses around a point stripped; `none` when the line is not well-formed
(fewer than three fields, or a point without a comma). -/
def lineLoad (toFloat : String → R) (line : String) : Option (Load R) :=
  match Fields line with
  | id :: p1 :: p2 :: _ =>
    match Split (Trim p1 [lparen, rparen]) comma, Split (Trim p2 [lparen, rparen]) comma with
    | px :: py :: _, dx :: dy :: _ =>
      some ⟨id, ⟨toFloat px, toFloat py⟩, ⟨toFloat dx, toFloat dy⟩⟩
    | _, _ => none
  | _ => none

/-- A blank line: empty once trimmed. -/
def isBlank (line : String) : Bool := TrimSpace line == ""

/-- The loader in the words of claim C12: the first line is a header and is
ignored, the list stops at the first blank line, and the loads of the
well-formed lines in between are returned in order. -/
def headerBlankLoader (toFloat : String → R) (lines : List String) : List (Load R) :=
  ((lines.drop 1).takeWhile (fun l => !isBlank l)).filterMap (lineLoad toFloat)

end Defs

/-! ## Binary floating point

The values the program computes are `float64` values.  The definitions below
model the finite `float64` values and the operations of the program on them
(IEEE 754 binary64, round to nearest, ties to even), and repeat the distance,
cost, savings and merge functions of `main.go` with these operations.  Values
outside the normal range (overflow to infinity, subnormal results, `NaN`) and
the sign of zero are not modelled. -/

/-- A finite `float64` value: `m * 2 ^ e`.  The operations return zero as
`⟨0, 0⟩` and every other value with `2 ^ 52 ≤ |m| < 2 ^ 53`, the 53 bits of
the significand. -/
structure F64 where
  m : Int
  e : Int
deriving DecidableEq

namespace F64

/-- Loop of `bitLength`. -/
def bitLengthAux : Nat → Nat → Nat
  | 0, _ => 0
  | fuel + 1, n => if n = 0 then 0 else bitLengthAux fuel (n / 2) + 1

/-- Number of binary digits of `n` (for `n < 2 ^ 4096`). -/
def bitLength (n : Nat) : Nat := bitLengthAux 4096 n

/-- The `float64` value nearest to the exact value `m * 2 ^ e`: the significand
is cut to 53 bits, rounding to nearest, a tie going to the even significand. -/
def round (m e : Int) : F64 :=
  let a := m.natAbs
  if a = 0 then ⟨0, 0⟩
  else
    let n := bitLength a
    if n ≤ 53 then ⟨m * 2 ^ (53 - n), e - ((53 - n : Nat) : Int)⟩
    else
      let k := n - 53
      let q := a / 2 ^ k
      let r := a % 2 ^ k
      let half := 2 ^ (k - 1)
      let q := if half < r ∨ (r = half ∧ q % 2 = 1) then q + 1 else q
      if q = 2 ^ 53 then ⟨m.sign * 2 ^ 52, e + (k : Int) + 1⟩
      else ⟨m.sign * (q : Int), e + (k : Int)⟩

/-- The `float64` value of an integer (exact below `2 ^ 53`). -/
def ofInt (n : Int) : F64 := round n 0

/-- Go `x + y` on `float64`: the exact sum, rounded. -/
def add (a b : F64) : F64 :=
  let e := min a.e b.e
  round (a.m * 2 ^ (a.e - e).toNat + b.m * 2 ^ (b.e - e).toNat) e

/-- Go `-x` on `float64`. -/
def neg (a : F64) : F64 := ⟨-a.m, a.e⟩

/-- Go `x - y` on `float64`: the exact difference, rounded. -/
def sub (a b : F64) : F64 := add a (neg b)

/-- Go `x * y` on `float64`: the exact product, rounded. -/
def mul (a b : F64) : F64 := round (a.m * b.m) (a.e + b.e)

/-- Go `x <= y` on `float64`. -/
def le (a b : F64) : Bool :=
  let e := min a.e b.e
  a.m * 2 ^ (a.e - e).toNat ≤ b.m * 2 ^ (b.e - e).toNat

/-- Go `x < y` on `float64`. -/
def lt (a b : F64) : Bool :=
  let e := min a.e b.e
  a.m * 2 ^ (a.e - e).toNat < b.m * 2 ^ (b.e - e).toNat

/-- Integer square root, one binary digit at a time: with `r * r ≤ n` and
`n < (r + 2 ^ k) * (r + 2 ^ k)`, the largest `s` with `s * s ≤ n`. -/
def sqrtBits (n : Nat) : Nat → Nat → Nat
  | 0, r => r
  | k + 1, r =>
    if (r + 2 ^ k) * (r + 2 ^ k) ≤ n then sqrtBits n k (r + 2 ^ k) else sqrtBits n k r

/-- Go `math.Sqrt` on a `float64` that is not negative: the exact square root,
rounded.  The significand is scaled by `2 ^ 64` or `2 ^ 65` so that the exponent
is even; the integer square root `r` of the scaled significand has more than 54
bits, so when the root is not exact its rounding is the rounding of `r + 1/2`.
The argument of `math.Sqrt` in the program is a sum of squares, never negative;
a negative argument (`NaN` in Go) is given the value zero. -/
def sqrt (a : F64) : F64 :=
  if a.m ≤ 0 then ⟨0, 0⟩
  else
    let s : Nat := if a.e % 2 = 0 then 64 else 65
    let n := a.m.toNat * 2 ^ s
    let r := sqrtBits n 64 0
    if r * r = n then round r ((a.e - s) / 2) else round (2 * r + 1) ((a.e - s) / 2 - 1)

/-- Go `math.Pow(x, 2)`: for the exponent `2` the loop of `math.Pow` squares
the fraction of `x` once and scales the result back, which is the rounded
product `x * x`. -/
def pow2 (x : F64) : F64 := mul x x

/-- The point with integer coordinates `(x, y)`. -/
def point (x y : Int) : Point F64 := ⟨ofInt x, ofInt y⟩

/-- DistanceBetweenPoints of `main.go` on `float64`:
`math.Sqrt(math.Pow(p2.X-p1.X, 2) + math.Pow(p2.Y-p1.Y, 2))`. -/
def DistanceBetweenPoints (p1 p2 : Point F64) : F64 :=
  sqrt (add (pow2 (sub p2.X p1.X)) (pow2 (sub p2.Y p1.Y)))

/-- Body of the `for i := range nodes` loop of `computeDistance` on `float64`. -/
def computeDistanceStep (s : Solution F64) (nodes : List (Load F64)) (distance : F64)
    (i : Nat) : F64 :=
  match nodes[i]? with
  | none => distance
  | some n =>
    let distance :=
      if i = 0 then add distance (DistanceBetweenPoints s.depot n.Pickup)
      else
        match nodes[i - 1]? with
        | none => distance
        | some p => add distance (DistanceBetweenPoints p.Dropoff n.Pickup)
    add distance (DistanceBetweenPoints n.Pickup n.Dropoff)

/-- computeDistance of `main.go` on `float64`. -/
def computeDistance (s : Solution F64) (nodes : List (Load F64)) : F64 :=
  match nodes.getLast? with
  | none => ofInt 0
  | some last =>
    let distance := (List.range nodes.length).foldl (computeDistanceStep s nodes) (ofInt 0)
    add distance (DistanceBetweenPoints last.Dropoff s.depot)

/-- calculateCost of `main.go` on `float64`:
`500*float64(len(s.drivers)) + totalDistance`. -/
def calculateCost (s : Solution F64) : F64 :=
  let totalDistance :=
    s.drivers.foldl (fun totalDistance driver =>
      add totalDistance (computeDistance s driver.Route)) (ofInt 0)
  add (mul (ofInt 500) (ofInt s.drivers.length)) totalDistance

/-- findDriverForLoad of `main.go`. -/
def findDriverForLoad (s : Solution F64) (load : Load F64) : Option Nat :=
  s.drivers.findIdx? (fun driver => driver.Route.any (fun l => l.ID == load.ID))

/-- removeDriver of `main.go` (the driver at position `i`). -/
def removeDriver (s : Solution F64) (i : Nat) : Solution F64 :=
  { s with drivers := s.drivers.eraseIdx i }

/-- Route of the driver at position `i` (`s.drivers[i].Route`). -/
def routeAt (s : Solution F64) (i : Nat) : List (Load F64) :=
  (s.drivers.getD i ⟨[]⟩).Route

/-- Assignment `s.drivers[i].Route = route`. -/
def setRoute (s : Solution F64) (i : Nat) (route : List (Load F64)) : Solution F64 :=
  { s with drivers := s.drivers.set i ⟨route⟩ }

/-- Step 1 of `clarkeWrightSavings` on `float64`, the map visited in the orders
`outer` and `inner load1`. -/
def savingsListWith (s : Solution F64) (outer : List (Load F64))
    (inner : Load F64 → List (Load F64)) : List (SavingsEntry F64) :=
  outer.foldl (fun savings load1 =>
    (inner load1).foldl (fun savings load2 =>
      if load1.ID == load2.ID then savings
      else
        let saving := sub (add (DistanceBetweenPoints s.depot load1.Pickup)
          (DistanceBetweenPoints load2.Dropoff s.depot))
          (DistanceBetweenPoints load1.Pickup load2.Dropoff)
        savings ++ [⟨load1, load2, saving⟩]) savings) []

/-- Step 1 of `clarkeWrightSavings` on `float64` with the map visited in list
order. -/
def savingsList (s : Solution F64) : List (SavingsEntry F64) :=
  savingsListWith s s.loadByID (fun _ => s.loadByID)

/-- Step 2 of `clarkeWrightSavings` on `float64`: `sort.Slice` with
`less(i, j) = savings[i].Saving > savings[j].Saving`, modelled by insertion
sort. -/
def sortSavings (savings : List (SavingsEntry F64)) : List (SavingsEntry F64) :=
  savings.insertionSort (fun a b => le b.Saving a.Saving = true)

/-- Body of the merge loop (step 3) of `clarkeWrightSavings` on `float64`. -/
def mergeStep (s : Solution F64) (saving : SavingsEntry F64) : Solution F64 :=
  let fromDriver := findDriverForLoad s saving.From
  let toDriver := findDriverForLoad s saving.To
  match fromDriver, toDriver with
  | none, none =>
    { s with drivers := s.drivers ++ [⟨[saving.From, saving.To]⟩] }
  | some f, none =>
    if le (computeDistance s (routeAt s f ++ [saving.To])) s.maxDistance then
      setRoute s f (routeAt s f ++ [saving.To])
    else s
  | none, some t =>
    if le (computeDistance s ([saving.From] ++ routeAt s t)) s.maxDistance then
      setRoute s t ([saving.From] ++ routeAt s t)
    else s
  | some f, some t =>
    if f ≠ t then
      if le (computeDistance s (routeAt s f ++ routeAt s t)) s.maxDistance then
        removeDriver (setRoute s f (routeAt s f ++ routeAt s t)) t
      else s
    else s

/-- Step 3 of `clarkeWrightSavings` on `float64`: the merge loop over the
savings list. -/
def mergeRoutes (s : Solution F64) (savings : List (SavingsEntry F64)) : Solution F64 :=
  savings.foldl mergeStep s

end F64

/-- Load `I` of the rounding example of the savings: it rests at `(1,1)`. -/
def roundI : Load F64 := ⟨"I", F64.point 1 1, F64.point 1 1⟩

/-- Load `J` of the rounding example of the savings: it rests at `(-3,-3)`. -/
def roundJ : Load F64 := ⟨"J", F64.point (-3) (-3), F64.point (-3) (-3)⟩

/-- The rounding example of the savings: the loads `I` and `J`, the depot at the
origin. -/
def roundSavings : Solution F64 := ⟨[], [roundI, roundJ], F64.point 0 0, F64.ofInt 720⟩

/-- Load `A1` of the rounding example of the merge: it rests at `(7,2)`. -/
def roundA1 : Load F64 := ⟨"A1", F64.point 7 2, F64.point 7 2⟩

/-- Load `A2` of the rounding example of the merge: it rests at `(7,2)`. -/
def roundA2 : Load F64 := ⟨"A2", F64.point 7 2, F64.point 7 2⟩

/-- Load `B1` of the rounding example of the merge: it rests at `(-21,-6)`. -/
def roundB1 : Load F64 := ⟨"B1", F64.point (-21) (-6), F64.point (-21) (-6)⟩

/-- Load `B2` of the rounding example of the merge: it rests at `(-21,-6)`. -/
def roundB2 : Load F64 := ⟨"B2", F64.point (-21) (-6), F64.point (-21) (-6)⟩

/-- The rounding example of the merge as loaded: the four loads, no driver, the
depot at the origin. -/
def roundLoads : Solution F64 :=
  ⟨[], [roundA1, roundA2, roundB1, roundB2], F64.point 0 0, F64.ofInt 720⟩

/-- The rounding example of the merge, before the merge: the merge loop has
made the drivers `[B1, B2]` and `[A1, A2]` from the pairs of largest saving. -/
def roundStart : Solution F64 :=
  ⟨[⟨[roundB1, roundB2]⟩, ⟨[roundA1, roundA2]⟩], [roundA1, roundA2, roundB1, roundB2],
    F64.point 0 0, F64.ofInt 720⟩

/-- The rounding example of the merge, after the merge for the pair
`(A1, B1)`. -/
def roundEnd : Solution F64 :=
  ⟨[⟨[roundA1, roundA2, roundB1, roundB2]⟩], [roundA1, roundA2, roundB1, roundB2],
    F64.point 0 0, F64.ofInt 720⟩

/-! ## Route distance -/

theorem lastPoint_concat {R : Type} (depot : Point R) (pre : List (Load R)) (l : Load R) :
    lastPoint depot (pre ++ [l]) = l.Dropoff := by
  simp [lastPoint]

theorem computeDistanceStep_at {R : Type} [LinearOrderedCommRing R] (sqrt : R → R) (s : Solution R) (pre rest : List (Load R))
    (l : Load R) (acc : R) :
    computeDistanceStep sqrt s (pre ++ l :: rest) acc pre.length
      = acc + DistanceBetweenPoints sqrt (lastPoint s.depot pre) l.Pickup
        + DistanceBetweenPoints sqrt l.Pickup l.Dropoff := by
  rcases List.eq_nil_or_concat pre with h | ⟨init, p, h⟩
  · subst h
    simp [computeDistanceStep, lastPoint]
  · rw [List.concat_eq_append] at h
    subst h
    have h1 : (init ++ [p] ++ l :: rest)[(init ++ [p]).length]? = some l := by
      rw [List.getElem?_append_right (le_refl _)]
      simp
    have h2 : (init ++ [p] ++ l :: rest)[(init ++ [p]).length - 1]? = some p := by
      rw [List.append_assoc, List.getElem?_append_right (by simp)]
      simp
    have h3 : ¬ (init ++ [p]).length = 0 := by simp
    unfold computeDistanceStep
    simp only [h1, h2, h3, if_false]
    simp [lastPoint]

theorem foldl_computeDistanceStep {R : Type} [LinearOrderedCommRing R] (sqrt : R → R) (s : Solution R) (suf : List (Load R)) :
    ∀ (pre : List (Load R)) (acc : R),
      (List.range' pre.length suf.length).foldl (computeDistanceStep sqrt s (pre ++ suf)) acc
        = acc + openLegs sqrt (lastPoint s.depot pre) suf := by
  induction suf with
  | nil => intro pre acc; simp [openLegs]
  | cons l rest ih =>
    intro pre acc
    have h := ih (pre ++ [l]) (computeDistanceStep sqrt s (pre ++ l :: rest) acc pre.length)
    simp only [List.length_append, List.length_singleton, List.append_assoc,
      List.singleton_append] at h
    simp only [List.length_cons, List.range'_succ, List.foldl_cons]
    rw [h, computeDistanceStep_at, lastPoint_concat, openLegs]
    ring

theorem computeDistance_cons {R : Type} [LinearOrderedCommRing R] (sqrt : R → R) (s : Solution R) (l : Load R) (rest : List (Load R)) :
    computeDistance sqrt s (l :: rest)
      = openLegs sqrt s.depot (l :: rest)
        + DistanceBetweenPoints sqrt (lastPoint s.depot (l :: rest)) s.depot := by
  have h := foldl_computeDistanceStep sqrt s (l :: rest) [] 0
  simp only [List.length_nil, List.nil_append, zero_add] at h
  rw [← List.range_eq_range'] at h
  unfold computeDistance
  cases hl : (l :: rest).getLast? with
  | none => simp at hl
  | some last =>
    simp only []
    rw [h]
    simp [lastPoint, hl]


theorem lastPoint_cons {R : Type} (depot : Point R) (l : Load R) (rest : List (Load R)) :
    lastPoint depot (l :: rest) = ((l :: rest).getLast (List.cons_ne_nil _ _)).Dropoff := by
  simp [lastPoint, List.getLast?_eq_getLast]

theorem openLegs_closed {R : Type} [LinearOrderedCommRing R] (sqrt : R → R) (depot : Point R) (rest : List (Load R)) :
    ∀ (prev : Point R) (l : Load R),
      openLegs sqrt prev (l :: rest)
          + DistanceBetweenPoints sqrt (lastPoint depot (l :: rest)) depot
        = DistanceBetweenPoints sqrt prev l.Pickup
          + ((l :: rest).map (fun l => DistanceBetweenPoints sqrt l.Pickup l.Dropoff)).sum
          + (List.zipWith (fun l next => DistanceBetweenPoints sqrt l.Dropoff next.Pickup)
              (l :: rest) rest).sum
          + DistanceBetweenPoints sqrt ((l :: rest).getLast (List.cons_ne_nil _ _)).Dropoff
              depot := by
  induction rest with
  | nil => intro prev l; simp [openLegs, lastPoint]
  | cons r rest ih =>
    intro prev l
    have h := ih l.Dropoff r
    rw [lastPoint_cons] at h ⊢
    rw [openLegs]
    simp only [List.map_cons, List.sum_cons, List.zipWith_cons_cons, List.getLast_cons_cons] at h ⊢
    linear_combination h

theorem computeDistance_eq_routeDistance {R : Type} [LinearOrderedCommRing R] (sqrt : R → R) (s : Solution R)
    (nodes : List (Load R)) :
    computeDistance sqrt s nodes = routeDistance sqrt s.depot nodes := by
  cases nodes with
  | nil => simp [computeDistance, routeDistance]
  | cons l rest =>
    rw [computeDistance_cons, openLegs_closed, routeDistance]

/-! ## Distances, boundary cases -/

theorem dist_vertical (a b : ℝ) :
    DistanceBetweenPoints Real.sqrt ⟨0, a⟩ ⟨0, b⟩ = |b - a| := by
  simp [DistanceBetweenPoints, Real.sqrt_sq_eq_abs]

/-- Claim C10 (distance symmetry and identity).  Over the reals, with
`Real.sqrt`, both versions of `DistanceBetweenPoints` (`main.go` and
`util/util.go`) satisfy `distance p q = distance q p` and `distance p p = 0`. -/
theorem distance_symm_self (p q : Point ℝ) :
    DistanceBetweenPoints Real.sqrt p q = DistanceBetweenPoints Real.sqrt q p
      ∧ DistanceBetweenPoints Real.sqrt p p = 0
      ∧ Util.DistanceBetweenPoints Real.sqrt p q = Util.DistanceBetweenPoints Real.sqrt q p
      ∧ Util.DistanceBetweenPoints Real.sqrt p p = 0 := by
  refine ⟨?_, ?_, ?_, ?_⟩
  · unfold DistanceBetweenPoints
    congr 1
    ring
  · simp [DistanceBetweenPoints]
  · simp only [Util.DistanceBetweenPoints]
    congr 1
    ring
  · simp [Util.DistanceBetweenPoints]

/-- Claim C9 (route distance is the closed-tour length).  `computeDistance` of the
empty route is `0`; for every route it equals `routeDistance`, the closed tour
written as in the specification (depot to first pickup, every pickup-to-dropoff
leg, every dropoff-to-next-pickup leg, last dropoff to depot); and for the
worked example route `[A, B]` over the reals it equals `60`. -/
theorem computeDistance_closed_tour :
    (∀ (R : Type) [LinearOrderedCommRing R] (sqrt : R → R) (s : Solution R),
        computeDistance sqrt s [] = 0
          ∧ ∀ nodes : List (Load R),
              computeDistance sqrt s nodes = routeDistance sqrt s.depot nodes)
      ∧ computeDistance Real.sqrt (withLoads [exampleA, exampleB]) [exampleA, exampleB] = 60 := by
  refine ⟨fun R _ sqrt s => ⟨by simp [computeDistance], computeDistance_eq_routeDistance sqrt s⟩, ?_⟩
  simp [computeDistance, computeDistanceStep, withLoads, exampleA, exampleB, NewSolution,
    List.range_succ, dist_vertical]
  norm_num

theorem localSearchPass_nil {R : Type} [LinearOrderedCommRing R] (sqrt : R → R)
    (s : Solution R) (h : s.drivers = []) : localSearchPass sqrt s = (s, false) := by
  simp [localSearchPass, h]

theorem localSearchPass_single {R : Type} [LinearOrderedCommRing R] (sqrt : R → R)
    (s : Solution R) (d : Driver R) (h : s.drivers = [d]) : localSearchPass sqrt s = (s, false) := by
  simp [localSearchPass, h]

/-- Claim C8 (empty input).  On a solution with no loads and no drivers,
`clarkeWrightSavings` leaves zero drivers, `localSearch` (any positive number of
passes allowed) returns that solution, and its `calculateCost` is `0`. -/
theorem empty_input {R : Type} [LinearOrderedCommRing R] (sqrt : R → R)
    (depot : Point R) (maxDistance : R) (fuel : Nat) :
    clarkeWrightSavings sqrt ⟨[], [], depot, maxDistance⟩ = ⟨[], [], depot, maxDistance⟩
      ∧ localSearch sqrt (fuel + 1) (clarkeWrightSavings sqrt ⟨[], [], depot, maxDistance⟩)
          = some ⟨[], [], depot, maxDistance⟩
      ∧ calculateCost sqrt (⟨[], [], depot, maxDistance⟩ : Solution R) = 0 := by
  have h1 : clarkeWrightSavings sqrt ⟨[], [], depot, maxDistance⟩
      = (⟨[], [], depot, maxDistance⟩ : Solution R) := by
    simp [clarkeWrightSavings, savingsList, savingsListWith, sortSavings, mergeRoutes,
      reassignLoads, reassignLoadsWith]
  refine ⟨h1, ?_, ?_⟩
  · rw [h1, localSearch, localSearchPass_nil sqrt _ rfl]
    simp
  · simp [calculateCost]

/-- Claim C7 (single load).  For every load `L`, depot and cap `maxDistance`
(no assumption on the round trip of `L`), `clarkeWrightSavings` on the instance
with the only load `L` yields exactly one driver with route `[L]`,
`localSearch` (any positive number of passes allowed) returns that solution,
and its cost is `500 + distance(depot, L.pickup) + distance(L.pickup, L.dropoff)
+ distance(L.dropoff, depot)`. -/
theorem single_load {R : Type} [LinearOrderedCommRing R] (sqrt : R → R)
    (L : Load R) (depot : Point R) (maxDistance : R) (fuel : Nat) :
    clarkeWrightSavings sqrt ⟨[], [L], depot, maxDistance⟩ = ⟨[⟨[L]⟩], [L], depot, maxDistance⟩
      ∧ localSearch sqrt (fuel + 1) (clarkeWrightSavings sqrt ⟨[], [L], depot, maxDistance⟩)
          = some ⟨[⟨[L]⟩], [L], depot, maxDistance⟩
      ∧ calculateCost sqrt (⟨[⟨[L]⟩], [L], depot, maxDistance⟩ : Solution R)
          = 500 + DistanceBetweenPoints sqrt depot L.Pickup
              + DistanceBetweenPoints sqrt L.Pickup L.Dropoff
              + DistanceBetweenPoints sqrt L.Dropoff depot := by
  have h1 : clarkeWrightSavings sqrt ⟨[], [L], depot, maxDistance⟩
      = (⟨[⟨[L]⟩], [L], depot, maxDistance⟩ : Solution R) := by
    simp [clarkeWrightSavings, savingsList, savingsListWith, sortSavings, mergeRoutes,
      reassignLoads, reassignLoadsWith, findDriverForLoad, reassignOne, bestDriverFor]
  refine ⟨h1, ?_, ?_⟩
  · rw [h1, localSearch, localSearchPass_single sqrt _ _ rfl]
    simp
  · simp [calculateCost, computeDistance, computeDistanceStep, List.range_succ]
    ring

/-! ## Worked example -/

theorem example_savings_AB :
    sortSavings (savingsList Real.sqrt (withLoads [exampleA, exampleB]))
      = [⟨exampleB, exampleA, 20⟩, ⟨exampleA, exampleB, 0⟩] := by
  simp [savingsList, savingsListWith, withLoads, exampleA, exampleB, NewSolution, dist_vertical,
    sortSavings, List.insertionSort, List.orderedInsert]
  norm_num

theorem example_savings_BA :
    sortSavings (savingsList Real.sqrt (withLoads [exampleB, exampleA]))
      = [⟨exampleB, exampleA, 20⟩, ⟨exampleA, exampleB, 0⟩] := by
  simp [savingsList, savingsListWith, withLoads, exampleA, exampleB, NewSolution, dist_vertical,
    sortSavings, List.insertionSort, List.orderedInsert]
  norm_num

theorem example_construction (loads : List (Load ℝ))
    (h : sortSavings (savingsList Real.sqrt (withLoads loads))
      = [⟨exampleB, exampleA, 20⟩, ⟨exampleA, exampleB, 0⟩])
    (hl : loads = [exampleA, exampleB] ∨ loads = [exampleB, exampleA]) :
    clarkeWrightSavings Real.sqrt (withLoads loads)
      = { withLoads loads with drivers := [⟨[exampleB, exampleA]⟩] } := by
  unfold clarkeWrightSavings
  rw [h]
  rcases hl with hl | hl <;> subst hl <;>
  simp [mergeRoutes, mergeStep, findDriverForLoad, withLoads, NewSolution, exampleA, exampleB,
    reassignLoads, reassignLoadsWith]

theorem example_cost (loads : List (Load ℝ)) :
    calculateCost Real.sqrt { withLoads loads with drivers := [⟨[exampleB, exampleA]⟩] } = 580 := by
  simp [calculateCost, computeDistance, computeDistanceStep, withLoads, exampleA, exampleB,
    NewSolution, List.range_succ, dist_vertical]
  norm_num

/-! ## A first pair over the cap -/

theorem overCap_savings (loads : List (Load ℝ))
    (hl : loads = [overCapA, overCapB] ∨ loads = [overCapB, overCapA]) :
    sortSavings (savingsList Real.sqrt (withLoads loads))
      = [⟨overCapB, overCapA, 600⟩, ⟨overCapA, overCapB, 200⟩] := by
  rcases hl with hl | hl <;> subst hl <;>
  simp [savingsList, savingsListWith, withLoads, overCapA, overCapB, NewSolution, dist_vertical,
    sortSavings, List.insertionSort, List.orderedInsert] <;>
  norm_num

theorem overCap_construction (loads : List (Load ℝ))
    (hl : loads = [overCapA, overCapB] ∨ loads = [overCapB, overCapA]) :
    clarkeWrightSavings Real.sqrt (withLoads loads)
      = { withLoads loads with drivers := [⟨[overCapB, overCapA]⟩] } := by
  unfold clarkeWrightSavings
  rw [overCap_savings loads hl]
  rcases hl with hl | hl <;> subst hl <;>
  simp [mergeRoutes, mergeStep, findDriverForLoad, withLoads, NewSolution, overCapA, overCapB,
    reassignLoads, reassignLoadsWith]

theorem overCap_distance (s : Solution ℝ) (h : s.depot = ⟨0, 0⟩) :
    computeDistance Real.sqrt s [overCapB, overCapA] = 1100
      ∧ computeDistance Real.sqrt s [overCapA] = 600
      ∧ computeDistance Real.sqrt s [overCapB] = 700 := by
  refine ⟨?_, ?_, ?_⟩ <;>
  simp [computeDistance, computeDistanceStep, overCapA, overCapB, h, List.range_succ,
    dist_vertical] <;>
  norm_num

/-- Claim C2 at a failing input.  For the loads `1 = (0,100)->(0,300)` and
`2 = (0,350)->(0,100)` (depot at the origin, cap `720`), over the reals and for
both orders of the map, `clarkeWrightSavings` returns the single route `[2, 1]`,
created by the branch taken when neither load has a driver, which makes no
feasibility check; its `computeDistance` is `1100`, above `maxDistance = 720`,
so a route with two loads exceeds the cap. -/
theorem cap_exceeded_by_first_pair :
    (clarkeWrightSavings Real.sqrt (withLoads [overCapA, overCapB])).drivers
        = [⟨[overCapB, overCapA]⟩]
      ∧ (clarkeWrightSavings Real.sqrt (withLoads [overCapB, overCapA])).drivers
        = [⟨[overCapB, overCapA]⟩]
      ∧ (clarkeWrightSavings Real.sqrt (withLoads [overCapA, overCapB])).maxDistance = 720
      ∧ computeDistance Real.sqrt (clarkeWrightSavings Real.sqrt (withLoads [overCapA, overCapB]))
          [overCapB, overCapA] = 1100
      ∧ ∃ d ∈ (clarkeWrightSavings Real.sqrt (withLoads [overCapA, overCapB])).drivers,
          2 ≤ d.Route.length
            ∧ ¬ computeDistance Real.sqrt
                  (clarkeWrightSavings Real.sqrt (withLoads [overCapA, overCapB])) d.Route
                ≤ (clarkeWrightSavings Real.sqrt (withLoads [overCapA, overCapB])).maxDistance := by
  rw [overCap_construction _ (Or.inl rfl), overCap_construction _ (Or.inr rfl)]
  have hmax : ({ withLoads [overCapA, overCapB] with
      drivers := [⟨[overCapB, overCapA]⟩] } : Solution ℝ).maxDistance = 720 := by
    simp [withLoads, NewSolution]
    norm_num
  refine ⟨rfl, rfl, hmax, (overCap_distance _ rfl).1, ⟨[overCapB, overCapA]⟩, ?_, ?_, ?_⟩
  · simp
  · simp
  · rw [(overCap_distance _ rfl).1, hmax]
    norm_num

/-! ## Generic facts about loops -/

theorem foldl_preserves {σ ι : Type} (P : σ → Prop) (f : σ → ι → σ)
    (h : ∀ st x, P st → P (f st x)) :
    ∀ (l : List ι) (st : σ), P st → P (l.foldl f st) := by
  intro l
  induction l with
  | nil => intro st hst; exact hst
  | cons x xs ih => intro st hst; exact ih (f st x) (h st x hst)

theorem foldl_preserves_mem {σ ι : Type} (P : σ → Prop) (f : σ → ι → σ) (l : List ι)
    (h : ∀ st x, x ∈ l → P st → P (f st x)) (st : σ) (hst : P st) : P (l.foldl f st) := by
  induction l generalizing st with
  | nil => exact hst
  | cons x xs ih =>
    exact ih (fun st y hy => h st y (List.mem_cons_of_mem _ hy)) (f st x)
      (h st x (List.mem_cons_self _ _) hst)

/-- A loop whose body either raises a flag or leaves the state unchanged: when
the flag is down after the loop, the state is the initial one and every
iteration left it unchanged. -/
theorem foldl_flag_down {σ ι : Type} (flag : σ → Bool) (f : σ → ι → σ) (l : List ι)
    (stay : ∀ st x, x ∈ l → flag (f st x) = false → f st x = st) (st : σ)
    (hflag : flag (l.foldl f st) = false) :
    l.foldl f st = st ∧ ∀ x ∈ l, f st x = st := by
  induction l generalizing st with
  | nil => simp
  | cons x xs ih =>
    rw [List.foldl_cons] at hflag ⊢
    obtain ⟨h1, h2⟩ := ih (fun st y hy => stay st y (List.mem_cons_of_mem _ hy)) (f st x) hflag
    have h3 : f st x = st := stay st x (List.mem_cons_self _ _) (by rw [← h1]; exact hflag)
    refine ⟨by rw [h1, h3], ?_⟩
    intro y hy
    rcases List.mem_cons.mp hy with rfl | hy
    · exact h3
    · have := h2 y hy
      rwa [h3] at this

/-! ## Counting loads over the routes -/

theorem set_getElem?_self {α : Type} :
    ∀ (l : List α) (a : Nat) (w : α), l[a]? = some w → l.set a w = l := by
  intro l
  induction l with
  | nil => intro a w h; simp
  | cons x xs ih =>
    intro a w h
    cases a with
    | zero => simp at h; simp [h]
    | succ n => simp at h; simp [ih n w h]

theorem sum_map_set {α : Type} (φ : α → Nat) :
    ∀ (l : List α) (a : Nat) (x y : α), l[a]? = some y →
      ((l.set a x).map φ).sum + φ y = (l.map φ).sum + φ x := by
  intro l
  induction l with
  | nil => intro a x y h; simp at h
  | cons z zs ih =>
    intro a x y h
    cases a with
    | zero =>
      simp at h
      subst h
      simp
      omega
    | succ n =>
      simp at h
      have := ih n x y h
      simp only [List.set_cons_succ, List.map_cons, List.sum_cons]
      omega

theorem sum_map_eraseIdx {α : Type} (φ : α → Nat) :
    ∀ (l : List α) (a : Nat) (y : α), l[a]? = some y →
      ((l.eraseIdx a).map φ).sum + φ y = (l.map φ).sum := by
  intro l
  induction l with
  | nil => intro a y h; simp at h
  | cons z zs ih =>
    intro a y h
    cases a with
    | zero =>
      simp at h
      subst h
      simp
      omega
    | succ n =>
      simp at h
      have := ih n y h
      simp
      omega

theorem countP_set_add {α : Type} (p : α → Bool) :
    ∀ (l : List α) (i : Nat) (x y : α), l[i]? = some y →
      (l.set i x).countP p + (if p y then 1 else 0) = l.countP p + (if p x then 1 else 0) := by
  intro l
  induction l with
  | nil => intro i x y h; simp at h
  | cons z zs ih =>
    intro i x y h
    cases i with
    | zero =>
      simp at h
      subst h
      simp [List.countP_cons]
      omega
    | succ n =>
      simp at h
      have := ih n x y h
      simp [List.countP_cons]
      omega

theorem routeAt_of_getElem? {R : Type} [LinearOrderedCommRing R] (s : Solution R) (a : Nat)
    (d : Driver R) (h : s.drivers[a]? = some d) : routeAt s a = d.Route := by
  simp [routeAt, List.getD_eq_getElem?_getD, h]

theorem routeAt_getElem? {R : Type} [LinearOrderedCommRing R] (s : Solution R) (a i : Nat)
    (x : Load R) (h : (routeAt s a)[i]? = some x) :
    s.drivers[a]? = some ⟨routeAt s a⟩ := by
  cases hd : s.drivers[a]? with
  | none => simp [routeAt, List.getD_eq_getElem?_getD, hd, NewDriver] at h
  | some d => rw [routeAt_of_getElem? s a d hd]

theorem countIn_setRoute {R : Type} [LinearOrderedCommRing R] (p : Load R → Bool)
    (s : Solution R) (a : Nat) (r : List (Load R)) (d : Driver R) (h : s.drivers[a]? = some d) :
    countIn p (setRoute s a r) + d.Route.countP p = countIn p s + r.countP p := by
  simpa [countIn, setRoute] using
    sum_map_set (fun d : Driver R => d.Route.countP p) s.drivers a ⟨r⟩ d h

theorem countIn_removeDriver {R : Type} [LinearOrderedCommRing R] (p : Load R → Bool)
    (s : Solution R) (a : Nat) (d : Driver R) (h : s.drivers[a]? = some d) :
    countIn p (removeDriver s a) + d.Route.countP p = countIn p s := by
  simpa [countIn, removeDriver] using
    sum_map_eraseIdx (fun d : Driver R => d.Route.countP p) s.drivers a d h

theorem countIn_eq_countP {R : Type} [LinearOrderedCommRing R] (p : Load R → Bool)
    (s : Solution R) : countIn p s = (routes s).flatten.countP p := by
  simp [countIn, routes, List.countP_flatten, Function.comp_def]

/-! ## Exchanging two loads -/

theorem routeAt_setRoute_self {R : Type} [LinearOrderedCommRing R] (s : Solution R) (a : Nat)
    (r : List (Load R)) (h : a < s.drivers.length) : routeAt (setRoute s a r) a = r := by
  simp [routeAt, setRoute, List.getD_eq_getElem?_getD, h]

theorem routeAt_setRoute_ne {R : Type} [LinearOrderedCommRing R] (s : Solution R) (a b : Nat)
    (r : List (Load R)) (h : a ≠ b) : routeAt (setRoute s a r) b = routeAt s b := by
  simp [routeAt, setRoute, List.getD_eq_getElem?_getD, List.getElem?_set_ne h]

theorem swapLoads_of_some {R : Type} [LinearOrderedCommRing R] (s : Solution R)
    (a b i j : Nat) (hab : a ≠ b) (x y : Load R) (hx : (routeAt s a)[i]? = some x)
    (hy : (routeAt s b)[j]? = some y) :
    swapLoads s a b i j
      = setRoute (setRoute s a ((routeAt s a).set i y)) b ((routeAt s b).set j x) := by
  simp only [swapLoads, hx, hy, routeAt_setRoute_ne _ a b _ hab]

theorem set_set_restore {α : Type} (D : List α) (a b : Nat) (A1 B1 A B : α)
    (hA : D[a]? = some A) (hB : D[b]? = some B) :
    (((D.set a A1).set b B1).set a A).set b B = D := by
  apply List.ext_getElem?
  intro k
  by_cases hkb : b = k
  · subst hkb
    rw [List.getElem?_set_self (by simpa using (List.getElem?_eq_some.mp hB).1), hB]
  · rw [List.getElem?_set_ne hkb]
    by_cases hka : a = k
    · subst hka
      rw [List.getElem?_set_self (by simpa using (List.getElem?_eq_some.mp hA).1), hA]
    · rw [List.getElem?_set_ne hka, List.getElem?_set_ne hkb, List.getElem?_set_ne hka]

/-- The second exchange of `swapLoadsBetweenDrivers` undoes the first: for two
different drivers, exchanging the same two positions twice restores the
solution. -/
theorem swapLoads_swapLoads {R : Type} [LinearOrderedCommRing R] (s : Solution R)
    (a b i j : Nat) (hab : a ≠ b) : swapLoads (swapLoads s a b i j) a b i j = s := by
  cases hx : (routeAt s a)[i]? with
  | none =>
    have : swapLoads s a b i j = s := by simp [swapLoads, hx]
    rw [this, this]
  | some x =>
    cases hy : (routeAt s b)[j]? with
    | none =>
      have : swapLoads s a b i j = s := by simp [swapLoads, hx, hy]
      rw [this, this]
    | some y =>
      have ha := routeAt_getElem? s a i x hx
      have hb := routeAt_getElem? s b j y hy
      have hal : a < s.drivers.length := (List.getElem?_eq_some.mp ha).1
      have hbl : b < s.drivers.length := (List.getElem?_eq_some.mp hb).1
      have hil : i < (routeAt s a).length := (List.getElem?_eq_some.mp hx).1
      have hjl : j < (routeAt s b).length := (List.getElem?_eq_some.mp hy).1
      have e1 := swapLoads_of_some s a b i j hab x y hx hy
      have r1 : routeAt (swapLoads s a b i j) a = (routeAt s a).set i y := by
        rw [e1, routeAt_setRoute_ne _ b a _ (Ne.symm hab), routeAt_setRoute_self _ _ _ hal]
      have r2 : routeAt (swapLoads s a b i j) b = (routeAt s b).set j x := by
        rw [e1, routeAt_setRoute_self]
        simpa [setRoute] using hbl
      have hx' : (routeAt (swapLoads s a b i j) a)[i]? = some y := by
        rw [r1]; simp [hil]
      have hy' : (routeAt (swapLoads s a b i j) b)[j]? = some x := by
        rw [r2]; simp [hjl]
      rw [swapLoads_of_some _ a b i j hab y x hx' hy', r1, r2, List.set_set, List.set_set,
        set_getElem?_self _ _ _ hx, set_getElem?_self _ _ _ hy, e1]
      simp only [setRoute]
      rw [set_set_restore s.drivers a b _ _ _ _ ha hb]

/-! ## Local search -/

theorem swapStep_cases {R : Type} [LinearOrderedCommRing R] (sqrt : R → R) (a b i j : Nat)
    (hab : a ≠ b) (st : SwapState R) :
    (calculateCost sqrt (swapLoads st.sol a b i j) < st.bestCost
        ∧ swapStep sqrt a b i st j
          = ⟨swapLoads st.sol a b i j, calculateCost sqrt (swapLoads st.sol a b i j), true⟩)
      ∨ (¬ calculateCost sqrt (swapLoads st.sol a b i j) < st.bestCost
        ∧ swapStep sqrt a b i st j = st) := by
  unfold swapStep
  by_cases h : calculateCost sqrt (swapLoads st.sol a b i j) < st.bestCost
  · left; simp [h]
  · right; simp [h, swapLoads_swapLoads st.sol a b i j hab]

theorem swapStep_stay {R : Type} [LinearOrderedCommRing R] (sqrt : R → R) (a b i j : Nat)
    (hab : a ≠ b) (st : SwapState R) (h : (swapStep sqrt a b i st j).bestSwap = false) :
    swapStep sqrt a b i st j = st := by
  rcases swapStep_cases sqrt a b i j hab st with ⟨_, h2⟩ | ⟨_, h2⟩
  · rw [h2] at h; simp at h
  · exact h2

theorem swapStep_inv {R : Type} [LinearOrderedCommRing R] (sqrt : R → R) (c : R) (a b i j : Nat)
    (hab : a ≠ b) (st : SwapState R) (h : SwapInv sqrt c st) :
    SwapInv sqrt c (swapStep sqrt a b i st j) := by
  obtain ⟨h1, h2, h3⟩ := h
  rcases swapStep_cases sqrt a b i j hab st with ⟨hlt, he⟩ | ⟨_, he⟩
  · rw [he]
    exact ⟨rfl, le_of_lt (lt_of_lt_of_le hlt h2), fun _ => lt_of_lt_of_le hlt h2⟩
  · rw [he]
    exact ⟨h1, h2, h3⟩

theorem swapLoadsBetweenDrivers_cost {R : Type} [LinearOrderedCommRing R] (sqrt : R → R)
    (s : Solution R) (a b : Nat) (hab : a ≠ b) :
    calculateCost sqrt (swapLoadsBetweenDrivers sqrt s a b).1 ≤ calculateCost sqrt s
      ∧ ((swapLoadsBetweenDrivers sqrt s a b).2 = true →
          calculateCost sqrt (swapLoadsBetweenDrivers sqrt s a b).1 < calculateCost sqrt s) := by
  have h : SwapInv sqrt (calculateCost sqrt s)
      ((List.range (routeAt s a).length).foldl (fun st i =>
        (List.range (routeAt s b).length).foldl (swapStep sqrt a b i) st)
        { sol := s, bestCost := calculateCost sqrt s, bestSwap := false }) := by
    apply foldl_preserves
    · intro st i hst
      apply foldl_preserves
      · intro st j hst
        exact swapStep_inv sqrt _ a b i j hab st hst
      · exact hst
    · exact ⟨rfl, le_refl _, fun h => by simp at h⟩
  obtain ⟨h1, h2, h3⟩ := h
  unfold swapLoadsBetweenDrivers
  simp only []
  rw [← h1]
  exact ⟨h2, h3⟩

theorem swapLoadsBetweenDrivers_stay {R : Type} [LinearOrderedCommRing R] (sqrt : R → R)
    (s : Solution R) (a b : Nat) (hab : a ≠ b)
    (h : (swapLoadsBetweenDrivers sqrt s a b).2 = false) :
    (swapLoadsBetweenDrivers sqrt s a b).1 = s
      ∧ ∀ i < (routeAt s a).length, ∀ j < (routeAt s b).length,
          ¬ calculateCost sqrt (swapLoads s a b i j) < calculateCost sqrt s := by
  unfold swapLoadsBetweenDrivers at h ⊢
  simp only [] at h ⊢
  have inner : ∀ (i : Nat) (st : SwapState R),
      ((List.range (routeAt s b).length).foldl (swapStep sqrt a b i) st).bestSwap = false →
      (List.range (routeAt s b).length).foldl (swapStep sqrt a b i) st = st
        ∧ ∀ j ∈ List.range (routeAt s b).length, swapStep sqrt a b i st j = st :=
    fun i st => foldl_flag_down SwapState.bestSwap (swapStep sqrt a b i) _
      (fun st j _ => swapStep_stay sqrt a b i j hab st) st
  obtain ⟨h1, h2⟩ := foldl_flag_down SwapState.bestSwap
    (fun st i => (List.range (routeAt s b).length).foldl (swapStep sqrt a b i) st) _
    (fun st i _ hf => (inner i st hf).1) _ h
  refine ⟨by rw [h1], ?_⟩
  intro i hi j hj hlt
  have h3 := h2 i (List.mem_range.mpr hi)
  have h4 := (inner i _ (by rw [h3])).2 j (List.mem_range.mpr hj)
  rcases swapStep_cases sqrt a b i j hab ⟨s, calculateCost sqrt s, false⟩ with ⟨_, he⟩ | ⟨hn, _⟩
  · rw [he] at h4
    simp at h4
  · exact hn hlt

/-- When the body of the inner loop of `localSearchPass` leaves `improvement` down,
it leaves the solution unchanged and `swapLoadsBetweenDrivers` kept no swap. -/
theorem passStep_stay {R : Type} [LinearOrderedCommRing R] (sqrt : R → R) (i j : Nat)
    (hij : i ≠ j) (st : Solution R × Bool)
    (h : (if (swapLoadsBetweenDrivers sqrt st.1 i j).2 then true else st.2) = false) :
    ((swapLoadsBetweenDrivers sqrt st.1 i j).1,
        if (swapLoadsBetweenDrivers sqrt st.1 i j).2 then true else st.2) = st
      ∧ (swapLoadsBetweenDrivers sqrt st.1 i j).2 = false := by
  cases hr : (swapLoadsBetweenDrivers sqrt st.1 i j).2 with
  | true => rw [hr] at h; simp at h
  | false =>
    rw [hr] at h
    simp only [Bool.false_eq_true, if_false] at h ⊢
    refine ⟨?_, trivial⟩
    rw [(swapLoadsBetweenDrivers_stay sqrt st.1 i j hij hr).1]

theorem lt_of_mem_range' {i n j : Nat} (hj : j ∈ List.range' (i + 1) (n - (i + 1))) :
    i < j ∧ j < n := by
  have := List.mem_range'_1.mp hj
  omega

theorem localSearchPass_cost {R : Type} [LinearOrderedCommRing R] (sqrt : R → R)
    (s : Solution R) :
    calculateCost sqrt (localSearchPass sqrt s).1 ≤ calculateCost sqrt s
      ∧ ((localSearchPass sqrt s).2 = true →
          calculateCost sqrt (localSearchPass sqrt s).1 < calculateCost sqrt s) := by
  unfold localSearchPass
  apply foldl_preserves (fun st : Solution R × Bool =>
    calculateCost sqrt st.1 ≤ calculateCost sqrt s
      ∧ (st.2 = true → calculateCost sqrt st.1 < calculateCost sqrt s))
  · intro st i hst
    apply foldl_preserves_mem (fun st : Solution R × Bool =>
      calculateCost sqrt st.1 ≤ calculateCost sqrt s
        ∧ (st.2 = true → calculateCost sqrt st.1 < calculateCost sqrt s))
    · intro st j hj hst
      obtain ⟨h1, h2⟩ := hst
      obtain ⟨h3, h4⟩ :=
        swapLoadsBetweenDrivers_cost sqrt st.1 i j (Nat.ne_of_lt (lt_of_mem_range' hj).1)
      refine ⟨le_trans h3 h1, ?_⟩
      intro hflag
      cases hr : (swapLoadsBetweenDrivers sqrt st.1 i j).2 with
      | true => exact lt_of_lt_of_le (h4 hr) h1
      | false =>
        simp only [hr, Bool.false_eq_true, if_false] at hflag
        exact lt_of_le_of_lt h3 (h2 hflag)
    · exact hst
  · exact ⟨le_refl _, fun h => by simp at h⟩

theorem localSearchPass_stay {R : Type} [LinearOrderedCommRing R] (sqrt : R → R)
    (s : Solution R) (h : (localSearchPass sqrt s).2 = false) :
    (localSearchPass sqrt s).1 = s
      ∧ ∀ a b, a < b → b < s.drivers.length → (swapLoadsBetweenDrivers sqrt s a b).2 = false := by
  unfold localSearchPass at h ⊢
  have inner : ∀ (i : Nat) (st : Solution R × Bool),
      ((List.range' (i + 1) (s.drivers.length - (i + 1))).foldl (fun st j =>
        let r := swapLoadsBetweenDrivers sqrt st.1 i j
        (r.1, if r.2 then true else st.2)) st).2 = false →
      (List.range' (i + 1) (s.drivers.length - (i + 1))).foldl (fun st j =>
        let r := swapLoadsBetweenDrivers sqrt st.1 i j
        (r.1, if r.2 then true else st.2)) st = st
        ∧ ∀ j ∈ List.range' (i + 1) (s.drivers.length - (i + 1)),
          (fun (st : Solution R × Bool) j =>
            let r := swapLoadsBetweenDrivers sqrt st.1 i j
            (r.1, if r.2 then true else st.2)) st j = st :=
    fun i st => foldl_flag_down Prod.snd _ _
      (fun st j hj hf =>
        (passStep_stay sqrt i j (Nat.ne_of_lt (lt_of_mem_range' hj).1) st hf).1) st
  obtain ⟨h1, h2⟩ := foldl_flag_down Prod.snd
    (fun st i => (List.range' (i + 1) (s.drivers.length - (i + 1))).foldl (fun st j =>
        let r := swapLoadsBetweenDrivers sqrt st.1 i j
        (r.1, if r.2 then true else st.2)) st) _
    (fun st i _ hf => (inner i st hf).1) _ h
  refine ⟨by rw [h1], ?_⟩
  intro a b hab hb
  have h3 := h2 a (List.mem_range.mpr (by omega))
  have h4 := (inner a (s, false) (by rw [h3])).2 b
    (List.mem_range'_1.mpr ⟨by omega, by omega⟩)
  have h5 := congrArg Prod.snd h4
  simp only [] at h5
  exact (passStep_stay sqrt a b (Nat.ne_of_lt hab) (s, false) h5).2

theorem localSearch_sound {R : Type} [LinearOrderedCommRing R] (sqrt : R → R) :
    ∀ (fuel : Nat) (s s' : Solution R), localSearch sqrt fuel s = some s' →
      calculateCost sqrt s' ≤ calculateCost sqrt s ∧ localSearchPass sqrt s' = (s', false) := by
  intro fuel
  induction fuel with
  | zero => intro s s' h; simp [localSearch] at h
  | succ n ih =>
    intro s s' h
    rw [localSearch] at h
    cases hr : (localSearchPass sqrt s).2 with
    | true =>
      rw [hr] at h
      simp only [if_true] at h
      obtain ⟨h1, h2⟩ := ih _ _ h
      exact ⟨le_trans h1 (localSearchPass_cost sqrt s).1, h2⟩
    | false =>
      rw [hr] at h
      simp only [Bool.false_eq_true, if_false, Option.some.injEq] at h
      have h1 := (localSearchPass_stay sqrt s hr).1
      rw [h1] at h
      subst h
      exact ⟨le_refl _, Prod.ext h1 hr⟩

/-! ## Swaps rearrange the loads over the route slots -/

theorem regroup_flatten {α : Type} :
    ∀ L : List (List α), regroup (L.map List.length) L.flatten = L := by
  intro L
  induction L with
  | nil => simp [regroup]
  | cons l ls ih => simp [regroup, ih]

theorem SameSlots.refl {R : Type} [LinearOrderedCommRing R] (s : Solution R) : SameSlots s s :=
  ⟨rfl, rfl, List.Perm.refl _⟩

theorem SameSlots.trans {R : Type} [LinearOrderedCommRing R] {s t u : Solution R}
    (h1 : SameSlots s t) (h2 : SameSlots t u) : SameSlots s u :=
  ⟨h2.1.trans h1.1, h2.2.1.trans h1.2.1, h2.2.2.trans h1.2.2⟩

theorem swapLoads_sameSlots {R : Type} [LinearOrderedCommRing R] (t : Solution R)
    (a b i j : Nat) (hab : a ≠ b) : SameSlots t (swapLoads t a b i j) := by
  cases hx : (routeAt t a)[i]? with
  | none =>
    have : swapLoads t a b i j = t := by simp [swapLoads, hx]
    rw [this]
    exact SameSlots.refl t
  | some x =>
    cases hy : (routeAt t b)[j]? with
    | none =>
      have : swapLoads t a b i j = t := by simp [swapLoads, hx, hy]
      rw [this]
      exact SameSlots.refl t
    | some y =>
      rw [swapLoads_of_some t a b i j hab x y hx hy]
      have ha := routeAt_getElem? t a i x hx
      have hb := routeAt_getElem? t b j y hy
      have hb' : (setRoute t a ((routeAt t a).set i y)).drivers[b]? = some ⟨routeAt t b⟩ := by
        simp only [setRoute]
        rw [List.getElem?_set_ne hab]
        exact hb
      refine ⟨rfl, ?_, ?_⟩
      · have h1 : (t.drivers.map (fun d => d.Route.length))[a]? = some (routeAt t a).length := by
          rw [List.getElem?_map, ha]; rfl
        have h2 : (t.drivers.map (fun d => d.Route.length))[b]? = some (routeAt t b).length := by
          rw [List.getElem?_map, hb]; rfl
        simp only [routes, setRoute, List.map_map, List.map_set, Function.comp_def,
          List.length_set]
        rw [set_getElem?_self _ a _ h1, set_getElem?_self _ b _ h2]
      · rw [List.perm_iff_count]
        intro z
        have e1 := countIn_setRoute (fun l => l == z) _ b ((routeAt t b).set j x) _ hb'
        have e2 := countIn_setRoute (fun l => l == z) t a ((routeAt t a).set i y) _ ha
        have e3 := countP_set_add (fun l => l == z) (routeAt t a) i y x hx
        have e4 := countP_set_add (fun l => l == z) (routeAt t b) j x y hy
        simp only [List.count, ← countIn_eq_countP]
        simp only [] at e1 e2 e3 e4
        omega

/-! ## Termination of local search -/

theorem swapStep_sameSlots {R : Type} [LinearOrderedCommRing R] (sqrt : R → R)
    (s0 : Solution R) (a b i j : Nat) (hab : a ≠ b) (st : SwapState R)
    (h : SameSlots s0 st.sol) : SameSlots s0 (swapStep sqrt a b i st j).sol := by
  rcases swapStep_cases sqrt a b i j hab st with ⟨_, he⟩ | ⟨_, he⟩
  · rw [he]
    exact h.trans (swapLoads_sameSlots st.sol a b i j hab)
  · rw [he]
    exact h

theorem swapLoadsBetweenDrivers_sameSlots {R : Type} [LinearOrderedCommRing R] (sqrt : R → R)
    (s0 s : Solution R) (a b : Nat) (hab : a ≠ b) (h : SameSlots s0 s) :
    SameSlots s0 (swapLoadsBetweenDrivers sqrt s a b).1 := by
  unfold swapLoadsBetweenDrivers
  apply foldl_preserves (fun st : SwapState R => SameSlots s0 st.sol)
  · intro st i hst
    apply foldl_preserves (fun st : SwapState R => SameSlots s0 st.sol)
    · intro st j hst
      exact swapStep_sameSlots sqrt s0 a b i j hab st hst
    · exact hst
  · exact h

theorem localSearchPass_sameSlots {R : Type} [LinearOrderedCommRing R] (sqrt : R → R)
    (s0 s : Solution R) (h : SameSlots s0 s) : SameSlots s0 (localSearchPass sqrt s).1 := by
  unfold localSearchPass
  apply foldl_preserves (fun st : Solution R × Bool => SameSlots s0 st.1)
  · intro st i hst
    apply foldl_preserves_mem (fun st : Solution R × Bool => SameSlots s0 st.1)
    · intro st j hj hst
      exact swapLoadsBetweenDrivers_sameSlots sqrt s0 st.1 i j
        (Nat.ne_of_lt (lt_of_mem_range' hj).1) hst
    · exact hst
  · exact h

theorem calculateCost_congr {R : Type} [LinearOrderedCommRing R] (sqrt : R → R)
    (s t : Solution R) (h1 : s.drivers = t.drivers) (h2 : s.depot = t.depot) :
    calculateCost sqrt s = calculateCost sqrt t := by
  simp only [calculateCost, computeDistance_eq_routeDistance, h1, h2]

theorem cost_mem_arrangementCosts {R : Type} [LinearOrderedCommRing R] (sqrt : R → R)
    (s0 t : Solution R) (h : SameSlots s0 t) :
    calculateCost sqrt t ∈ arrangementCosts sqrt s0 := by
  obtain ⟨h1, h2, h3⟩ := h
  unfold arrangementCosts
  rw [List.mem_map]
  refine ⟨(routes t).flatten, List.mem_permutations.mpr h3, ?_⟩
  apply calculateCost_congr
  · simp only []
    rw [← h2, regroup_flatten]
    simp only [routes, List.map_map]
    exact (List.map_congr_left (fun d _ => rfl)).trans (List.map_id _)
  · exact h1.symm

theorem costsBelow_lt {R : Type} [LinearOrderedCommRing R] (sqrt : R → R)
    (s0 t t' : Solution R) (h : SameSlots s0 t')
    (hlt : calculateCost sqrt t' < calculateCost sqrt t) :
    costsBelow sqrt s0 t' < costsBelow sqrt s0 t := by
  unfold costsBelow
  apply Finset.card_lt_card
  rw [Finset.ssubset_iff_of_subset]
  · refine ⟨calculateCost sqrt t', ?_, ?_⟩
    · simp only [Finset.mem_filter, List.mem_toFinset]
      exact ⟨cost_mem_arrangementCosts sqrt s0 t' h, hlt⟩
    · simp
  · intro c hc
    simp only [Finset.mem_filter, List.mem_toFinset] at hc ⊢
    exact ⟨hc.1, lt_trans hc.2 hlt⟩

theorem costsBelow_le {R : Type} [LinearOrderedCommRing R] (sqrt : R → R)
    (s0 t : Solution R) : costsBelow sqrt s0 t ≤ (routes s0).flatten.length.factorial := by
  unfold costsBelow
  calc ((arrangementCosts sqrt s0).toFinset.filter (fun c => c < calculateCost sqrt t)).card
      ≤ (arrangementCosts sqrt s0).toFinset.card := Finset.card_filter_le _ _
    _ ≤ (arrangementCosts sqrt s0).length := List.toFinset_card_le _
    _ = (routes s0).flatten.length.factorial := by
        simp [arrangementCosts, List.length_permutations]

theorem localSearch_terminates_from {R : Type} [LinearOrderedCommRing R] (sqrt : R → R)
    (s0 : Solution R) :
    ∀ (fuel : Nat) (t : Solution R), SameSlots s0 t → costsBelow sqrt s0 t < fuel →
      ∃ r, localSearch sqrt fuel t = some r := by
  intro fuel
  induction fuel with
  | zero => intro t _ h; omega
  | succ n ih =>
    intro t ht hlt
    rw [localSearch]
    cases hr : (localSearchPass sqrt t).2 with
    | false => exact ⟨(localSearchPass sqrt t).1, by simp⟩
    | true =>
      simp only [if_true]
      have h1 := localSearchPass_sameSlots sqrt s0 t ht
      have h2 := (localSearchPass_cost sqrt t).2 hr
      have h3 := costsBelow_lt sqrt s0 t _ h1 h2
      exact ih _ h1 (by omega)

theorem localSearch_terminates_explicit {R : Type} [LinearOrderedCommRing R] (sqrt : R → R)
    (s : Solution R) :
    ∃ s', localSearch sqrt ((routes s).flatten.length.factorial + 1) s = some s' :=
  localSearch_terminates_from sqrt s _ s (SameSlots.refl s)
    (Nat.lt_succ_of_le (costsBelow_le sqrt s s))

theorem localSearch_fuel_succ {R : Type} [LinearOrderedCommRing R] (sqrt : R → R) :
    ∀ (fuel : Nat) (s s' : Solution R), localSearch sqrt fuel s = some s' →
      localSearch sqrt (fuel + 1) s = some s' := by
  intro fuel
  induction fuel with
  | zero => intro s s' h; simp [localSearch] at h
  | succ n ih =>
    intro s s' h
    rw [localSearch] at h
    rw [localSearch]
    cases hr : (localSearchPass sqrt s).2 with
    | true =>
      rw [hr] at h
      simp only [if_true] at h ⊢
      exact ih _ _ h
    | false =>
      rw [hr] at h
      simpa using h

theorem localSearch_fuel_add {R : Type} [LinearOrderedCommRing R] (sqrt : R → R)
    (fuel : Nat) (s s' : Solution R) (h : localSearch sqrt fuel s = some s') :
    ∀ k, localSearch sqrt (fuel + k) s = some s' := by
  intro k
  induction k with
  | zero => exact h
  | succ k ih => exact localSearch_fuel_succ sqrt _ s s' ih

theorem localSearch_of_fixed {R : Type} [LinearOrderedCommRing R] (sqrt : R → R)
    (s : Solution R) (h : localSearchPass sqrt s = (s, false)) (fuel : Nat) :
    localSearch sqrt (fuel + 1) s = some s := by
  rw [localSearch, h]
  simp

/-- Claim C3 (cost monotonicity under local search).  Local search returns a
solution when given enough passes, the cost of any solution it returns is at
most the cost of the solution it started from, and one step of
`swapLoadsBetweenDrivers` on two different drivers either keeps the exchange,
with a strictly smaller cost, or leaves the state as it was (the exchange is
undone). -/
theorem localSearch_cost_monotone {R : Type} [LinearOrderedCommRing R] (sqrt : R → R)
    (s : Solution R) :
    (∃ s', localSearch sqrt ((routes s).flatten.length.factorial + 1) s = some s')
      ∧ (∀ fuel s', localSearch sqrt fuel s = some s' →
          calculateCost sqrt s' ≤ calculateCost sqrt s)
      ∧ (∀ (st : SwapState R) (a b i j : Nat), a ≠ b →
          st.bestCost = calculateCost sqrt st.sol →
          swapStep sqrt a b i st j = st
            ∨ ((swapStep sqrt a b i st j).sol = swapLoads st.sol a b i j
                ∧ (swapStep sqrt a b i st j).bestSwap = true
                ∧ calculateCost sqrt (swapStep sqrt a b i st j).sol
                    < calculateCost sqrt st.sol)) := by
  refine ⟨localSearch_terminates_explicit sqrt s,
    fun fuel s' h => (localSearch_sound sqrt fuel s s' h).1, ?_⟩
  intro st a b i j hab hst
  rcases swapStep_cases sqrt a b i j hab st with ⟨hlt, he⟩ | ⟨_, he⟩
  · right
    rw [he]
    exact ⟨rfl, rfl, hst ▸ hlt⟩
  · exact Or.inl he

/-- Run of claim C3 on integer coordinates: from the routes `[A, C]`, `[D]`
(cost 1012) local search returns the routes `[A, D]`, `[C]` (cost 1008). -/
theorem localSearch_cost_monotone_witness :
    localSearch isqrt 2 (searchStart : Solution Int) = some searchEnd
      ∧ calculateCost isqrt (searchStart : Solution Int) = 1012
      ∧ calculateCost isqrt (searchEnd : Solution Int) = 1008
      ∧ calculateCost isqrt (searchEnd : Solution Int)
          ≤ calculateCost isqrt (searchStart : Solution Int) :=
  have h : localSearch isqrt 2 (searchStart : Solution Int) = some searchEnd := by decide
  ⟨h, by decide, by decide, (localSearch_cost_monotone isqrt searchStart).2.1 2 searchEnd h⟩

/-- Claim C4 (idempotence of local search).  Local search returns a solution
when given enough passes; on any solution `s'` it returns, a further pass keeps
no swap and leaves `s'` unchanged, so local search on `s'` returns `s'` itself
(same routes, same cost), and no exchange of a load of driver `a` with a load of
driver `b`, `a < b`, strictly decreases the cost of `s'`. -/
theorem localSearch_idempotent {R : Type} [LinearOrderedCommRing R] (sqrt : R → R)
    (s : Solution R) :
    (∃ s', localSearch sqrt ((routes s).flatten.length.factorial + 1) s = some s')
      ∧ ∀ fuel s', localSearch sqrt fuel s = some s' →
          localSearchPass sqrt s' = (s', false)
            ∧ (∀ fuel', localSearch sqrt (fuel' + 1) s' = some s')
            ∧ (∀ a b i j, a < b → b < s'.drivers.length →
                i < (routeAt s' a).length → j < (routeAt s' b).length →
                ¬ calculateCost sqrt (swapLoads s' a b i j) < calculateCost sqrt s') := by
  refine ⟨localSearch_terminates_explicit sqrt s, ?_⟩
  intro fuel s' h
  have hfix := (localSearch_sound sqrt fuel s s' h).2
  refine ⟨hfix, localSearch_of_fixed sqrt s' hfix, ?_⟩
  intro a b i j hab hb hi hj
  have hflag : (localSearchPass sqrt s').2 = false := by rw [hfix]
  have h1 := (localSearchPass_stay sqrt s' hflag).2 a b hab hb
  exact (swapLoadsBetweenDrivers_stay sqrt s' a b (Nat.ne_of_lt hab) h1).2 i hi j hj

/-- Run of claim C4 on integer coordinates: local search on its own result
`searchEnd` returns `searchEnd`. -/
theorem localSearch_idempotent_witness :
    localSearch isqrt 2 (searchStart : Solution Int) = some searchEnd
      ∧ localSearchPass isqrt (searchEnd : Solution Int) = (searchEnd, false)
      ∧ localSearch isqrt 1 (searchEnd : Solution Int) = some searchEnd :=
  have h : localSearch isqrt 2 (searchStart : Solution Int) = some searchEnd := by decide
  have h2 := (localSearch_idempotent isqrt searchStart).2 2 searchEnd h
  ⟨h, h2.1, h2.2.1 0⟩

/-- Claim C5 (termination of local search).  For every solution, over any
linearly ordered commutative ring of coordinates (the reals among them), the
outer loop of `localSearch` stops within `n! + 1` passes, `n` the number of
loads over all routes: it returns a solution on which a pass keeps no swap, and
more passes allowed give the same result.  The bound holds because every pass
that keeps a swap strictly lowers the cost, and the costs of the arrangements of
the loads over the route slots are at most `n!`. -/
theorem localSearch_terminates {R : Type} [LinearOrderedCommRing R] (sqrt : R → R)
    (s : Solution R) :
    ∃ s', localSearch sqrt ((routes s).flatten.length.factorial + 1) s = some s'
      ∧ localSearchPass sqrt s' = (s', false)
      ∧ (∀ k, localSearch sqrt ((routes s).flatten.length.factorial + 1 + k) s = some s')
      ∧ (∀ t, SameSlots s t → (localSearchPass sqrt t).2 = true →
          calculateCost sqrt (localSearchPass sqrt t).1 < calculateCost sqrt t
            ∧ SameSlots s (localSearchPass sqrt t).1
            ∧ costsBelow sqrt s (localSearchPass sqrt t).1 < costsBelow sqrt s t)
      ∧ (∀ t, costsBelow sqrt s t ≤ (routes s).flatten.length.factorial) := by
  obtain ⟨s', h⟩ := localSearch_terminates_explicit sqrt s
  refine ⟨s', h, (localSearch_sound sqrt _ s s' h).2, localSearch_fuel_add sqrt _ s s' h, ?_,
    costsBelow_le sqrt s⟩
  intro t ht hflag
  have h1 := (localSearchPass_cost sqrt t).2 hflag
  have h2 := localSearchPass_sameSlots sqrt s t ht
  exact ⟨h1, h2, costsBelow_lt sqrt s t _ h2 h1⟩

/-! ## Construction: every load is assigned once -/

theorem countIn_eq_zero_iff {R : Type} [LinearOrderedCommRing R] (p : Load R → Bool)
    (s : Solution R) :
    countIn p s = 0 ↔ ∀ d ∈ s.drivers, ∀ x ∈ d.Route, ¬ p x = true := by
  simp only [countIn, List.sum_eq_zero_iff, List.mem_map, forall_exists_index, and_imp,
    forall_apply_eq_imp_iff₂, List.countP_eq_zero]

theorem findDriverForLoad_eq_none_iff {R : Type} [LinearOrderedCommRing R] (s : Solution R)
    (l : Load R) :
    findDriverForLoad s l = none ↔ countIn (fun x => x.ID == l.ID) s = 0 := by
  rw [countIn_eq_zero_iff, findDriverForLoad, List.findIdx?_eq_none_iff]
  simp only [List.any_eq_false]

theorem findDriverForLoad_some {R : Type} [LinearOrderedCommRing R] (s : Solution R)
    (l : Load R) (f : Nat) (h : findDriverForLoad s l = some f) :
    s.drivers[f]? = some ⟨routeAt s f⟩ := by
  have h1 := List.findIdx?_of_eq_some h
  cases hd : s.drivers[f]? with
  | none => rw [hd] at h1; simp at h1
  | some d => rw [routeAt_of_getElem? s f d hd]

theorem countIn_append_driver {R : Type} [LinearOrderedCommRing R] (p : Load R → Bool)
    (s : Solution R) (r : List (Load R)) :
    countIn p { s with drivers := s.drivers ++ [⟨r⟩] } = countIn p s + r.countP p := by
  simp [countIn]

/-- What one iteration of the merge loop adds to the routes: a sublist `added` of
`[From, To]`, whose loads had no driver before the iteration. -/
theorem mergeStep_added {R : Type} [LinearOrderedCommRing R] (sqrt : R → R) (s : Solution R)
    (sv : SavingsEntry R) :
    ∃ added : List (Load R), added.Sublist [sv.From, sv.To]
      ∧ (∀ l ∈ added, findDriverForLoad s l = none)
      ∧ (mergeStep sqrt s sv).loadByID = s.loadByID
      ∧ ∀ p : Load R → Bool, countIn p (mergeStep sqrt s sv) = countIn p s + added.countP p := by
  unfold mergeStep
  cases hf : findDriverForLoad s sv.From with
  | none =>
    cases ht : findDriverForLoad s sv.To with
    | none =>
      refine ⟨[sv.From, sv.To], List.Sublist.refl _, ?_, rfl, ?_⟩
      · intro l hl
        rcases List.mem_pair.mp hl with rfl | rfl
        · exact hf
        · exact ht
      · intro p
        exact countIn_append_driver p s _
    | some t =>
      simp only []
      have hd := findDriverForLoad_some s sv.To t ht
      split_ifs with hc
      · refine ⟨[sv.From], by simp, ?_, rfl, ?_⟩
        · intro l hl
          rw [List.mem_singleton.mp hl]
          exact hf
        · intro p
          have := countIn_setRoute p s t ([sv.From] ++ routeAt s t) _ hd
          simp only [List.countP_append] at this
          omega
      · exact ⟨[], by simp, by simp, rfl, by simp⟩
  | some f =>
    have hdf := findDriverForLoad_some s sv.From f hf
    cases ht : findDriverForLoad s sv.To with
    | none =>
      simp only []
      split_ifs with hc
      · refine ⟨[sv.To], by simp, ?_, rfl, ?_⟩
        · intro l hl
          rw [List.mem_singleton.mp hl]
          exact ht
        · intro p
          have := countIn_setRoute p s f (routeAt s f ++ [sv.To]) _ hdf
          simp only [List.countP_append] at this
          omega
      · exact ⟨[], by simp, by simp, rfl, by simp⟩
    | some t =>
      have hdt := findDriverForLoad_some s sv.To t ht
      simp only []
      split_ifs with hft hc
      · refine ⟨[], by simp, by simp, rfl, ?_⟩
        intro p
        have e1 := countIn_setRoute p s f (routeAt s f ++ routeAt s t) _ hdf
        have hdt' : (setRoute s f (routeAt s f ++ routeAt s t)).drivers[t]?
            = some ⟨routeAt s t⟩ := by
          simp only [setRoute]
          rw [List.getElem?_set_ne hft]
          exact hdt
        have e2 := countIn_removeDriver p _ t _ hdt'
        simp only [List.countP_append, List.countP_nil] at e1 e2 ⊢
        omega
      · exact ⟨[], by simp, by simp, rfl, by simp⟩
      · exact ⟨[], by simp, by simp, rfl, by simp⟩

theorem bestDriverFor_lt {R : Type} [LinearOrderedCommRing R] (sqrt : R → R) (s : Solution R)
    (load : Load R) (b : Nat × R) (h : bestDriverFor sqrt s load = some b) :
    b.1 < s.drivers.length := by
  have key : ∀ b : Nat × R, bestDriverFor sqrt s load = some b → b.1 < s.drivers.length := by
    unfold bestDriverFor
    apply foldl_preserves_mem (fun best : Option (Nat × R) =>
      ∀ b : Nat × R, best = some b → b.1 < s.drivers.length)
    · intro best i hi hbest b hb
      simp only [] at hb
      split_ifs at hb with hc
      · cases best with
        | none =>
          simp only [Option.some.injEq] at hb
          rw [← hb]
          exact List.mem_range.mp hi
        | some b0 =>
          simp only [] at hb
          split_ifs at hb with hlt
          · simp only [Option.some.injEq] at hb
            rw [← hb]
            exact List.mem_range.mp hi
          · exact hbest b hb
      · exact hbest b hb
    · intro b hb
      simp at hb
  exact key b h

theorem routeAt_of_lt {R : Type} [LinearOrderedCommRing R] (s : Solution R) (i : Nat)
    (h : i < s.drivers.length) : s.drivers[i]? = some ⟨routeAt s i⟩ := by
  rw [List.getElem?_eq_getElem h, routeAt_of_getElem? s i _ (List.getElem?_eq_getElem h)]

/-- One iteration of the second loop of `reassignLoads` adds the load to the
routes exactly once and changes no other load. -/
theorem reassignOne_added {R : Type} [LinearOrderedCommRing R] (sqrt : R → R) (s : Solution R)
    (load : Load R) :
    (reassignOne sqrt s load).loadByID = s.loadByID
      ∧ ∀ p : Load R → Bool,
          countIn p (reassignOne sqrt s load) = countIn p s + [load].countP p := by
  unfold reassignOne
  cases hb : bestDriverFor sqrt s load with
  | none => exact ⟨rfl, fun p => countIn_append_driver p s _⟩
  | some b =>
    refine ⟨rfl, ?_⟩
    intro p
    have := countIn_setRoute p s b.1 (routeAt s b.1 ++ [load]) _
      (routeAt_of_lt s b.1 (bestDriverFor_lt sqrt s load b hb))
    simp only [List.countP_append] at this
    simp only []
    omega

theorem foldl_reassignOne {R : Type} [LinearOrderedCommRing R] (sqrt : R → R)
    (u : List (Load R)) :
    ∀ s : Solution R, (u.foldl (reassignOne sqrt) s).loadByID = s.loadByID
      ∧ ∀ p : Load R → Bool,
          countIn p (u.foldl (reassignOne sqrt) s) = countIn p s + u.countP p := by
  induction u with
  | nil => intro s; simp
  | cons l rest ih =>
    intro s
    obtain ⟨h1, h2⟩ := ih (reassignOne sqrt s l)
    obtain ⟨h3, h4⟩ := reassignOne_added sqrt s l
    refine ⟨by rw [List.foldl_cons, h1, h3], ?_⟩
    intro p
    rw [List.foldl_cons, h2, h4]
    simp only [List.countP_cons, List.countP_nil]
    omega

theorem sum_eq_one {α : Type} (φ : α → Nat) :
    ∀ L : List α, (L.map φ).sum = 1 →
      ∃ (i : Nat) (d : α), L[i]? = some d ∧ φ d = 1
        ∧ ∀ (j : Nat) (d' : α), L[j]? = some d' → j ≠ i → φ d' = 0 := by
  intro L
  induction L with
  | nil => intro h; simp at h
  | cons x xs ih =>
    intro h
    simp only [List.map_cons, List.sum_cons] at h
    by_cases hx : φ x = 0
    · obtain ⟨i, d, h1, h2, h3⟩ := ih (by omega)
      refine ⟨i + 1, d, by simpa using h1, h2, ?_⟩
      intro j d' hj hne
      cases j with
      | zero =>
        simp only [List.getElem?_cons_zero, Option.some.injEq] at hj
        rw [← hj]; exact hx
      | succ j =>
        simp only [List.getElem?_cons_succ] at hj
        exact h3 j d' hj (by omega)
    · have hs : (xs.map φ).sum = 0 := by omega
      rw [List.sum_eq_zero_iff] at hs
      refine ⟨0, x, by simp, by omega, ?_⟩
      intro j d' hj hne
      cases j with
      | zero => exact absurd rfl hne
      | succ j =>
        simp only [List.getElem?_cons_succ] at hj
        exact hs _ (List.mem_map.mpr ⟨d', List.getElem?_mem hj, rfl⟩)

theorem mergeStep_inv {R : Type} [LinearOrderedCommRing R] (sqrt : R → R) (L : List (Load R))
    (s : Solution R) (sv : SavingsEntry R) (hF : sv.From ∈ L) (hT : sv.To ∈ L)
    (hne : sv.From.ID ≠ sv.To.ID) (h : MergeInv L s) : MergeInv L (mergeStep sqrt s sv) := by
  obtain ⟨h1, h2, h3⟩ := h
  obtain ⟨added, hsub, hnone, hload, hcount⟩ := mergeStep_added sqrt s sv
  have hmem : ∀ l ∈ added, l = sv.From ∨ l = sv.To := fun l hl =>
    List.mem_pair.mp (hsub.subset hl)
  refine ⟨hload.trans h1, ?_, ?_⟩
  · intro id
    rw [hcount]
    have hle : added.countP (fun x => x.ID == id) ≤ [sv.From, sv.To].countP (fun x => x.ID == id) :=
      hsub.countP_le _
    have hpair : [sv.From, sv.To].countP (fun x => x.ID == id) ≤ 1 := by
      simp only [List.countP_cons, List.countP_nil, beq_iff_eq]
      by_cases e1 : sv.From.ID = id
      · have e2 : ¬ sv.To.ID = id := fun e2 => hne (e1.trans e2.symm)
        simp [e1, e2]
      · simp [e1]
        split_ifs <;> omega
    by_cases hz : added.countP (fun x => x.ID == id) = 0
    · rw [hz]; exact h2 id
    · obtain ⟨l, hl, hp⟩ := List.countP_pos_iff.mp (Nat.pos_of_ne_zero hz)
      have hid : l.ID = id := by simpa using hp
      have h0 := (findDriverForLoad_eq_none_iff s l).mp (hnone l hl)
      rw [hid] at h0
      omega
  · rw [hcount, h3]
    have : added.countP (fun x => decide (x ∉ L)) = 0 := by
      rw [List.countP_eq_zero]
      intro l hl
      rcases hmem l hl with rfl | rfl
      · simpa using hF
      · simpa using hT
    omega

theorem mergeRoutes_inv {R : Type} [LinearOrderedCommRing R] (sqrt : R → R) (L : List (Load R))
    (savings : List (SavingsEntry R)) (hs : SavingsOver L savings) (s : Solution R)
    (h : MergeInv L s) : MergeInv L (mergeRoutes sqrt s savings) := by
  unfold mergeRoutes
  apply foldl_preserves_mem (MergeInv L)
  · intro st sv hsv hst
    obtain ⟨hF, hT, hne⟩ := hs sv hsv
    exact mergeStep_inv sqrt L st sv hF hT hne hst
  · exact h

theorem fullAssignment_of_count {R : Type} [LinearOrderedCommRing R] (s : Solution R)
    (h1 : ∀ l ∈ s.loadByID, countIn (fun x => x.ID == l.ID) s = 1)
    (h2 : countIn (fun x => decide (x ∉ s.loadByID)) s = 0) : FullAssignment s := by
  constructor
  · intro l hl
    obtain ⟨i, d, hd, hone, hrest⟩ :=
      sum_eq_one (fun d : Driver R => d.Route.countP (fun x : Load R => x.ID == l.ID))
        s.drivers (h1 l hl)
    refine ⟨i, (List.getElem?_eq_some.mp hd).1, ?_, ?_⟩
    · rw [routeAt_of_getElem? s i d hd]; exact hone
    · intro j hj hne
      have hj' := List.getElem?_eq_getElem hj
      rw [routeAt_of_getElem? s j _ hj']
      exact hrest j _ hj' hne
  · intro d hd x hx
    have := (countIn_eq_zero_iff _ s).mp h2 d hd x hx
    simpa using this

theorem reassignLoadsWith_full {R : Type} [LinearOrderedCommRing R] (sqrt : R → R)
    (L order : List (Load R)) (s : Solution R) (hL : (L.map (fun l => l.ID)).Nodup)
    (hord : order.Perm L) (h : MergeInv L s) :
    FullAssignment (reassignLoadsWith sqrt order s) ∧ (reassignLoadsWith sqrt order s).loadByID = L := by
  obtain ⟨h1, h2, h3⟩ := h
  unfold reassignLoadsWith
  simp only []
  obtain ⟨e1, e2⟩ := foldl_reassignOne sqrt
    (order.filter (fun load => (findDriverForLoad s load).isNone)) s
  refine ⟨?_, e1.trans h1⟩
  apply fullAssignment_of_count
  · rw [e1, h1]
    intro l hl
    rw [e2, List.countP_filter]
    have hcnt : order.countP (fun x => x.ID == l.ID) = 1 := by
      rw [hord.countP_eq]
      have := List.count_eq_one_of_mem hL (List.mem_map.mpr ⟨l, hl, rfl⟩)
      rw [List.count, List.countP_map] at this
      simpa [Function.comp_def] using this
    have hq : ∀ x : Load R, x.ID = l.ID → findDriverForLoad s x = findDriverForLoad s l := by
      intro x hx
      simp only [findDriverForLoad, hx]
    cases hfl : findDriverForLoad s l with
    | none =>
      have h0 := (findDriverForLoad_eq_none_iff s l).mp hfl
      have : order.countP (fun a => a.ID == l.ID && (findDriverForLoad s a).isNone)
          = order.countP (fun x => x.ID == l.ID) := by
        apply List.countP_congr
        intro x _
        by_cases hx : x.ID = l.ID
        · simp [hx, hq x hx, hfl]
        · simp [hx]
      rw [this, hcnt, h0]
    | some f =>
      have hpos : countIn (fun x => x.ID == l.ID) s ≠ 0 := by
        intro h0
        rw [(findDriverForLoad_eq_none_iff s l).mpr h0] at hfl
        simp at hfl
      have : order.countP (fun a => a.ID == l.ID && (findDriverForLoad s a).isNone) = 0 := by
        rw [List.countP_eq_zero]
        intro x _
        by_cases hx : x.ID = l.ID
        · simp [hx, hq x hx, hfl]
        · simp [hx]
      rw [this]
      have := h2 l.ID
      omega
  · rw [e1, h1, e2, h3]
    have : (order.filter (fun load => (findDriverForLoad s load).isNone)).countP
        (fun x => decide (x ∉ L)) = 0 := by
      rw [List.countP_eq_zero]
      intro x hx
      have := hord.mem_iff.mp (List.mem_of_mem_filter hx)
      simpa using this
    omega

theorem savingsListWith_mem {R : Type} [LinearOrderedCommRing R] (sqrt : R → R)
    (s : Solution R) (outer : List (Load R)) (inner : Load R → List (Load R)) :
    ∀ sv ∈ savingsListWith sqrt s outer inner,
      sv.From ∈ outer ∧ sv.To ∈ inner sv.From ∧ sv.From.ID ≠ sv.To.ID := by
  unfold savingsListWith
  apply foldl_preserves_mem (fun savings : List (SavingsEntry R) =>
    ∀ sv ∈ savings, sv.From ∈ outer ∧ sv.To ∈ inner sv.From ∧ sv.From.ID ≠ sv.To.ID)
  · intro savings load1 h1 hs
    apply foldl_preserves_mem (fun savings : List (SavingsEntry R) =>
      ∀ sv ∈ savings, sv.From ∈ outer ∧ sv.To ∈ inner sv.From ∧ sv.From.ID ≠ sv.To.ID)
    · intro savings load2 h2 hs sv hsv
      simp only [] at hsv
      split_ifs at hsv with hc
      · exact hs sv hsv
      · rcases List.mem_append.mp hsv with h | h
        · exact hs sv h
        · rw [List.mem_singleton.mp h]
          exact ⟨h1, h2, by simpa using hc⟩
    · exact hs
  · intro sv hsv
    simp at hsv

theorem savingsOver_of_perm {R : Type} [LinearOrderedCommRing R] (sqrt : R → R)
    (s : Solution R) (outer : List (Load R)) (inner : Load R → List (Load R))
    (savings : List (SavingsEntry R)) (ho : outer.Perm s.loadByID)
    (hi : ∀ l, (inner l).Perm s.loadByID)
    (hs : savings.Perm (savingsListWith sqrt s outer inner)) :
    SavingsOver s.loadByID savings := by
  intro sv hsv
  obtain ⟨h1, h2, h3⟩ := savingsListWith_mem sqrt s outer inner sv (hs.mem_iff.mp hsv)
  exact ⟨ho.mem_iff.mp h1, (hi _).mem_iff.mp h2, h3⟩

theorem sortSavings_perm {R : Type} [LinearOrderedCommRing R] (savings : List (SavingsEntry R)) :
    (sortSavings savings).Perm savings :=
  List.perm_insertionSort _ _

theorem mergeInv_start {R : Type} [LinearOrderedCommRing R] (s : Solution R)
    (h0 : s.drivers = []) : MergeInv s.loadByID s := by
  refine ⟨rfl, ?_, ?_⟩ <;> simp [countIn, h0]

theorem clarkeWrightSavingsWith_full {R : Type} [LinearOrderedCommRing R] (sqrt : R → R)
    (s : Solution R) (savings : List (SavingsEntry R)) (order : List (Load R))
    (h0 : s.drivers = []) (hid : (s.loadByID.map (fun l => l.ID)).Nodup)
    (hs : SavingsOver s.loadByID savings) (hord : order.Perm s.loadByID) :
    FullAssignment (clarkeWrightSavingsWith sqrt savings order s)
      ∧ (clarkeWrightSavingsWith sqrt savings order s).loadByID = s.loadByID :=
  reassignLoadsWith_full sqrt s.loadByID order _ hid hord
    (mergeRoutes_inv sqrt s.loadByID savings hs s (mergeInv_start s h0))

theorem clarkeWrightSavings_eq_with {R : Type} [LinearOrderedCommRing R] (sqrt : R → R)
    (s : Solution R) :
    clarkeWrightSavings sqrt s
      = clarkeWrightSavingsWith sqrt (sortSavings (savingsList sqrt s)) s.loadByID s := by
  have h : (mergeRoutes sqrt s (sortSavings (savingsList sqrt s))).loadByID = s.loadByID := by
    unfold mergeRoutes
    apply foldl_preserves (fun st : Solution R => st.loadByID = s.loadByID)
    · intro st sv hst
      obtain ⟨_, _, _, hl, _⟩ := mergeStep_added sqrt st sv
      exact hl.trans hst
    · rfl
  unfold clarkeWrightSavings clarkeWrightSavingsWith reassignLoads
  rw [h]

/-- Claim C1 (full-assignment invariant).  For a solution with no drivers whose
map holds loads with pairwise distinct ids (the empty map included), after
`clarkeWrightSavings` every load of `loadByID` is in the route of exactly one
driver, exactly once, and the routes hold loads of `loadByID` only; the map
itself is unchanged.  The same holds for every order in which the three `range`
loops visit the map and every order in which the sort leaves the savings list
(`clarkeWrightSavingsWith`). -/
theorem full_assignment {R : Type} [LinearOrderedCommRing R] (sqrt : R → R) (s : Solution R)
    (h0 : s.drivers = []) (hid : (s.loadByID.map (fun l => l.ID)).Nodup) :
    (FullAssignment (clarkeWrightSavings sqrt s)
        ∧ (clarkeWrightSavings sqrt s).loadByID = s.loadByID)
      ∧ ∀ (outer : List (Load R)) (inner : Load R → List (Load R))
          (savings : List (SavingsEntry R)) (order : List (Load R)),
          outer.Perm s.loadByID → (∀ l, (inner l).Perm s.loadByID) →
          savings.Perm (savingsListWith sqrt s outer inner) → order.Perm s.loadByID →
          FullAssignment (clarkeWrightSavingsWith sqrt savings order s)
            ∧ (clarkeWrightSavingsWith sqrt savings order s).loadByID = s.loadByID := by
  have key : ∀ (outer : List (Load R)) (inner : Load R → List (Load R))
      (savings : List (SavingsEntry R)) (order : List (Load R)),
      outer.Perm s.loadByID → (∀ l, (inner l).Perm s.loadByID) →
      savings.Perm (savingsListWith sqrt s outer inner) → order.Perm s.loadByID →
      FullAssignment (clarkeWrightSavingsWith sqrt savings order s)
        ∧ (clarkeWrightSavingsWith sqrt savings order s).loadByID = s.loadByID :=
    fun outer inner savings order ho hi hs hord =>
      clarkeWrightSavingsWith_full sqrt s savings order h0 hid
        (savingsOver_of_perm sqrt s outer inner savings ho hi hs) hord
  refine ⟨?_, key⟩
  rw [clarkeWrightSavings_eq_with]
  exact key s.loadByID (fun _ => s.loadByID) _ s.loadByID (List.Perm.refl _)
    (fun _ => List.Perm.refl _) (sortSavings_perm _) (List.Perm.refl _)

/-- Run of claim C1 on the two loads of the worked example, on integer
coordinates: the start has no drivers, the ids `A`, `B` are distinct, and the
result is the single route `[B, A]`, a full assignment. -/
theorem full_assignment_witness :
    (withLoads [exampleA, exampleB] : Solution Int).drivers = []
      ∧ ((withLoads [exampleA, exampleB] : Solution Int).loadByID.map (fun l => l.ID)).Nodup
      ∧ (clarkeWrightSavings isqrt (withLoads [exampleA, exampleB] : Solution Int)).drivers
          = [⟨[exampleB, exampleA]⟩]
      ∧ FullAssignment (clarkeWrightSavings isqrt (withLoads [exampleA, exampleB] : Solution Int)) :=
  ⟨rfl, by decide, by decide,
    (full_assignment isqrt (withLoads [exampleA, exampleB]) rfl (by decide)).1.1⟩

/-! ## The merge loop and the reassignment loop, step by step -/

/-- Claim C16 (a rejected savings pair changes nothing).  One iteration of the
merge loop of `clarkeWrightSavings` returns the solution unchanged (same driver
list, same routes) when (a) both loads are found in the same driver, (b) only
`From` has a driver and appending `To` to its route exceeds `maxDistance`,
(c) only `To` has a driver and putting `From` in front of its route exceeds
`maxDistance`, (d) the loads have different drivers and the concatenation of
the two routes exceeds `maxDistance`. -/
theorem rejected_pair_unchanged {R : Type} [LinearOrderedCommRing R] (sqrt : R → R)
    (s : Solution R) (sv : SavingsEntry R) :
    (∀ f, findDriverForLoad s sv.From = some f → findDriverForLoad s sv.To = some f →
        mergeStep sqrt s sv = s)
      ∧ (∀ f, findDriverForLoad s sv.From = some f → findDriverForLoad s sv.To = none →
          s.maxDistance < computeDistance sqrt s (routeAt s f ++ [sv.To]) →
          mergeStep sqrt s sv = s)
      ∧ (∀ t, findDriverForLoad s sv.From = none → findDriverForLoad s sv.To = some t →
          s.maxDistance < computeDistance sqrt s ([sv.From] ++ routeAt s t) →
          mergeStep sqrt s sv = s)
      ∧ (∀ f t, findDriverForLoad s sv.From = some f → findDriverForLoad s sv.To = some t →
          f ≠ t → s.maxDistance < computeDistance sqrt s (routeAt s f ++ routeAt s t) →
          mergeStep sqrt s sv = s) := by
  refine ⟨?_, ?_, ?_, ?_⟩
  · intro f hf ht
    simp [mergeStep, hf, ht]
  · intro f hf ht hlt
    simp [mergeStep, hf, ht, not_le.mpr hlt]
  · intro t hf ht hlt
    simp only [mergeStep, hf, ht, not_le.mpr hlt, if_false]
  · intro f t hf ht hne hlt
    simp [mergeStep, hf, ht, hne, not_le.mpr hlt]

theorem bestDriverFor_prefix {R : Type} [LinearOrderedCommRing R] (sqrt : R → R)
    (s : Solution R) (load : Load R) :
    ∀ k : Nat, BestAmong sqrt s load k
      ((List.range k).foldl (fun best i =>
        let newRoute := routeAt s i ++ [load]
        let cost := computeDistance sqrt s newRoute
        if cost ≤ s.maxDistance then
          match best with
          | none => some (i, cost)
          | some b => if cost < b.2 then some (i, cost) else best
        else best) none) := by
  intro k
  induction k with
  | zero => simp [BestAmong]
  | succ k ih =>
    rw [List.range_succ, List.foldl_append, List.foldl_cons, List.foldl_nil]
    generalize (List.range k).foldl (fun best i =>
        let newRoute := routeAt s i ++ [load]
        let cost := computeDistance sqrt s newRoute
        if cost ≤ s.maxDistance then
          match best with
          | none => some (i, cost)
          | some b => if cost < b.2 then some (i, cost) else best
        else best) none = best at ih ⊢
    simp only []
    by_cases hc : computeDistance sqrt s (routeAt s k ++ [load]) ≤ s.maxDistance
    · rw [if_pos hc]
      cases best with
      | none =>
        simp only [BestAmong] at ih ⊢
        refine ⟨Nat.lt_succ_self k, trivial, hc, ?_, ?_⟩
        · intro j hj hjc
          rcases Nat.lt_succ_iff_lt_or_eq.mp hj with h | h
          · exact absurd hjc (ih j h)
          · rw [h]
        · intro j hj hjc
          exact absurd hjc (ih j hj)
      | some b =>
        simp only [BestAmong] at ih ⊢
        obtain ⟨h1, h2, h3, h4, h5⟩ := ih
        by_cases hlt : computeDistance sqrt s (routeAt s k ++ [load]) < b.2
        · rw [if_pos hlt]
          refine ⟨Nat.lt_succ_self k, rfl, hc, ?_, ?_⟩
          · intro j hj hjc
            rcases Nat.lt_succ_iff_lt_or_eq.mp hj with h | h
            · exact le_trans (le_of_lt hlt) (h4 j h hjc)
            · rw [h]
          · intro j hj hjc
            exact lt_of_lt_of_le hlt (h4 j hj hjc)
        · rw [if_neg hlt]
          refine ⟨Nat.lt_succ_of_lt h1, h2, h3, ?_, h5⟩
          intro j hj hjc
          rcases Nat.lt_succ_iff_lt_or_eq.mp hj with h | h
          · exact h4 j h hjc
          · rw [h]; exact not_lt.mp hlt
    · rw [if_neg hc]
      cases best with
      | none =>
        simp only [BestAmong] at ih ⊢
        intro j hj
        rcases Nat.lt_succ_iff_lt_or_eq.mp hj with h | h
        · exact ih j h
        · rw [h]; exact hc
      | some b =>
        simp only [BestAmong] at ih ⊢
        obtain ⟨h1, h2, h3, h4, h5⟩ := ih
        refine ⟨Nat.lt_succ_of_lt h1, h2, h3, ?_, h5⟩
        intro j hj hjc
        rcases Nat.lt_succ_iff_lt_or_eq.mp hj with h | h
        · exact h4 j h hjc
        · rw [h] at hjc; exact absurd hjc hc

theorem bestDriverFor_spec {R : Type} [LinearOrderedCommRing R] (sqrt : R → R)
    (s : Solution R) (load : Load R) :
    BestAmong sqrt s load s.drivers.length (bestDriverFor sqrt s load) :=
  bestDriverFor_prefix sqrt s load s.drivers.length

/-- Claim C13 (reassignment picks the cheapest feasible driver).  For every
solution and every load handled by the second loop of `reassignLoads`: when no
existing driver can take the load within `maxDistance`, a new driver with route
`[load]` is put at the end of the driver list and nothing else changes;
otherwise the load is appended to the end of the route of the driver `b` that
is feasible, has the least resulting `computeDistance` among the feasible
drivers, and is the first such driver, and the number of drivers is
unchanged. -/
theorem reassign_picks_cheapest {R : Type} [LinearOrderedCommRing R] (sqrt : R → R)
    (s : Solution R) (load : Load R) :
    ((∀ j < s.drivers.length,
          ¬ computeDistance sqrt s (routeAt s j ++ [load]) ≤ s.maxDistance) →
        reassignOne sqrt s load = { s with drivers := s.drivers ++ [⟨[load]⟩] })
      ∧ ((∃ j, j < s.drivers.length
            ∧ computeDistance sqrt s (routeAt s j ++ [load]) ≤ s.maxDistance) →
          ∃ b, b < s.drivers.length
            ∧ computeDistance sqrt s (routeAt s b ++ [load]) ≤ s.maxDistance
            ∧ (∀ j < s.drivers.length,
                computeDistance sqrt s (routeAt s j ++ [load]) ≤ s.maxDistance →
                computeDistance sqrt s (routeAt s b ++ [load])
                  ≤ computeDistance sqrt s (routeAt s j ++ [load]))
            ∧ (∀ j < b, computeDistance sqrt s (routeAt s j ++ [load]) ≤ s.maxDistance →
                computeDistance sqrt s (routeAt s b ++ [load])
                  < computeDistance sqrt s (routeAt s j ++ [load]))
            ∧ reassignOne sqrt s load = setRoute s b (routeAt s b ++ [load])
            ∧ (reassignOne sqrt s load).drivers.length = s.drivers.length
            ∧ routeAt (reassignOne sqrt s load) b = routeAt s b ++ [load]
            ∧ ∀ j, j ≠ b → routeAt (reassignOne sqrt s load) j = routeAt s j) := by
  have hspec := bestDriverFor_spec sqrt s load
  constructor
  · intro hnone
    unfold reassignOne
    cases hb : bestDriverFor sqrt s load with
    | none => rfl
    | some b =>
      rw [hb] at hspec
      simp only [BestAmong] at hspec
      obtain ⟨h1, h2, h3, _, _⟩ := hspec
      rw [h2] at h3
      exact absurd h3 (hnone b.1 h1)
  · rintro ⟨j, hj, hjc⟩
    cases hb : bestDriverFor sqrt s load with
    | none =>
      rw [hb] at hspec
      simp only [BestAmong] at hspec
      exact absurd hjc (hspec j hj)
    | some b =>
      rw [hb] at hspec
      simp only [BestAmong] at hspec
      obtain ⟨h1, h2, h3, h4, h5⟩ := hspec
      have he : reassignOne sqrt s load = setRoute s b.1 (routeAt s b.1 ++ [load]) := by
        simp only [reassignOne, hb]
      refine ⟨b.1, h1, h2 ▸ h3, ?_, ?_, he, ?_, ?_, ?_⟩
      · intro j hj hjc
        rw [← h2]; exact h4 j hj hjc
      · intro j hj hjc
        rw [← h2]; exact h5 j hj hjc
      · rw [he]; simp [setRoute]
      · rw [he, routeAt_setRoute_self _ _ _ h1]
      · intro j hne
        rw [he, routeAt_setRoute_ne _ _ _ _ (Ne.symm hne)]

/-! ## Local search rearranges the loads -/

theorem swapLoads_fields {R : Type} [LinearOrderedCommRing R] (s : Solution R)
    (a b i j : Nat) :
    (swapLoads s a b i j).loadByID = s.loadByID
      ∧ (swapLoads s a b i j).maxDistance = s.maxDistance := by
  unfold swapLoads
  split <;> simp [setRoute]

theorem swapStep_fields {R : Type} [LinearOrderedCommRing R] (sqrt : R → R) (s0 : Solution R)
    (a b i j : Nat) (st : SwapState R)
    (h : st.sol.loadByID = s0.loadByID ∧ st.sol.maxDistance = s0.maxDistance) :
    (swapStep sqrt a b i st j).sol.loadByID = s0.loadByID
      ∧ (swapStep sqrt a b i st j).sol.maxDistance = s0.maxDistance := by
  unfold swapStep
  simp only []
  split_ifs
  · exact ⟨(swapLoads_fields _ a b i j).1.trans h.1, (swapLoads_fields _ a b i j).2.trans h.2⟩
  · exact ⟨((swapLoads_fields _ a b i j).1.trans (swapLoads_fields _ a b i j).1).trans h.1,
      ((swapLoads_fields _ a b i j).2.trans (swapLoads_fields _ a b i j).2).trans h.2⟩

theorem localSearchPass_fields {R : Type} [LinearOrderedCommRing R] (sqrt : R → R)
    (s : Solution R) :
    (localSearchPass sqrt s).1.loadByID = s.loadByID
      ∧ (localSearchPass sqrt s).1.maxDistance = s.maxDistance := by
  unfold localSearchPass
  apply foldl_preserves (fun st : Solution R × Bool =>
    st.1.loadByID = s.loadByID ∧ st.1.maxDistance = s.maxDistance)
  · intro st i hst
    apply foldl_preserves (fun st : Solution R × Bool =>
      st.1.loadByID = s.loadByID ∧ st.1.maxDistance = s.maxDistance)
    · intro st j hst
      unfold swapLoadsBetweenDrivers
      apply foldl_preserves (fun st : SwapState R =>
        st.sol.loadByID = s.loadByID ∧ st.sol.maxDistance = s.maxDistance)
      · intro st i' hst
        apply foldl_preserves (fun st : SwapState R =>
          st.sol.loadByID = s.loadByID ∧ st.sol.maxDistance = s.maxDistance)
        · intro st j' hst
          exact swapStep_fields sqrt s i j i' j' st hst
        · exact hst
      · exact hst
    · exact hst
  · exact ⟨rfl, rfl⟩

theorem localSearch_sameSlots {R : Type} [LinearOrderedCommRing R] (sqrt : R → R) :
    ∀ (fuel : Nat) (s s' : Solution R), localSearch sqrt fuel s = some s' →
      SameSlots s s' ∧ s'.loadByID = s.loadByID ∧ s'.maxDistance = s.maxDistance := by
  intro fuel
  induction fuel with
  | zero => intro s s' h; simp [localSearch] at h
  | succ n ih =>
    intro s s' h
    rw [localSearch] at h
    have h1 := localSearchPass_sameSlots sqrt s s (SameSlots.refl s)
    have h2 := localSearchPass_fields sqrt s
    cases hr : (localSearchPass sqrt s).2 with
    | true =>
      rw [hr] at h
      simp only [if_true] at h
      obtain ⟨h3, h4, h5⟩ := ih _ _ h
      exact ⟨h1.trans h3, h4.trans h2.1, h5.trans h2.2⟩
    | false =>
      rw [hr] at h
      simp only [Bool.false_eq_true, if_false, Option.some.injEq] at h
      rw [← h]
      exact ⟨h1, h2⟩

theorem sameSlots_lengths {R : Type} [LinearOrderedCommRing R] (s t : Solution R)
    (h : SameSlots s t) :
    t.drivers.length = s.drivers.length
      ∧ ∀ i, (routeAt t i).length = (routeAt s i).length := by
  obtain ⟨_, h2, _⟩ := h
  have hlen : t.drivers.length = s.drivers.length := by
    have := congrArg List.length h2
    simpa [routes] using this
  refine ⟨hlen, ?_⟩
  intro i
  have hi := congrArg (fun l : List Nat => l[i]?) h2
  simp only [routes, List.map_map, List.getElem?_map] at hi
  simp only [routeAt, List.getD_eq_getElem?_getD]
  cases ht : t.drivers[i]? with
  | none =>
    cases hs : s.drivers[i]? with
    | none => rfl
    | some d => rw [ht, hs] at hi; simp at hi
  | some d =>
    cases hs : s.drivers[i]? with
    | none => rw [ht, hs] at hi; simp at hi
    | some d' =>
      rw [ht, hs] at hi
      simpa using hi

theorem sum_eq_one_of_getD {α : Type} (φ : α → Nat) (dflt : α) :
    ∀ (L : List α) (i : Nat), i < L.length → φ (L.getD i dflt) = 1 →
      (∀ j, j < L.length → j ≠ i → φ (L.getD j dflt) = 0) → (L.map φ).sum = 1 := by
  intro L
  induction L with
  | nil => intro i hi; simp at hi
  | cons x xs ih =>
    intro i hi h1 h0
    cases i with
    | zero =>
      simp only [List.getD_cons_zero] at h1
      have hz : (xs.map φ).sum = 0 := by
        rw [List.sum_eq_zero_iff]
        intro v hv
        obtain ⟨d, hd, rfl⟩ := List.mem_map.mp hv
        obtain ⟨n, hn, rfl⟩ := List.mem_iff_getElem.mp hd
        have := h0 (n + 1) (by simpa using hn) (by omega)
        simpa [List.getD_eq_getElem?_getD, hn] using this
      simp only [List.map_cons, List.sum_cons]
      omega
    | succ i =>
      have hx : φ x = 0 := by
        have := h0 0 (by simp) (by omega)
        simpa using this
      have := ih i (by simpa using hi) (by simpa using h1)
        (fun j hj hne => by
          have := h0 (j + 1) (by simpa using hj) (by omega)
          simpa using this)
      simp only [List.map_cons, List.sum_cons]
      omega

theorem count_of_fullAssignment {R : Type} [LinearOrderedCommRing R] (s : Solution R)
    (h : FullAssignment s) :
    (∀ l ∈ s.loadByID, countIn (fun x => x.ID == l.ID) s = 1)
      ∧ countIn (fun x => decide (x ∉ s.loadByID)) s = 0 := by
  obtain ⟨h1, h2⟩ := h
  constructor
  · intro l hl
    obtain ⟨i, hi, hone, hrest⟩ := h1 l hl
    exact sum_eq_one_of_getD (fun d : Driver R => d.Route.countP (fun x : Load R => x.ID == l.ID))
      NewDriver s.drivers i hi hone hrest
  · rw [countIn_eq_zero_iff]
    intro d hd x hx
    simpa using h2 d hd x hx

theorem fullAssignment_of_sameSlots {R : Type} [LinearOrderedCommRing R] (s t : Solution R)
    (h : SameSlots s t) (hl : t.loadByID = s.loadByID) (hs : FullAssignment s) :
    FullAssignment t := by
  obtain ⟨c1, c2⟩ := count_of_fullAssignment s hs
  have hperm := h.2.2
  apply fullAssignment_of_count
  · intro l hlt
    rw [hl] at hlt
    rw [countIn_eq_countP, hperm.countP_eq, ← countIn_eq_countP]
    exact c1 l hlt
  · rw [hl, countIn_eq_countP, hperm.countP_eq, ← countIn_eq_countP]
    exact c2

/-- Claim C11 (local search only permutes loads over the existing route slots).
Local search returns a solution when given enough passes, and any solution it
returns has the same number of drivers, the same length of every driver's
route, the loads over all routes are a permutation of those before, and the
map, the depot and the cap are unchanged; so if every load of the map was in
exactly one route exactly once before, the same holds after. -/
theorem localSearch_permutes_loads {R : Type} [LinearOrderedCommRing R] (sqrt : R → R)
    (s : Solution R) :
    (∃ s', localSearch sqrt ((routes s).flatten.length.factorial + 1) s = some s')
      ∧ ∀ fuel s', localSearch sqrt fuel s = some s' →
          s'.drivers.length = s.drivers.length
            ∧ (∀ i, (routeAt s' i).length = (routeAt s i).length)
            ∧ (routes s').flatten.Perm (routes s).flatten
            ∧ s'.loadByID = s.loadByID ∧ s'.depot = s.depot
            ∧ s'.maxDistance = s.maxDistance
            ∧ (FullAssignment s → FullAssignment s') := by
  refine ⟨localSearch_terminates_explicit sqrt s, ?_⟩
  intro fuel s' h
  obtain ⟨h1, h2, h3⟩ := localSearch_sameSlots sqrt fuel s s' h
  obtain ⟨h4, h5⟩ := sameSlots_lengths s s' h1
  exact ⟨h4, h5, h1.2.2, h2, h1.1, h3, fullAssignment_of_sameSlots s s' h1 h2⟩

/-! ## No driver has an empty route -/

theorem mergeStep_nonempty {R : Type} [LinearOrderedCommRing R] (sqrt : R → R) (s : Solution R)
    (sv : SavingsEntry R) (h : ∀ d ∈ s.drivers, d.Route ≠ []) :
    ∀ d ∈ (mergeStep sqrt s sv).drivers, d.Route ≠ [] := by
  unfold mergeStep
  cases hf : findDriverForLoad s sv.From with
  | none =>
    cases ht : findDriverForLoad s sv.To with
    | none =>
      intro d hd
      simp only [List.mem_append, List.mem_singleton] at hd
      rcases hd with hd | rfl
      · exact h d hd
      · simp
    | some t =>
      simp only []
      split_ifs
      · intro d hd
        rcases List.mem_or_eq_of_mem_set hd with hd | rfl
        · exact h d hd
        · simp
      · exact h
  | some f =>
    have hdf := findDriverForLoad_some s sv.From f hf
    have hne : routeAt s f ≠ [] := h _ (List.getElem?_mem hdf)
    cases ht : findDriverForLoad s sv.To with
    | none =>
      simp only []
      split_ifs
      · intro d hd
        rcases List.mem_or_eq_of_mem_set hd with hd | rfl
        · exact h d hd
        · simp
      · exact h
    | some t =>
      simp only []
      split_ifs
      · intro d hd
        rcases List.mem_or_eq_of_mem_set (List.mem_of_mem_eraseIdx hd) with hd | rfl
        · exact h d hd
        · simp [hne]
      · exact h
      · exact h

theorem reassignOne_nonempty {R : Type} [LinearOrderedCommRing R] (sqrt : R → R)
    (s : Solution R) (load : Load R) (h : ∀ d ∈ s.drivers, d.Route ≠ []) :
    ∀ d ∈ (reassignOne sqrt s load).drivers, d.Route ≠ [] := by
  unfold reassignOne
  cases hb : bestDriverFor sqrt s load with
  | none =>
    intro d hd
    simp only [List.mem_append, List.mem_singleton] at hd
    rcases hd with hd | rfl
    · exact h d hd
    · simp
  | some b =>
    intro d hd
    rcases List.mem_or_eq_of_mem_set hd with hd | rfl
    · exact h d hd
    · simp

theorem clarkeWrightSavingsWith_nonempty {R : Type} [LinearOrderedCommRing R] (sqrt : R → R)
    (s : Solution R) (savings : List (SavingsEntry R)) (order : List (Load R))
    (h0 : s.drivers = []) :
    ∀ d ∈ (clarkeWrightSavingsWith sqrt savings order s).drivers, d.Route ≠ [] := by
  unfold clarkeWrightSavingsWith reassignLoadsWith
  apply foldl_preserves (fun st : Solution R => ∀ d ∈ st.drivers, d.Route ≠ [])
  · intro st l hst
    exact reassignOne_nonempty sqrt st l hst
  · unfold mergeRoutes
    apply foldl_preserves (fun st : Solution R => ∀ d ∈ st.drivers, d.Route ≠ [])
    · intro st sv hst
      exact mergeStep_nonempty sqrt st sv hst
    · intro d hd
      rw [h0] at hd
      simp at hd

theorem nonempty_of_sameSlots {R : Type} [LinearOrderedCommRing R] (s t : Solution R)
    (h : SameSlots s t) (hs : ∀ d ∈ s.drivers, d.Route ≠ []) :
    ∀ d ∈ t.drivers, d.Route ≠ [] := by
  intro d hd hnil
  have hmem : 0 ∈ (routes t).map List.length :=
    List.mem_map.mpr ⟨d.Route, List.mem_map.mpr ⟨d, hd, rfl⟩, by simp [hnil]⟩
  rw [h.2.1] at hmem
  obtain ⟨r, hr, hlen⟩ := List.mem_map.mp hmem
  obtain ⟨d', hd', rfl⟩ := List.mem_map.mp hr
  exact hs d' hd' (List.length_eq_zero.mp hlen)

theorem length_le_flatten {α : Type} :
    ∀ L : List (List α), (∀ r ∈ L, r ≠ []) → L.length ≤ L.flatten.length := by
  intro L
  induction L with
  | nil => intro _; simp
  | cons r rs ih =>
    intro h
    have h1 : 0 < r.length := List.length_pos.mpr (h r (List.mem_cons_self _ _))
    have h2 := ih (fun x hx => h x (List.mem_cons_of_mem _ hx))
    simp only [List.flatten_cons, List.length_append, List.length_cons]
    omega

theorem flatten_length_of_fullAssignment {R : Type} [LinearOrderedCommRing R] (s : Solution R)
    (hid : (s.loadByID.map (fun l => l.ID)).Nodup) (h : FullAssignment s) :
    (routes s).flatten.length = s.loadByID.length := by
  obtain ⟨c1, _⟩ := count_of_fullAssignment s h
  have hperm : ((routes s).flatten.map (fun l => l.ID)).Perm (s.loadByID.map (fun l => l.ID)) := by
    rw [List.perm_iff_count]
    intro id
    have e : List.count id ((routes s).flatten.map (fun l => l.ID))
        = countIn (fun x => x.ID == id) s := by
      rw [countIn_eq_countP, List.count, List.countP_map]
      rfl
    rw [e]
    by_cases hmem : id ∈ s.loadByID.map (fun l => l.ID)
    · obtain ⟨l, hl, rfl⟩ := List.mem_map.mp hmem
      rw [c1 l hl, List.count_eq_one_of_mem hid hmem]
    · rw [List.count_eq_zero.mpr hmem, countIn_eq_zero_iff]
      intro d hd x hx hp
      apply hmem
      have : x.ID = id := by simpa using hp
      rw [← this]
      exact List.mem_map.mpr ⟨x, h.2 d hd x hx, rfl⟩
  have := hperm.length_eq
  rw [List.length_map, List.length_map] at this
  exact this

theorem drivers_le_loads {R : Type} [LinearOrderedCommRing R] (s : Solution R)
    (hid : (s.loadByID.map (fun l => l.ID)).Nodup) (h : FullAssignment s)
    (hne : ∀ d ∈ s.drivers, d.Route ≠ []) : s.drivers.length ≤ s.loadByID.length := by
  rw [← flatten_length_of_fullAssignment s hid h]
  have := length_le_flatten (routes s) (by
    intro r hr
    obtain ⟨d, hd, rfl⟩ := List.mem_map.mp hr
    exact hne d hd)
  simpa [routes] using this

theorem clarkeWrightSavings_full {R : Type} [LinearOrderedCommRing R] (sqrt : R → R)
    (s : Solution R) (h0 : s.drivers = []) (hid : (s.loadByID.map (fun l => l.ID)).Nodup) :
    FullAssignment (clarkeWrightSavings sqrt s)
      ∧ (clarkeWrightSavings sqrt s).loadByID = s.loadByID := by
  rw [clarkeWrightSavings_eq_with]
  exact clarkeWrightSavingsWith_full sqrt s _ _ h0 hid
    (savingsOver_of_perm sqrt s s.loadByID (fun _ => s.loadByID) _ (List.Perm.refl _)
      (fun _ => List.Perm.refl _) (sortSavings_perm _)) (List.Perm.refl _)

/-- Claim C17 (no empty driver).  Started on a solution with no drivers,
`clarkeWrightSavings` returns a solution in which every driver has a non-empty
route, and so does `localSearch` run on that solution; this holds for every
order in which the savings are processed and the map is visited.  When the ids
of the map are pairwise distinct, the number of drivers is therefore at most the
number of loads, after construction and after local search. -/
theorem no_empty_driver {R : Type} [LinearOrderedCommRing R] (sqrt : R → R) (s : Solution R)
    (h0 : s.drivers = []) :
    (∀ d ∈ (clarkeWrightSavings sqrt s).drivers, d.Route ≠ [])
      ∧ (∀ fuel s', localSearch sqrt fuel (clarkeWrightSavings sqrt s) = some s' →
          ∀ d ∈ s'.drivers, d.Route ≠ [])
      ∧ (∀ (savings : List (SavingsEntry R)) (order : List (Load R)),
          (∀ d ∈ (clarkeWrightSavingsWith sqrt savings order s).drivers, d.Route ≠ [])
            ∧ ∀ fuel s',
                localSearch sqrt fuel (clarkeWrightSavingsWith sqrt savings order s) = some s' →
                ∀ d ∈ s'.drivers, d.Route ≠ [])
      ∧ ((s.loadByID.map (fun l => l.ID)).Nodup →
          (clarkeWrightSavings sqrt s).drivers.length ≤ s.loadByID.length
            ∧ ∀ fuel s', localSearch sqrt fuel (clarkeWrightSavings sqrt s) = some s' →
                s'.drivers.length ≤ s.loadByID.length) := by
  have hw : ∀ (savings : List (SavingsEntry R)) (order : List (Load R)),
      (∀ d ∈ (clarkeWrightSavingsWith sqrt savings order s).drivers, d.Route ≠ [])
        ∧ ∀ fuel s',
            localSearch sqrt fuel (clarkeWrightSavingsWith sqrt savings order s) = some s' →
            ∀ d ∈ s'.drivers, d.Route ≠ [] := by
    intro savings order
    have h1 := clarkeWrightSavingsWith_nonempty sqrt s savings order h0
    exact ⟨h1, fun fuel s' h =>
      nonempty_of_sameSlots _ s' (localSearch_sameSlots sqrt fuel _ s' h).1 h1⟩
  have hd := hw (sortSavings (savingsList sqrt s)) s.loadByID
  rw [← clarkeWrightSavings_eq_with] at hd
  refine ⟨hd.1, hd.2, hw, ?_⟩
  intro hid
  obtain ⟨hfull, hload⟩ := clarkeWrightSavings_full sqrt s h0 hid
  have hle := drivers_le_loads (clarkeWrightSavings sqrt s) (hload ▸ hid) hfull hd.1
  rw [hload] at hle
  refine ⟨hle, ?_⟩
  intro fuel s' h
  rw [(sameSlots_lengths _ s' (localSearch_sameSlots sqrt fuel _ s' h).1).1]
  exact hle

/-- Run of claim C17 on the two loads of the worked example, on integer
coordinates: the start has no drivers, and the single driver returned by
`clarkeWrightSavings` has the non-empty route `[B, A]`. -/
theorem no_empty_driver_witness :
    (withLoads [exampleA, exampleB] : Solution Int).drivers = []
      ∧ (clarkeWrightSavings isqrt (withLoads [exampleA, exampleB] : Solution Int)).drivers
          = [⟨[exampleB, exampleA]⟩]
      ∧ ∀ d ∈ (clarkeWrightSavings isqrt (withLoads [exampleA, exampleB] : Solution Int)).drivers,
          d.Route ≠ [] :=
  ⟨rfl, by decide, (no_empty_driver isqrt (withLoads [exampleA, exampleB]) rfl).1⟩

/-! ## Two loads -/

theorem perm_pair {α : Type} [DecidableEq α] (l : List α) (a b : α) (h : l.Perm [a, b]) :
    l = [a, b] ∨ l = [b, a] := by
  have hlen := h.length_eq
  match l, hlen with
  | [x, y], _ =>
    by_cases hx : x = a
    · subst hx
      have := (List.perm_cons x).mp h
      left
      rw [List.perm_singleton.mp this]
    · have hxb : x = b := by
        have : x ∈ [a, b] := h.subset (List.mem_cons_self _ _)
        simp at this
        tauto
      have hay : a = y := by
        have : a ∈ [x, y] := h.symm.subset (List.mem_cons_self _ _)
        simp at this
        rcases this with h1 | h1
        · exact absurd h1.symm hx
        · exact h1
      right
      rw [hxb, hay]

theorem findDriverForLoad_single {R : Type} [LinearOrderedCommRing R] (X Y l : Load R)
    (L : List (Load R)) (depot : Point R) (maxDistance : R) (hl : l = X ∨ l = Y) :
    findDriverForLoad ⟨[⟨[X, Y]⟩], L, depot, maxDistance⟩ l = some 0 := by
  rcases hl with rfl | rfl <;> simp [findDriverForLoad, List.findIdx?_cons]

theorem mergeStep_single {R : Type} [LinearOrderedCommRing R] (sqrt : R → R) (X Y : Load R)
    (L : List (Load R)) (depot : Point R) (maxDistance : R) (sv : SavingsEntry R)
    (hF : sv.From = X ∨ sv.From = Y) (hT : sv.To = X ∨ sv.To = Y) :
    mergeStep sqrt ⟨[⟨[X, Y]⟩], L, depot, maxDistance⟩ sv
      = ⟨[⟨[X, Y]⟩], L, depot, maxDistance⟩ := by
  simp [mergeStep, findDriverForLoad_single X Y _ L depot maxDistance hF,
    findDriverForLoad_single X Y _ L depot maxDistance hT]

theorem mergeRoutes_two {R : Type} [LinearOrderedCommRing R] (sqrt : R → R) (A B : Load R)
    (depot : Point R) (maxDistance : R) (savings : List (SavingsEntry R))
    (hs : SavingsOver [A, B] savings) (hnil : savings ≠ []) :
    mergeRoutes sqrt ⟨[], [A, B], depot, maxDistance⟩ savings
        = ⟨[⟨[A, B]⟩], [A, B], depot, maxDistance⟩
      ∨ mergeRoutes sqrt ⟨[], [A, B], depot, maxDistance⟩ savings
        = ⟨[⟨[B, A]⟩], [A, B], depot, maxDistance⟩ := by
  cases savings with
  | nil => exact absurd rfl hnil
  | cons sv rest =>
    obtain ⟨hF, hT, hne⟩ := hs sv (List.mem_cons_self _ _)
    have hF' : sv.From = A ∨ sv.From = B := by simpa using hF
    have hT' : sv.To = A ∨ sv.To = B := by simpa using hT
    have hstep : mergeStep sqrt ⟨[], [A, B], depot, maxDistance⟩ sv
        = ⟨[⟨[sv.From, sv.To]⟩], [A, B], depot, maxDistance⟩ := by
      simp [mergeStep, findDriverForLoad]
    have hrest : ∀ X Y : Load R, (X = A ∧ Y = B) ∨ (X = B ∧ Y = A) →
        rest.foldl (mergeStep sqrt) ⟨[⟨[X, Y]⟩], [A, B], depot, maxDistance⟩
          = ⟨[⟨[X, Y]⟩], [A, B], depot, maxDistance⟩ := by
      intro X Y hXY
      apply foldl_preserves_mem (fun st : Solution R =>
        st = ⟨[⟨[X, Y]⟩], [A, B], depot, maxDistance⟩)
      · intro st sv' hsv' hst
        obtain ⟨hF2, hT2, _⟩ := hs sv' (List.mem_cons_of_mem _ hsv')
        have hF3 : sv'.From = A ∨ sv'.From = B := by simpa using hF2
        have hT3 : sv'.To = A ∨ sv'.To = B := by simpa using hT2
        rw [hst]
        apply mergeStep_single
        · rcases hXY with ⟨rfl, rfl⟩ | ⟨rfl, rfl⟩
          · exact hF3
          · exact hF3.symm
        · rcases hXY with ⟨rfl, rfl⟩ | ⟨rfl, rfl⟩
          · exact hT3
          · exact hT3.symm
      · rfl
    unfold mergeRoutes
    rw [List.foldl_cons, hstep]
    rcases hF' with hFA | hFB
    · rcases hT' with hTA | hTB
      · exact absurd (by rw [hFA, hTA]) hne
      · left
        rw [hFA, hTB]
        exact hrest A B (Or.inl ⟨rfl, rfl⟩)
    · rcases hT' with hTA | hTB
      · right
        rw [hFB, hTA]
        exact hrest B A (Or.inr ⟨rfl, rfl⟩)
      · exact absurd (by rw [hFB, hTB]) hne

theorem reassignLoadsWith_single {R : Type} [LinearOrderedCommRing R] (sqrt : R → R)
    (X Y : Load R) (L order : List (Load R)) (depot : Point R) (maxDistance : R)
    (ho : ∀ l ∈ order, l = X ∨ l = Y) :
    reassignLoadsWith sqrt order ⟨[⟨[X, Y]⟩], L, depot, maxDistance⟩
      = ⟨[⟨[X, Y]⟩], L, depot, maxDistance⟩ := by
  unfold reassignLoadsWith
  have : order.filter (fun load =>
      (findDriverForLoad ⟨[⟨[X, Y]⟩], L, depot, maxDistance⟩ load).isNone) = [] := by
    rw [List.filter_eq_nil_iff]
    intro l hl
    rw [findDriverForLoad_single X Y l L depot maxDistance (ho l hl)]
    simp
  simp only [this, List.foldl_nil]

theorem savingsListWith_two_ne_nil {R : Type} [LinearOrderedCommRing R] (sqrt : R → R)
    (s : Solution R) (A B : Load R) (hne : A.ID ≠ B.ID) (outer : List (Load R))
    (inner : Load R → List (Load R)) (ho : outer.Perm [A, B])
    (hi : ∀ l, (inner l).Perm [A, B]) :
    savingsListWith sqrt s outer inner ≠ [] := by
  have hne' : B.ID ≠ A.ID := Ne.symm hne
  rcases perm_pair _ _ _ ho with h1 | h1 <;>
  rcases perm_pair _ _ _ (hi A) with h2 | h2 <;>
  rcases perm_pair _ _ _ (hi B) with h3 | h3 <;>
  simp [savingsListWith, h1, h2, h3, hne, hne']

theorem clarkeWrightSavingsWith_two {R : Type} [LinearOrderedCommRing R] (sqrt : R → R)
    (A B : Load R) (depot : Point R) (maxDistance : R) (hne : A.ID ≠ B.ID)
    (outer : List (Load R)) (inner : Load R → List (Load R))
    (savings : List (SavingsEntry R)) (order : List (Load R))
    (ho : outer.Perm [A, B]) (hi : ∀ l, (inner l).Perm [A, B])
    (hs : savings.Perm (savingsListWith sqrt ⟨[], [A, B], depot, maxDistance⟩ outer inner))
    (hord : order.Perm [A, B]) :
    clarkeWrightSavingsWith sqrt savings order ⟨[], [A, B], depot, maxDistance⟩
        = ⟨[⟨[A, B]⟩], [A, B], depot, maxDistance⟩
      ∨ clarkeWrightSavingsWith sqrt savings order ⟨[], [A, B], depot, maxDistance⟩
        = ⟨[⟨[B, A]⟩], [A, B], depot, maxDistance⟩ := by
  have hover : SavingsOver [A, B] savings :=
    savingsOver_of_perm sqrt ⟨[], [A, B], depot, maxDistance⟩ outer inner savings ho hi hs
  have hnil : savings ≠ [] := by
    intro h
    rw [h] at hs
    exact savingsListWith_two_ne_nil sqrt _ A B hne outer inner ho hi (List.perm_nil.mp hs.symm)
  have hmem : ∀ l ∈ order, l = A ∨ l = B := fun l hl => by
    simpa using hord.subset hl
  unfold clarkeWrightSavingsWith
  rcases mergeRoutes_two sqrt A B depot maxDistance savings hover hnil with h | h
  · left
    rw [h]
    exact reassignLoadsWith_single sqrt A B _ order depot maxDistance hmem
  · right
    rw [h]
    exact reassignLoadsWith_single sqrt B A _ order depot maxDistance
      (fun l hl => (hmem l hl).symm)

/-- Claim C18 (two loads are always put in one driver, whatever the cap).  For
every pair of loads with distinct ids, every depot and every cap,
`clarkeWrightSavings` on the instance with these two loads and no drivers
yields exactly one driver, whose route holds both loads (in one of the two
orders); this holds for every order in which the map is visited and the savings
are processed.  No feasibility check is made: over the reals, for the loads
`(0,100)->(0,300)` and `(0,350)->(0,100)` with the cap `720`, the single route
has `computeDistance` `1100`. -/
theorem two_loads_one_driver :
    (∀ (R : Type) [LinearOrderedCommRing R] (sqrt : R → R) (A B : Load R) (depot : Point R)
        (maxDistance : R), A.ID ≠ B.ID →
        ((clarkeWrightSavings sqrt ⟨[], [A, B], depot, maxDistance⟩).drivers = [⟨[A, B]⟩]
          ∨ (clarkeWrightSavings sqrt ⟨[], [A, B], depot, maxDistance⟩).drivers = [⟨[B, A]⟩])
        ∧ ∀ (outer : List (Load R)) (inner : Load R → List (Load R))
            (savings : List (SavingsEntry R)) (order : List (Load R)),
            outer.Perm [A, B] → (∀ l, (inner l).Perm [A, B]) →
            savings.Perm (savingsListWith sqrt ⟨[], [A, B], depot, maxDistance⟩ outer inner) →
            order.Perm [A, B] →
            (clarkeWrightSavingsWith sqrt savings order ⟨[], [A, B], depot, maxDistance⟩).drivers
                = [⟨[A, B]⟩]
              ∨ (clarkeWrightSavingsWith sqrt savings order
                  ⟨[], [A, B], depot, maxDistance⟩).drivers = [⟨[B, A]⟩])
      ∧ ((clarkeWrightSavings Real.sqrt (withLoads [overCapA, overCapB])).drivers
            = [⟨[overCapB, overCapA]⟩]
          ∧ (clarkeWrightSavings Real.sqrt (withLoads [overCapA, overCapB])).maxDistance = 720
          ∧ computeDistance Real.sqrt
              (clarkeWrightSavings Real.sqrt (withLoads [overCapA, overCapB]))
              [overCapB, overCapA] = 1100) := by
  constructor
  · intro R _ sqrt A B depot maxDistance hne
    have key : ∀ (outer : List (Load R)) (inner : Load R → List (Load R))
        (savings : List (SavingsEntry R)) (order : List (Load R)),
        outer.Perm [A, B] → (∀ l, (inner l).Perm [A, B]) →
        savings.Perm (savingsListWith sqrt ⟨[], [A, B], depot, maxDistance⟩ outer inner) →
        order.Perm [A, B] →
        (clarkeWrightSavingsWith sqrt savings order ⟨[], [A, B], depot, maxDistance⟩).drivers
            = [⟨[A, B]⟩]
          ∨ (clarkeWrightSavingsWith sqrt savings order
              ⟨[], [A, B], depot, maxDistance⟩).drivers = [⟨[B, A]⟩] := by
      intro outer inner savings order ho hi hs hord
      rcases clarkeWrightSavingsWith_two sqrt A B depot maxDistance hne outer inner savings
        order ho hi hs hord with h | h
      · left; rw [h]
      · right; rw [h]
    refine ⟨?_, key⟩
    rw [clarkeWrightSavings_eq_with]
    exact key [A, B] (fun _ => [A, B]) _ [A, B] (List.Perm.refl _) (fun _ => List.Perm.refl _)
      (sortSavings_perm _) (List.Perm.refl _)
  · rw [overCap_construction _ (Or.inl rfl)]
    refine ⟨rfl, ?_, (overCap_distance _ rfl).1⟩
    simp [withLoads, NewSolution]
    norm_num

/-! ## Local search and the cap -/

theorem swapStep_accept {R : Type} [LinearOrderedCommRing R] (sqrt : R → R) (a b i j : Nat)
    (hab : a ≠ b) (st : SwapState R) (t : Solution R) (c : R)
    (ht : swapLoads st.sol a b i j = t) (hc : calculateCost sqrt t = c) (h : c < st.bestCost) :
    swapStep sqrt a b i st j = ⟨t, c, true⟩ := by
  rcases swapStep_cases sqrt a b i j hab st with ⟨_, he⟩ | ⟨hn, _⟩
  · rw [he, ht, hc]
  · rw [ht, hc] at hn
    exact absurd h hn

theorem swapStep_reject {R : Type} [LinearOrderedCommRing R] (sqrt : R → R) (a b i j : Nat)
    (hab : a ≠ b) (st : SwapState R) (t : Solution R) (c : R)
    (ht : swapLoads st.sol a b i j = t) (hc : calculateCost sqrt t = c) (h : ¬ c < st.bestCost) :
    swapStep sqrt a b i st j = st := by
  rcases swapStep_cases sqrt a b i j hab st with ⟨hlt, _⟩ | ⟨_, he⟩
  · rw [ht, hc] at hlt
    exact absurd hlt h
  · exact he

theorem cap_costs (L : List (Load ℝ)) (m : ℝ) :
    calculateCost Real.sqrt ⟨[⟨[capA, capC]⟩, ⟨[capD]⟩], L, ⟨0, 0⟩, m⟩ = 2440
      ∧ calculateCost Real.sqrt ⟨[⟨[capD, capC]⟩, ⟨[capA]⟩], L, ⟨0, 0⟩, m⟩ = 2440
      ∧ calculateCost Real.sqrt ⟨[⟨[capA, capD]⟩, ⟨[capC]⟩], L, ⟨0, 0⟩, m⟩ = 1760
      ∧ calculateCost Real.sqrt ⟨[⟨[capC, capD]⟩, ⟨[capA]⟩], L, ⟨0, 0⟩, m⟩ = 2440 := by
  refine ⟨?_, ?_, ?_, ?_⟩ <;>
  simp [calculateCost, computeDistance, computeDistanceStep, capA, capC, capD, List.range_succ,
    dist_vertical] <;>
  norm_num

theorem cap_distances (s : Solution ℝ) (h : s.depot = ⟨0, 0⟩) :
    computeDistance Real.sqrt s [capA, capC] = 720
      ∧ computeDistance Real.sqrt s [capD] = 720
      ∧ computeDistance Real.sqrt s [capA, capD] = 740 := by
  refine ⟨?_, ?_, ?_⟩ <;>
  simp [computeDistance, computeDistanceStep, capA, capC, capD, h, List.range_succ,
    dist_vertical] <;>
  norm_num

theorem cap_swaps :
    swapLoads (capStart : Solution ℝ) 0 1 0 0
        = ⟨[⟨[capD, capC]⟩, ⟨[capA]⟩], [capA, capC, capD], ⟨0, 0⟩, 12 * 60⟩
      ∧ swapLoads (capStart : Solution ℝ) 0 1 1 0 = capEnd
      ∧ swapLoads (capEnd : Solution ℝ) 0 1 0 0
        = ⟨[⟨[capC, capD]⟩, ⟨[capA]⟩], [capA, capC, capD], ⟨0, 0⟩, 12 * 60⟩
      ∧ swapLoads (capEnd : Solution ℝ) 0 1 1 0 = capStart :=
  ⟨rfl, rfl, rfl, rfl⟩

theorem cap_between_start :
    swapLoadsBetweenDrivers Real.sqrt (capStart : Solution ℝ) 0 1 = (capEnd, true) := by
  have h0 : calculateCost Real.sqrt (capStart : Solution ℝ) = 2440 := (cap_costs _ _).1
  have s1 := swapStep_reject Real.sqrt 0 1 0 0 (by decide) ⟨capStart, 2440, false⟩ _ 2440
    cap_swaps.1 (cap_costs _ _).2.1 (by norm_num)
  have s2 := swapStep_accept Real.sqrt 0 1 1 0 (by decide) ⟨capStart, 2440, false⟩ capEnd 1760
    cap_swaps.2.1 (cap_costs _ _).2.2.1 (by norm_num)
  have l0 : (routeAt (capStart : Solution ℝ) 0).length = 2 := rfl
  have l1 : (routeAt (capStart : Solution ℝ) 1).length = 1 := rfl
  simp only [swapLoadsBetweenDrivers, l0, l1, h0, List.range_succ, List.range_zero,
    List.nil_append, List.cons_append, List.foldl_cons, List.foldl_nil, s1, s2]

theorem cap_between_end :
    swapLoadsBetweenDrivers Real.sqrt (capEnd : Solution ℝ) 0 1 = (capEnd, false) := by
  have h0 : calculateCost Real.sqrt (capEnd : Solution ℝ) = 1760 := (cap_costs _ _).2.2.1
  have s1 := swapStep_reject Real.sqrt 0 1 0 0 (by decide) ⟨capEnd, 1760, false⟩ _ 2440
    cap_swaps.2.2.1 (cap_costs _ _).2.2.2 (by norm_num)
  have s2 := swapStep_reject Real.sqrt 0 1 1 0 (by decide) ⟨capEnd, 1760, false⟩ capStart 2440
    cap_swaps.2.2.2 (cap_costs _ _).1 (by norm_num)
  have l0 : (routeAt (capEnd : Solution ℝ) 0).length = 2 := rfl
  have l1 : (routeAt (capEnd : Solution ℝ) 1).length = 1 := rfl
  simp only [swapLoadsBetweenDrivers, l0, l1, h0, List.range_succ, List.range_zero,
    List.nil_append, List.cons_append, List.foldl_cons, List.foldl_nil, s1, s2]

theorem cap_pass_start : localSearchPass Real.sqrt (capStart : Solution ℝ) = (capEnd, true) := by
  have l : (capStart : Solution ℝ).drivers.length = 2 := rfl
  simp only [localSearchPass, l, List.range_succ, List.range_zero, List.nil_append,
    List.cons_append, List.foldl_cons, List.foldl_nil, List.range', cap_between_start]
  simp [cap_between_start]

theorem cap_pass_end : localSearchPass Real.sqrt (capEnd : Solution ℝ) = (capEnd, false) := by
  have l : (capEnd : Solution ℝ).drivers.length = 2 := rfl
  simp only [localSearchPass, l, List.range_succ, List.range_zero, List.nil_append,
    List.cons_append, List.foldl_cons, List.foldl_nil, List.range', cap_between_end]
  simp [cap_between_end]

theorem cap_localSearch : localSearch Real.sqrt 2 (capStart : Solution ℝ) = some capEnd := by
  simp [localSearch, cap_pass_start, cap_pass_end]

/-- Claim C15 (local search can break the duration cap).  Over the reals, in the
solution `capStart` (cap `720`, routes `[A, C]` and `[D]`) every route has
`computeDistance` `720`, within the cap; `localSearch` keeps the exchange of `C`
and `D` (the cost falls from `2440` to `1760`) and returns `capEnd`, whose first
route `[A, D]` has `computeDistance` `740`, above the cap. -/
theorem localSearch_breaks_cap :
    ∃ s s' : Solution ℝ, s.maxDistance = 720
      ∧ (∀ d ∈ s.drivers, computeDistance Real.sqrt s d.Route ≤ s.maxDistance)
      ∧ (localSearchPass Real.sqrt s).2 = true
      ∧ localSearch Real.sqrt 2 s = some s'
      ∧ calculateCost Real.sqrt s' < calculateCost Real.sqrt s
      ∧ ∃ d ∈ s'.drivers, s'.maxDistance < computeDistance Real.sqrt s' d.Route := by
  have hmax : (capStart : Solution ℝ).maxDistance = 720 := by
    simp [capStart, NewSolution]; norm_num
  have hmax' : (capEnd : Solution ℝ).maxDistance = 720 := by
    simp [capEnd, NewSolution]; norm_num
  refine ⟨capStart, capEnd, hmax, ?_, ?_, cap_localSearch, ?_, ⟨[capA, capD]⟩, ?_, ?_⟩
  · intro d hd
    have : d = ⟨[capA, capC]⟩ ∨ d = ⟨[capD]⟩ := by simpa [capStart] using hd
    rcases this with rfl | rfl
    · rw [(cap_distances _ rfl).1, hmax]
    · rw [(cap_distances _ rfl).2.1, hmax]
  · rw [cap_pass_start]
  · have h1 : calculateCost Real.sqrt (capStart : Solution ℝ) = 2440 := (cap_costs _ _).1
    have h2 : calculateCost Real.sqrt (capEnd : Solution ℝ) = 1760 := (cap_costs _ _).2.2.1
    rw [h1, h2]; norm_num
  · simp [capEnd]
  · rw [(cap_distances _ rfl).2.2, hmax']
    norm_num

/-! ## Savings and the triangle inequality -/

theorem dist_eq_abs (p q : Point ℝ) :
    DistanceBetweenPoints Real.sqrt p q = Complex.abs ⟨q.X - p.X, q.Y - p.Y⟩ := by
  rw [DistanceBetweenPoints, Complex.abs_apply, Complex.normSq_mk]
  congr 1
  ring

theorem dist_nonneg (p q : Point ℝ) : 0 ≤ DistanceBetweenPoints Real.sqrt p q :=
  Real.sqrt_nonneg _

theorem dist_comm (p q : Point ℝ) :
    DistanceBetweenPoints Real.sqrt p q = DistanceBetweenPoints Real.sqrt q p := by
  unfold DistanceBetweenPoints
  congr 1
  ring

theorem dist_triangle (p q r : Point ℝ) :
    DistanceBetweenPoints Real.sqrt p r
      ≤ DistanceBetweenPoints Real.sqrt p q + DistanceBetweenPoints Real.sqrt q r := by
  rw [dist_eq_abs p r, dist_eq_abs p q, dist_eq_abs q r]
  have h : (⟨r.X - p.X, r.Y - p.Y⟩ : ℂ) = ⟨q.X - p.X, q.Y - p.Y⟩ + ⟨r.X - q.X, r.Y - q.Y⟩ := by
    apply Complex.ext <;> simp
  rw [h]
  exact Complex.abs.add_le _ _

theorem savingsListWith_saving {R : Type} [LinearOrderedCommRing R] (sqrt : R → R)
    (s : Solution R) (outer : List (Load R)) (inner : Load R → List (Load R)) :
    ∀ sv ∈ savingsListWith sqrt s outer inner,
      sv.Saving = DistanceBetweenPoints sqrt s.depot sv.From.Pickup
        + DistanceBetweenPoints sqrt sv.To.Dropoff s.depot
        - DistanceBetweenPoints sqrt sv.From.Pickup sv.To.Dropoff := by
  unfold savingsListWith
  apply foldl_preserves (fun savings : List (SavingsEntry R) =>
    ∀ sv ∈ savings, sv.Saving = DistanceBetweenPoints sqrt s.depot sv.From.Pickup
        + DistanceBetweenPoints sqrt sv.To.Dropoff s.depot
        - DistanceBetweenPoints sqrt sv.From.Pickup sv.To.Dropoff)
  · intro savings load1 hs
    apply foldl_preserves (fun savings : List (SavingsEntry R) =>
      ∀ sv ∈ savings, sv.Saving = DistanceBetweenPoints sqrt s.depot sv.From.Pickup
        + DistanceBetweenPoints sqrt sv.To.Dropoff s.depot
        - DistanceBetweenPoints sqrt sv.From.Pickup sv.To.Dropoff)
    · intro savings load2 hs sv hsv
      simp only [] at hsv
      split_ifs at hsv with hc
      · exact hs sv hsv
      · rcases List.mem_append.mp hsv with h | h
        · exact hs sv h
        · rw [List.mem_singleton.mp h]
    · exact hs
  · intro sv hsv
    simp at hsv

/-- Claim C20, amended (savings are never negative).  With the distances taken
as real numbers (exact arithmetic, `Real.sqrt`), for every depot and every
ordered pair of loads `(i, j)`, the value
`distance(depot, i.pickup) + distance(j.dropoff, depot) - distance(i.pickup, j.dropoff)`
is at least `0`, and every entry of the savings list built by
`clarkeWrightSavings` (in any visiting order of the map) carries this value for
its pair, hence a saving that is at least `0`. -/
theorem savings_nonneg (depot : Point ℝ) (i j : Load ℝ) :
    0 ≤ DistanceBetweenPoints Real.sqrt depot i.Pickup
          + DistanceBetweenPoints Real.sqrt j.Dropoff depot
          - DistanceBetweenPoints Real.sqrt i.Pickup j.Dropoff
      ∧ ∀ (s : Solution ℝ) (outer : List (Load ℝ)) (inner : Load ℝ → List (Load ℝ)),
          ∀ sv ∈ savingsListWith Real.sqrt s outer inner,
            sv.Saving = DistanceBetweenPoints Real.sqrt s.depot sv.From.Pickup
                + DistanceBetweenPoints Real.sqrt sv.To.Dropoff s.depot
                - DistanceBetweenPoints Real.sqrt sv.From.Pickup sv.To.Dropoff
              ∧ 0 ≤ sv.Saving := by
  have key : ∀ (d : Point ℝ) (a b : Load ℝ),
      0 ≤ DistanceBetweenPoints Real.sqrt d a.Pickup
          + DistanceBetweenPoints Real.sqrt b.Dropoff d
          - DistanceBetweenPoints Real.sqrt a.Pickup b.Dropoff := by
    intro d a b
    have h := dist_triangle a.Pickup d b.Dropoff
    rw [dist_comm a.Pickup d, dist_comm d b.Dropoff] at h
    linarith
  refine ⟨key depot i j, ?_⟩
  intro s outer inner sv hsv
  have h := savingsListWith_saving Real.sqrt s outer inner sv hsv
  exact ⟨h, h ▸ key s.depot sv.From sv.To⟩

theorem example_savingsList :
    savingsList Real.sqrt (withLoads [exampleA, exampleB])
      = [⟨exampleA, exampleB, 0⟩, ⟨exampleB, exampleA, 20⟩] := by
  simp [savingsList, savingsListWith, withLoads, exampleA, exampleB, NewSolution, dist_vertical]
  norm_num

theorem example_saving_values (depot : Point ℝ) (h : depot = ⟨0, 0⟩) :
    DistanceBetweenPoints Real.sqrt depot (exampleA : Load ℝ).Pickup
        + DistanceBetweenPoints Real.sqrt (exampleB : Load ℝ).Dropoff depot
        - DistanceBetweenPoints Real.sqrt (exampleA : Load ℝ).Pickup (exampleB : Load ℝ).Dropoff
        = 0
      ∧ DistanceBetweenPoints Real.sqrt depot (exampleB : Load ℝ).Pickup
        + DistanceBetweenPoints Real.sqrt (exampleA : Load ℝ).Dropoff depot
        - DistanceBetweenPoints Real.sqrt (exampleB : Load ℝ).Pickup (exampleA : Load ℝ).Dropoff
        = 20 := by
  subst h
  constructor <;> norm_num [exampleA, exampleB, dist_vertical]

/-- Claim C14, amended (worked example saving).  For `A = (0,0)->(0,10)` and
`B = (0,20)->(0,30)` with the depot at the origin, over the reals, the saving
computed for the ordered pair `(A, B)` is `0 + 30 - 30 = 0`, and the saving
computed for the ordered pair `(B, A)` is `20 + 10 - 10 = 20`, strictly
positive; these are the two entries of the savings list. -/
theorem worked_example_savings :
    DistanceBetweenPoints Real.sqrt (withLoads [exampleA, exampleB] : Solution ℝ).depot
          (exampleA : Load ℝ).Pickup
        + DistanceBetweenPoints Real.sqrt (exampleB : Load ℝ).Dropoff
            (withLoads [exampleA, exampleB] : Solution ℝ).depot
        - DistanceBetweenPoints Real.sqrt (exampleA : Load ℝ).Pickup (exampleB : Load ℝ).Dropoff
        = 0
      ∧ DistanceBetweenPoints Real.sqrt (withLoads [exampleA, exampleB] : Solution ℝ).depot
          (exampleB : Load ℝ).Pickup
        + DistanceBetweenPoints Real.sqrt (exampleA : Load ℝ).Dropoff
            (withLoads [exampleA, exampleB] : Solution ℝ).depot
        - DistanceBetweenPoints Real.sqrt (exampleB : Load ℝ).Pickup (exampleA : Load ℝ).Dropoff
        = 20
      ∧ savingsList Real.sqrt (withLoads [exampleA, exampleB])
        = [⟨exampleA, exampleB, 0⟩, ⟨exampleB, exampleA, 20⟩] :=
  ⟨(example_saving_values _ rfl).1, (example_saving_values _ rfl).2, example_savingsList⟩

/-- Claim C14 fails as stated: on the worked example the saving computed for the
ordered pair `(A, B)` is not strictly positive. -/
theorem worked_example_saving_not_positive :
    ¬ 0 < DistanceBetweenPoints Real.sqrt (withLoads [exampleA, exampleB] : Solution ℝ).depot
          (exampleA : Load ℝ).Pickup
        + DistanceBetweenPoints Real.sqrt (exampleB : Load ℝ).Dropoff
            (withLoads [exampleA, exampleB] : Solution ℝ).depot
        - DistanceBetweenPoints Real.sqrt (exampleA : Load ℝ).Pickup
            (exampleB : Load ℝ).Dropoff := by
  rw [(example_saving_values (withLoads [exampleA, exampleB] : Solution ℝ).depot rfl).1]
  exact lt_irrefl 0


/-! ## The worked example and the orientation of the savings -/

theorem dist_swap {R : Type} [LinearOrderedCommRing R] (sqrt : R → R) (p q : Point R) :
    DistanceBetweenPoints sqrt p q = DistanceBetweenPoints sqrt q p := by
  unfold DistanceBetweenPoints
  congr 1
  ring

theorem saving_eq_reverse_tour_saving {R : Type} [LinearOrderedCommRing R] (sqrt : R → R)
    (s : Solution R) (i j : Load R) :
    DistanceBetweenPoints sqrt s.depot i.Pickup + DistanceBetweenPoints sqrt j.Dropoff s.depot
        - DistanceBetweenPoints sqrt i.Pickup j.Dropoff
      = computeDistance sqrt s [j] + computeDistance sqrt s [i]
        - computeDistance sqrt s [j, i] := by
  simp only [computeDistance, computeDistanceStep, List.range_succ, List.range_zero,
    List.getLast?_singleton, List.getLast?_cons_cons, List.length_cons, List.length_nil,
    List.nil_append, List.cons_append, List.foldl_cons, List.foldl_nil,
    List.getElem?_cons_zero, List.getElem?_cons_succ, Nat.zero_add, if_true,
    Nat.sub_self, Nat.add_sub_cancel]
  simp only [show (1 : Nat) = 0 ↔ False from by decide, if_false]
  rw [dist_swap sqrt i.Pickup j.Dropoff]
  ring

theorem example_cost_AB (loads : List (Load ℝ)) :
    calculateCost Real.sqrt { withLoads loads with drivers := [⟨[exampleA, exampleB]⟩] } = 560 := by
  simp [calculateCost, computeDistance, computeDistanceStep, withLoads, exampleA, exampleB,
    NewSolution, List.range_succ, dist_vertical]
  norm_num

theorem example_tour_savings (s : Solution ℝ) (h : s.depot = ⟨0, 0⟩) :
    computeDistance Real.sqrt s [exampleA] + computeDistance Real.sqrt s [exampleB]
        - computeDistance Real.sqrt s [exampleA, exampleB] = 20
      ∧ computeDistance Real.sqrt s [exampleA] + computeDistance Real.sqrt s [exampleB]
        - computeDistance Real.sqrt s [exampleB, exampleA] = 0 := by
  constructor <;>
  · simp [computeDistance, computeDistanceStep, exampleA, exampleB, h, List.range_succ,
      dist_vertical]
    norm_num

/-- Claim C6 (worked example) does not hold of the code, which misses the
saving it computes.  For
`A = (0,0)->(0,10)` and `B = (0,20)->(0,30)` with the depot at the origin, over
the reals: serving `B` right after `A` (the route `[A, B]`) saves `20` against
two separate routes and serving `A` right after `B` (the route `[B, A]`) saves
`0`, and the route `[A, B]` in one driver costs `560`; but the saving that
`clarkeWrightSavings` stores for a pair `(From, To)` is, for every depot and
every pair, the saving of the route `[To, From]`, while the merge loop builds
the route `[From, To]`.  So the pair `(B, A)` is ranked first with saving `20`,
and `clarkeWrightSavings` returns the single route `[B, A]` with
`calculateCost = 580`, for both orders in which the map can list the two
loads. -/
theorem worked_example_route_BA :
    (computeDistance Real.sqrt (withLoads [exampleA, exampleB]) [exampleA]
          + computeDistance Real.sqrt (withLoads [exampleA, exampleB]) [exampleB]
          - computeDistance Real.sqrt (withLoads [exampleA, exampleB]) [exampleA, exampleB]
        = 20)
      ∧ (computeDistance Real.sqrt (withLoads [exampleA, exampleB]) [exampleA]
          + computeDistance Real.sqrt (withLoads [exampleA, exampleB]) [exampleB]
          - computeDistance Real.sqrt (withLoads [exampleA, exampleB]) [exampleB, exampleA]
        = 0)
      ∧ calculateCost Real.sqrt
          { withLoads [exampleA, exampleB] with drivers := [⟨[exampleA, exampleB]⟩] } = 560
      ∧ (∀ (s : Solution ℝ) (outer : List (Load ℝ)) (inner : Load ℝ → List (Load ℝ)),
          ∀ sv ∈ savingsListWith Real.sqrt s outer inner,
            sv.Saving = computeDistance Real.sqrt s [sv.To]
              + computeDistance Real.sqrt s [sv.From]
              - computeDistance Real.sqrt s [sv.To, sv.From])
      ∧ sortSavings (savingsList Real.sqrt (withLoads [exampleA, exampleB]))
        = [⟨exampleB, exampleA, 20⟩, ⟨exampleA, exampleB, 0⟩]
      ∧ (clarkeWrightSavings Real.sqrt (withLoads [exampleA, exampleB])).drivers
        = [⟨[exampleB, exampleA]⟩]
      ∧ calculateCost Real.sqrt (clarkeWrightSavings Real.sqrt (withLoads [exampleA, exampleB]))
        = 580
      ∧ (clarkeWrightSavings Real.sqrt (withLoads [exampleB, exampleA])).drivers
        = [⟨[exampleB, exampleA]⟩]
      ∧ calculateCost Real.sqrt (clarkeWrightSavings Real.sqrt (withLoads [exampleB, exampleA]))
        = 580 := by
  refine ⟨(example_tour_savings _ rfl).1, (example_tour_savings _ rfl).2, example_cost_AB _,
    ?_, example_savings_AB, ?_⟩
  · intro s outer inner sv hsv
    rw [← saving_eq_reverse_tour_saving]
    exact savingsListWith_saving Real.sqrt s outer inner sv hsv
  · rw [example_construction _ example_savings_AB (Or.inl rfl),
      example_construction _ example_savings_BA (Or.inr rfl)]
    exact ⟨rfl, example_cost _, rfl, example_cost _⟩
/-! ## Concatenating routes -/

theorem lastPoint_nil {R : Type} (d : Point R) : lastPoint d ([] : List (Load R)) = d := rfl

theorem lastPoint_cons_eq {R : Type} (d : Point R) (l : Load R) (rest : List (Load R)) :
    lastPoint d (l :: rest) = lastPoint l.Dropoff rest := by
  cases rest with
  | nil => simp [lastPoint]
  | cons r rs =>
    simp only [lastPoint, List.getLast?_cons_cons]
    rw [List.getLast?_eq_getLast _ (List.cons_ne_nil r rs)]

theorem openLegs_append {R : Type} [LinearOrderedCommRing R] (sqrt : R → R)
    (r1 r2 : List (Load R)) :
    ∀ prev : Point R, openLegs sqrt prev (r1 ++ r2)
      = openLegs sqrt prev r1 + openLegs sqrt (lastPoint prev r1) r2 := by
  induction r1 with
  | nil => intro prev; simp [openLegs, lastPoint_nil]
  | cons l rest ih =>
    intro prev
    rw [List.cons_append, openLegs, openLegs, ih, lastPoint_cons_eq]
    ring

theorem lastPoint_append {R : Type} (r1 r2 : List (Load R)) :
    ∀ d : Point R, lastPoint d (r1 ++ r2) = lastPoint (lastPoint d r1) r2 := by
  induction r1 with
  | nil => intro d; simp [lastPoint_nil]
  | cons l rest ih =>
    intro d
    rw [List.cons_append, lastPoint_cons_eq, lastPoint_cons_eq, ih]

theorem computeDistance_append_le (s : Solution ℝ) (r1 r2 : List (Load ℝ)) :
    computeDistance Real.sqrt s (r1 ++ r2)
      ≤ computeDistance Real.sqrt s r1 + computeDistance Real.sqrt s r2 := by
  cases r1 with
  | nil =>
    have : computeDistance Real.sqrt s [] = 0 := by simp [computeDistance]
    rw [List.nil_append, this, zero_add]
  | cons a as =>
    cases r2 with
    | nil =>
      have : computeDistance Real.sqrt s [] = 0 := by simp [computeDistance]
      rw [List.append_nil, this, add_zero]
    | cons b bs =>
      have e1 : computeDistance Real.sqrt s (a :: as ++ b :: bs)
          = openLegs Real.sqrt s.depot (a :: as)
            + openLegs Real.sqrt (lastPoint s.depot (a :: as)) (b :: bs)
            + DistanceBetweenPoints Real.sqrt
                (lastPoint (lastPoint s.depot (a :: as)) (b :: bs)) s.depot := by
        rw [List.cons_append, computeDistance_cons, ← List.cons_append, openLegs_append,
          lastPoint_append]
      rw [e1, computeDistance_cons, computeDistance_cons, lastPoint_cons_eq _ b,
        lastPoint_cons_eq _ b]
      simp only [openLegs]
      have h := dist_triangle (lastPoint s.depot (a :: as)) s.depot b.Pickup
      linarith

/-! ## Cost of a merge -/

theorem foldl_add_eq_sum {α R : Type} [LinearOrderedCommRing R] (f : α → R) :
    ∀ (l : List α) (a : R), l.foldl (fun acc d => acc + f d) a = a + (l.map f).sum := by
  intro l
  induction l with
  | nil => intro a; simp
  | cons x xs ih =>
    intro a
    rw [List.foldl_cons, ih, List.map_cons, List.sum_cons]
    ring

theorem calculateCost_eq_sum {R : Type} [LinearOrderedCommRing R] (sqrt : R → R)
    (s : Solution R) :
    calculateCost sqrt s
      = 500 * (s.drivers.length : R)
        + (s.drivers.map (fun d => routeDistance sqrt s.depot d.Route)).sum := by
  simp only [calculateCost, computeDistance_eq_routeDistance]
  rw [foldl_add_eq_sum (fun d : Driver R => routeDistance sqrt s.depot d.Route), zero_add]

theorem sum_map_set_ring {α R : Type} [LinearOrderedCommRing R] (φ : α → R) :
    ∀ (l : List α) (a : Nat) (x y : α), l[a]? = some y →
      ((l.set a x).map φ).sum + φ y = (l.map φ).sum + φ x := by
  intro l
  induction l with
  | nil => intro a x y h; simp at h
  | cons z zs ih =>
    intro a x y h
    cases a with
    | zero =>
      simp at h
      subst h
      simp only [List.set_cons_zero, List.map_cons, List.sum_cons]
      ring
    | succ n =>
      simp at h
      have := ih n x y h
      simp only [List.set_cons_succ, List.map_cons, List.sum_cons]
      linear_combination this

theorem sum_map_eraseIdx_ring {α R : Type} [LinearOrderedCommRing R] (φ : α → R) :
    ∀ (l : List α) (a : Nat) (y : α), l[a]? = some y →
      ((l.eraseIdx a).map φ).sum + φ y = (l.map φ).sum := by
  intro l
  induction l with
  | nil => intro a y h; simp at h
  | cons z zs ih =>
    intro a y h
    cases a with
    | zero =>
      simp at h
      subst h
      simp only [List.eraseIdx_cons_zero, List.map_cons, List.sum_cons]
      ring
    | succ n =>
      simp at h
      have := ih n y h
      simp only [List.eraseIdx_cons_succ, List.map_cons, List.sum_cons]
      linear_combination this

theorem mergeStep_both {R : Type} [LinearOrderedCommRing R] (sqrt : R → R) (s : Solution R)
    (sv : SavingsEntry R) (f t : Nat) (hf : findDriverForLoad s sv.From = some f)
    (ht : findDriverForLoad s sv.To = some t) (hne : f ≠ t)
    (hc : computeDistance sqrt s (routeAt s f ++ routeAt s t) ≤ s.maxDistance) :
    mergeStep sqrt s sv = removeDriver (setRoute s f (routeAt s f ++ routeAt s t)) t := by
  simp [mergeStep, hf, ht, hne, hc]

theorem merge_cost (s : Solution ℝ) (sv : SavingsEntry ℝ) (f t : Nat)
    (hf : findDriverForLoad s sv.From = some f) (ht : findDriverForLoad s sv.To = some t)
    (hne : f ≠ t)
    (hc : computeDistance Real.sqrt s (routeAt s f ++ routeAt s t) ≤ s.maxDistance) :
    calculateCost Real.sqrt (mergeStep Real.sqrt s sv) + 500 ≤ calculateCost Real.sqrt s := by
  rw [mergeStep_both Real.sqrt s sv f t hf ht hne hc, calculateCost_eq_sum, calculateCost_eq_sum]
  have hdf := findDriverForLoad_some s sv.From f hf
  have hdt := findDriverForLoad_some s sv.To t ht
  have hdt' : (s.drivers.set f ⟨routeAt s f ++ routeAt s t⟩)[t]? = some ⟨routeAt s t⟩ := by
    rw [List.getElem?_set_ne hne]; exact hdt
  have e1 := sum_map_eraseIdx_ring (fun d : Driver ℝ => routeDistance Real.sqrt s.depot d.Route)
    (s.drivers.set f ⟨routeAt s f ++ routeAt s t⟩) t _ hdt'
  have e2 := sum_map_set_ring (fun d : Driver ℝ => routeDistance Real.sqrt s.depot d.Route)
    s.drivers f ⟨routeAt s f ++ routeAt s t⟩ _ hdf
  have e3 := computeDistance_append_le s (routeAt s f) (routeAt s t)
  simp only [computeDistance_eq_routeDistance] at e3
  have htl : t < s.drivers.length := (List.getElem?_eq_some.mp hdt).1
  have hlen : ((s.drivers.set f ⟨routeAt s f ++ routeAt s t⟩).eraseIdx t).length + 1
      = s.drivers.length := by
    rw [List.length_eraseIdx, List.length_set]
    simp only [List.length_set, htl, if_true]
    omega
  have hlen' : (((s.drivers.set f ⟨routeAt s f ++ routeAt s t⟩).eraseIdx t).length : ℝ) + 1
      = (s.drivers.length : ℝ) := by exact_mod_cast hlen
  simp only [removeDriver, setRoute] at e1 e2 ⊢
  linarith

/-- Claim C19, amended (concatenating routes never adds distance).  With the
distances taken as real numbers (exact arithmetic, `Real.sqrt`), for every
solution (every depot) and all routes `r1`, `r2`,
`computeDistance (r1 ++ r2) ≤ computeDistance r1 + computeDistance r2`; so an
iteration of the merge loop that merges two different drivers (both loads have
a driver, the drivers differ, the concatenated route is within `maxDistance`)
lowers `calculateCost` by at least `500`. -/
theorem concat_never_adds_distance (s : Solution ℝ) (r1 r2 : List (Load ℝ)) :
    computeDistance Real.sqrt s (r1 ++ r2)
        ≤ computeDistance Real.sqrt s r1 + computeDistance Real.sqrt s r2
      ∧ ∀ (sv : SavingsEntry ℝ) (f t : Nat), findDriverForLoad s sv.From = some f →
          findDriverForLoad s sv.To = some t → f ≠ t →
          computeDistance Real.sqrt s (routeAt s f ++ routeAt s t) ≤ s.maxDistance →
          mergeStep Real.sqrt s sv = removeDriver (setRoute s f (routeAt s f ++ routeAt s t)) t
            ∧ calculateCost Real.sqrt (mergeStep Real.sqrt s sv) + 500
                ≤ calculateCost Real.sqrt s :=
  ⟨computeDistance_append_le s r1 r2, fun sv f t hf ht hne hc =>
    ⟨mergeStep_both Real.sqrt s sv f t hf ht hne hc, merge_cost s sv f t hf ht hne hc⟩⟩

/-! ## Reading a problem file -/

theorem lineLoad_empty {R : Type} [LinearOrderedCommRing R] (toFloat : String → R) :
    lineLoad toFloat "" = none := rfl

theorem loadStep_eq {R : Type} [LinearOrderedCommRing R] (toFloat : String → R)
    (loads : List (Load R)) (line : String) :
    (if line = "" then loads
      else
        match Fields line with
        | id :: p1 :: p2 :: _ =>
          let pickupCoords := Trim p1 [lparen, rparen]
          let dropoffCoords := Trim p2 [lparen, rparen]
          match Split pickupCoords comma, Split dropoffCoords comma with
          | px :: py :: _, dx :: dy :: _ =>
            loads ++ [⟨id, ⟨toFloat px, toFloat py⟩, ⟨toFloat dx, toFloat dy⟩⟩]
          | _, _ => loads
        | _ => loads)
      = loads ++ (lineLoad toFloat line).toList := by
  by_cases h : line = ""
  · subst h
    simp [lineLoad_empty]
  · rw [if_neg h]
    unfold lineLoad
    generalize Fields line = fs
    rcases fs with _ | ⟨id, _ | ⟨p1, _ | ⟨p2, tl⟩⟩⟩
    · simp
    · simp
    · simp
    · simp only []
      generalize Split (Trim p1 [lparen, rparen]) comma = a
      generalize Split (Trim p2 [lparen, rparen]) comma = b
      rcases a with _ | ⟨px, _ | ⟨py, ta⟩⟩ <;> rcases b with _ | ⟨dx, _ | ⟨dy, tb⟩⟩ <;> simp

theorem foldl_loadStep {R : Type} [LinearOrderedCommRing R] (toFloat : String → R)
    (lines : List String) :
    ∀ loads : List (Load R),
      lines.foldl (fun loads line =>
        if line = "" then loads
        else
          match Fields line with
          | id :: p1 :: p2 :: _ =>
            let pickupCoords := Trim p1 [lparen, rparen]
            let dropoffCoords := Trim p2 [lparen, rparen]
            match Split pickupCoords comma, Split dropoffCoords comma with
            | px :: py :: _, dx :: dy :: _ =>
              loads ++ [⟨id, ⟨toFloat px, toFloat py⟩, ⟨toFloat dx, toFloat dy⟩⟩]
            | _, _ => loads
          | _ => loads) loads
        = loads ++ lines.filterMap (lineLoad toFloat) := by
  induction lines with
  | nil => intro loads; simp
  | cons line rest ih =>
    intro loads
    rw [List.foldl_cons, loadStep_eq, ih]
    cases h : lineLoad toFloat line with
    | none => simp [List.filterMap_cons, h]
    | some l => simp [List.filterMap_cons, h]

theorem loadProblemFromFile_eq_filterMap {R : Type} [LinearOrderedCommRing R]
    (toFloat : String → R) (text : String) :
    LoadProblemFromFile toFloat text
      = if (scanLines text).err then none
        else some ((scanLines text).lines.filterMap (lineLoad toFloat)) := by
  unfold LoadProblemFromFile
  simp only []
  rw [(foldl_loadStep toFloat (scanLines text).lines []).trans (List.nil_append _)]

theorem filterMap_eq_nil_iff_all_none {α β : Type} (f : α → Option β) (l : List α) :
    (l.filterMap f).length = 0 ↔ ∀ x ∈ l, f x = none := by
  induction l with
  | nil => simp
  | cons x xs ih =>
    cases h : f x with
    | none => simp [List.filterMap_cons, h, ih]
    | some y => simp [List.filterMap_cons, h]

theorem loader_split {R : Type} [LinearOrderedCommRing R] (toFloat : String → R)
    (lines : List String) :
    lines.filterMap (lineLoad toFloat)
      = (lines.take 1).filterMap (lineLoad toFloat) ++ headerBlankLoader toFloat lines
        ++ ((lines.drop 1).dropWhile (fun l => !isBlank l)).filterMap (lineLoad toFloat) := by
  rw [headerBlankLoader, List.append_assoc,
    ← List.filterMap_append, List.takeWhile_append_dropWhile, ← List.filterMap_append,
    List.take_append_drop]

theorem scanLines_err_iff (text : String) :
    (scanLines text).err = true
      ↔ ∃ raw ∈ rawLines text, MaxScanTokenSize ≤ raw.utf8ByteSize := by
  simp [scanLines, List.any_eq_true]

theorem scanLines_lines_of_ok (text : String) (h : (scanLines text).err = false) :
    (scanLines text).lines = (rawLines text).map dropCR := by
  have hall : ∀ raw ∈ rawLines text, raw.utf8ByteSize < MaxScanTokenSize := by
    intro raw hraw
    by_contra hlt
    have : (scanLines text).err = true :=
      (scanLines_err_iff text).mpr ⟨raw, hraw, Nat.le_of_not_lt hlt⟩
    rw [h] at this
    exact Bool.noConfusion this
  simp only [scanLines]
  congr 1
  rw [List.takeWhile_eq_self_iff]
  intro raw hraw
  simpa using hall raw hraw

theorem splitFrom_of_not_mem (sep : Char) :
    ∀ (l cur : List Char), sep ∉ l → splitFrom sep l cur = [String.mk (cur.reverse ++ l)] := by
  intro l
  induction l with
  | nil => intro cur _; simp [splitFrom]
  | cons c cs ih =>
    intro cur h
    have hc : c ≠ sep := fun e => h (e ▸ List.mem_cons_self _ _)
    have hcs : sep ∉ cs := fun e => h (List.mem_cons_of_mem _ e)
    rw [splitFrom, if_neg hc, ih (c :: cur) hcs]
    simp

theorem utf8ByteSize_replicate (n : Nat) :
    (String.mk (List.replicate n (Char.ofNat 97))).utf8ByteSize = n := by
  have key : ∀ n, String.utf8ByteSize.go (List.replicate n (Char.ofNat 97)) = n := by
    intro n
    induction n with
    | zero => rfl
    | succ k ih =>
      rw [List.replicate_succ, String.utf8ByteSize.go, ih]
      rfl
  exact key n

theorem scanLines_long_line :
    scanLines (String.mk (List.replicate MaxScanTokenSize (Char.ofNat 97))) = ⟨[], true⟩ := by
  have hraw : rawLines (String.mk (List.replicate MaxScanTokenSize (Char.ofNat 97)))
      = [String.mk (List.replicate MaxScanTokenSize (Char.ofNat 97))] := by
    unfold rawLines
    have hs : splitFrom lineFeed
        (String.mk (List.replicate MaxScanTokenSize (Char.ofNat 97))).toList []
        = [String.mk (List.replicate MaxScanTokenSize (Char.ofNat 97))] := by
      rw [splitFrom_of_not_mem]
      · simp
      · intro h
        have := List.eq_of_mem_replicate h
        exact absurd this (by decide)
    simp only [hs]
    rw [if_neg]
    intro h
    have h2 := congrArg (Option.map String.utf8ByteSize) h
    simp only [List.getLast?_singleton, Option.map_some', utf8ByteSize_replicate] at h2
    exact absurd (Option.some.inj h2) (by decide)
  simp only [scanLines, hraw, List.takeWhile_cons, List.any_cons, utf8ByteSize_replicate]
  simp

theorem loadProblemFromFile_long_line {R : Type} [LinearOrderedCommRing R]
    (toFloat : String → R) :
    LoadProblemFromFile toFloat (String.mk (List.replicate MaxScanTokenSize (Char.ofNat 97)))
      = none := by
  rw [loadProblemFromFile_eq_filterMap, scanLines_long_line]
  rfl

/-- Claim C12, amended (problem file format).  For every problem text,
`LoadProblemFromFile` of `main.go` behaves as follows.  The scanner fails
exactly when some line of the text has `64 * 1024` bytes or more, and then the
loader returns no loads and an error.  Otherwise the scanner yields every line
of the text, and the loader returns exactly the loads of all well-formed lines,
in order: lines that are not well-formed (an empty line, fewer than three
fields, a point without a comma) are skipped, the first line is not ignored as
such and a blank line does not stop the reading.  The result is then the list
of the loads of the well-formed lines after the first line and before the first
blank line exactly when the first line is not well-formed and no well-formed
line follows the first blank line. -/
theorem loader_reads_all_wellformed_lines {R : Type} [LinearOrderedCommRing R]
    (toFloat : String → R) (text : String) :
    ((scanLines text).err = true
        ↔ ∃ raw ∈ rawLines text, MaxScanTokenSize ≤ raw.utf8ByteSize)
      ∧ ((scanLines text).err = true → LoadProblemFromFile toFloat text = none)
      ∧ ((scanLines text).err = false →
          (scanLines text).lines = (rawLines text).map dropCR
          ∧ LoadProblemFromFile toFloat text
              = some ((scanLines text).lines.filterMap (lineLoad toFloat))
          ∧ (LoadProblemFromFile toFloat text
                = some (headerBlankLoader toFloat (scanLines text).lines)
              ↔ (∀ h ∈ (scanLines text).lines.take 1, lineLoad toFloat h = none)
                ∧ ∀ l ∈ ((scanLines text).lines.drop 1).dropWhile (fun l => !isBlank l),
                    lineLoad toFloat l = none)) := by
  refine ⟨scanLines_err_iff text, ?_, ?_⟩
  · intro h
    rw [loadProblemFromFile_eq_filterMap, h]
    rfl
  · intro h
    have hload : LoadProblemFromFile toFloat text
        = some ((scanLines text).lines.filterMap (lineLoad toFloat)) := by
      rw [loadProblemFromFile_eq_filterMap, h]
      rfl
    refine ⟨scanLines_lines_of_ok text h, hload, ?_⟩
    rw [hload, ← filterMap_eq_nil_iff_all_none, ← filterMap_eq_nil_iff_all_none]
    constructor
    · intro h
      have hlen := congrArg List.length (Option.some.inj h)
      rw [loader_split toFloat (scanLines text).lines, List.length_append,
        List.length_append] at hlen
      omega
    · rintro ⟨h1, h2⟩
      rw [loader_split toFloat (scanLines text).lines, List.length_eq_zero.mp h1,
        List.length_eq_zero.mp h2]
      simp

/-- Claim C12 fails as stated.  For no `toFloat` does `LoadProblemFromFile` of
`main.go` ignore a well-formed first line (on the text with the single line
`1 (0,0) (0,10)` that load is returned), and for no `toFloat` does it stop at a
blank line (on the text with a header, load `1`, a blank line and load `2`, the
load `2` after the blank line is returned); `util.LoadProblemFromProblemStr`
returns no load on the first text and only the load `1` on the second. -/
theorem loader_header_blank_counterexample :
    (¬ ∃ toFloat : String → ℝ,
        LoadProblemFromFile toFloat "1 (0,0) (0,10)\n"
          = some (headerBlankLoader toFloat (scanLines "1 (0,0) (0,10)\n").lines))
      ∧ (¬ ∃ toFloat : String → ℝ,
          LoadProblemFromFile toFloat
              "loadNumber pickup dropoff\n1 (0,0) (0,10)\n\n2 (0,20) (0,30)\n"
            = some (headerBlankLoader toFloat (scanLines
              "loadNumber pickup dropoff\n1 (0,0) (0,10)\n\n2 (0,20) (0,30)\n").lines))
      ∧ (scanLines "1 (0,0) (0,10)\n" = ⟨["1 (0,0) (0,10)"], false⟩)
      ∧ (scanLines "loadNumber pickup dropoff\n1 (0,0) (0,10)\n\n2 (0,20) (0,30)\n"
          = ⟨["loadNumber pickup dropoff", "1 (0,0) (0,10)", "", "2 (0,20) (0,30)"], false⟩)
      ∧ (∀ toFloat : String → ℝ,
          (LoadProblemFromFile toFloat "1 (0,0) (0,10)\n").map
              (fun loads => loads.map (fun l => l.ID)) = some ["1"]
            ∧ Util.LoadProblemFromProblemStr toFloat "1 (0,0) (0,10)\n" = some []
            ∧ (LoadProblemFromFile toFloat
                "loadNumber pickup dropoff\n1 (0,0) (0,10)\n\n2 (0,20) (0,30)\n").map
                (fun loads => loads.map (fun l => l.ID)) = some ["1", "2"]
            ∧ (Util.LoadProblemFromProblemStr toFloat
                "loadNumber pickup dropoff\n1 (0,0) (0,10)\n\n2 (0,20) (0,30)\n").map
                (fun loads => loads.map (fun l => l.ID)) = some ["1"]) := by
  refine ⟨?_, ?_, by decide, by decide, ?_⟩
  · rintro ⟨toFloat, h⟩
    have h1 : (LoadProblemFromFile toFloat "1 (0,0) (0,10)\n").map List.length = some 1 := rfl
    have h2 : (headerBlankLoader toFloat (scanLines "1 (0,0) (0,10)\n").lines).length = 0 :=
      rfl
    rw [h, Option.map_some', h2] at h1
    exact absurd (Option.some.inj h1) (by decide)
  · rintro ⟨toFloat, h⟩
    have h1 : (LoadProblemFromFile toFloat
        "loadNumber pickup dropoff\n1 (0,0) (0,10)\n\n2 (0,20) (0,30)\n").map List.length
        = some 2 := rfl
    have h2 : (headerBlankLoader toFloat (scanLines
        "loadNumber pickup dropoff\n1 (0,0) (0,10)\n\n2 (0,20) (0,30)\n").lines).length
        = 1 := rfl
    rw [h, Option.map_some', h2] at h1
    exact absurd (Option.some.inj h1) (by decide)
  · intro toFloat
    exact ⟨rfl, rfl, rfl, rfl⟩
/-! ## Runs on concrete inputs -/

/-- Run of claim C16 on integer coordinates: with the single route `[B, A]` of
the worked example, the pair `(A, B)` finds both loads in driver `0` and changes
nothing (case a); with the single route `[2]`, appending load `1` gives a route
of distance `1100 > 720`, and the pair `(2, 1)` changes nothing (case b). -/
theorem rejected_pair_unchanged_witness :
    mergeStep isqrt (⟨[⟨[exampleB, exampleA]⟩], [exampleA, exampleB], ⟨0, 0⟩, 720⟩ : Solution Int)
        ⟨exampleA, exampleB, 0⟩
        = ⟨[⟨[exampleB, exampleA]⟩], [exampleA, exampleB], ⟨0, 0⟩, 720⟩
      ∧ mergeStep isqrt (⟨[⟨[overCapB]⟩], [overCapA, overCapB], ⟨0, 0⟩, 720⟩ : Solution Int)
        ⟨overCapB, overCapA, 600⟩
        = ⟨[⟨[overCapB]⟩], [overCapA, overCapB], ⟨0, 0⟩, 720⟩ :=
  ⟨(rejected_pair_unchanged isqrt _ _).1 0 (by decide) (by decide),
    (rejected_pair_unchanged isqrt _ _).2.1 0 (by decide) (by decide) (by decide)⟩

/-- Run of claim C13 on integer coordinates: with the routes `[1]` and `[A]`,
load `B` fits both drivers (distances `620` and `60`) and is appended to the
route of driver `1`, the cheaper one. -/
theorem reassign_picks_cheapest_witness :
    computeDistance isqrt (⟨[⟨[overCapA]⟩, ⟨[exampleA]⟩], [], ⟨0, 0⟩, 720⟩ : Solution Int)
        [overCapA, exampleB] = 620
      ∧ computeDistance isqrt (⟨[⟨[overCapA]⟩, ⟨[exampleA]⟩], [], ⟨0, 0⟩, 720⟩ : Solution Int)
        [exampleA, exampleB] = 60
      ∧ reassignOne isqrt (⟨[⟨[overCapA]⟩, ⟨[exampleA]⟩], [], ⟨0, 0⟩, 720⟩ : Solution Int)
        exampleB = ⟨[⟨[overCapA]⟩, ⟨[exampleA, exampleB]⟩], [], ⟨0, 0⟩, 720⟩
      ∧ ∃ b, b < 2
        ∧ reassignOne isqrt (⟨[⟨[overCapA]⟩, ⟨[exampleA]⟩], [], ⟨0, 0⟩, 720⟩ : Solution Int)
            exampleB
          = setRoute ⟨[⟨[overCapA]⟩, ⟨[exampleA]⟩], [], ⟨0, 0⟩, 720⟩ b
              (routeAt (⟨[⟨[overCapA]⟩, ⟨[exampleA]⟩], [], ⟨0, 0⟩, 720⟩ : Solution Int) b
                ++ [exampleB]) :=
  ⟨by decide, by decide, by decide,
    match (reassign_picks_cheapest isqrt
      (⟨[⟨[overCapA]⟩, ⟨[exampleA]⟩], [], ⟨0, 0⟩, 720⟩ : Solution Int) exampleB).2
      ⟨1, by decide, by decide⟩ with
    | ⟨b, hb, _, _, _, he, _⟩ => ⟨b, hb, he⟩⟩

theorem example_pair_distance (s : Solution ℝ) (h : s.depot = ⟨0, 0⟩) :
    computeDistance Real.sqrt s [exampleA, exampleB] = 60 := by
  simp [computeDistance, computeDistanceStep, exampleA, exampleB, h, List.range_succ,
    dist_vertical]
  norm_num

/-- Run of the amended claim C19 over the reals: with the routes `[A]` and `[B]`
of the worked example, the pair `(A, B)` merges the two drivers (the route
`[A, B]` has distance `60 ≤ 720`) and the cost falls by at least `500`. -/
theorem concat_never_adds_distance_witness :
    mergeStep Real.sqrt (⟨[⟨[exampleA]⟩, ⟨[exampleB]⟩], [exampleA, exampleB], ⟨0, 0⟩, 720⟩ :
        Solution ℝ) ⟨exampleA, exampleB, 0⟩
        = ⟨[⟨[exampleA, exampleB]⟩], [exampleA, exampleB], ⟨0, 0⟩, 720⟩
      ∧ calculateCost Real.sqrt
          (mergeStep Real.sqrt (⟨[⟨[exampleA]⟩, ⟨[exampleB]⟩], [exampleA, exampleB], ⟨0, 0⟩, 720⟩ :
            Solution ℝ) ⟨exampleA, exampleB, 0⟩) + 500
        ≤ calculateCost Real.sqrt (⟨[⟨[exampleA]⟩, ⟨[exampleB]⟩], [exampleA, exampleB],
            ⟨0, 0⟩, 720⟩ : Solution ℝ) :=
  have h := (concat_never_adds_distance
    (⟨[⟨[exampleA]⟩, ⟨[exampleB]⟩], [exampleA, exampleB], ⟨0, 0⟩, 720⟩ : Solution ℝ) [] []).2
    ⟨exampleA, exampleB, 0⟩ 0 1 rfl rfl (by decide)
    (by
      have : routeAt (⟨[⟨[exampleA]⟩, ⟨[exampleB]⟩], [exampleA, exampleB], ⟨0, 0⟩, 720⟩ :
          Solution ℝ) 0 ++ routeAt (⟨[⟨[exampleA]⟩, ⟨[exampleB]⟩], [exampleA, exampleB],
          ⟨0, 0⟩, 720⟩ : Solution ℝ) 1 = [exampleA, exampleB] := rfl
      rw [this, example_pair_distance _ rfl]
      norm_num)
  ⟨h.1.trans rfl, h.2⟩


/-! ## Rounding in `float64` -/

set_option maxRecDepth 100000

theorem F64.sqrtBits_spec (n : Nat) :
    ∀ (k r : Nat), r * r ≤ n → n < (r + 2 ^ k) * (r + 2 ^ k) →
      F64.sqrtBits n k r * F64.sqrtBits n k r ≤ n
        ∧ n < (F64.sqrtBits n k r + 1) * (F64.sqrtBits n k r + 1) := by
  intro k
  induction k with
  | zero =>
    intro r h1 h2
    simpa [F64.sqrtBits] using ⟨h1, h2⟩
  | succ k ih =>
    intro r h1 h2
    rw [F64.sqrtBits]
    split_ifs with hc
    · apply ih _ hc
      have : r + 2 ^ k + 2 ^ k = r + 2 ^ (k + 1) := by rw [pow_succ]; ring
      rw [this]
      exact h2
    · exact ih r h1 (Nat.lt_of_not_le hc)

theorem F64.sqrtBits_floor (n : Nat) (h : n < 2 ^ 128) :
    F64.sqrtBits n 64 0 * F64.sqrtBits n 64 0 ≤ n
      ∧ n < (F64.sqrtBits n 64 0 + 1) * (F64.sqrtBits n 64 0 + 1) := by
  apply F64.sqrtBits_spec n 64 0 (Nat.zero_le _)
  have : (0 + 2 ^ 64) * (0 + 2 ^ 64) = 2 ^ 128 := by norm_num
  rw [this]
  exact h

/-- Values of the `float64` model: `0`, `1`, `500`, `720`,
`math.Sqrt(2) = 0x1.6a09e667f3bcdp+0` and `math.Sqrt(4) = 2`. -/
theorem F64.known_values :
    F64.ofInt 0 = ⟨0, 0⟩ ∧ F64.ofInt 1 = ⟨0x10000000000000, -52⟩
      ∧ F64.ofInt 500 = ⟨0x1f400000000000, -44⟩ ∧ F64.ofInt 720 = ⟨0x16800000000000, -43⟩
      ∧ F64.sqrt (F64.ofInt 2) = ⟨0x16a09e667f3bcd, -52⟩
      ∧ F64.sqrt (F64.ofInt 4) = F64.ofInt 2 := by
  decide

/-- Claim C20 fails as stated on the `float64` values the program computes.
With the depot at the origin, load `I` resting at `(1,1)` and load `J` resting
at `(-3,-3)`: the three distances are `math.Sqrt(2) = 0x1.6a09e667f3bcdp+0`
(1.4142135623730951), `math.Sqrt(18) = 0x1.0f876ccdf6cd9p+2`
(4.242640687119285) and `math.Sqrt(32) = 0x1.6a09e667f3bcdp+2`
(5.656854249492381); the sum of the first two rounds to
`0x1.6a09e667f3bccp+2`, and the saving that the savings list of
`clarkeWrightSavings` holds for `(I, J)`, and for `(J, I)`, is `-2 ^ (-50)`,
below `0`. -/
theorem saving_negative_float64 :
    F64.DistanceBetweenPoints roundSavings.depot roundI.Pickup = ⟨0x16a09e667f3bcd, -52⟩
      ∧ F64.DistanceBetweenPoints roundJ.Dropoff roundSavings.depot = ⟨0x10f876ccdf6cd9, -50⟩
      ∧ F64.DistanceBetweenPoints roundI.Pickup roundJ.Dropoff = ⟨0x16a09e667f3bcd, -50⟩
      ∧ F64.savingsListWith roundSavings [roundI, roundJ] (fun _ => [roundI, roundJ])
        = [⟨roundI, roundJ, ⟨-0x10000000000000, -102⟩⟩,
            ⟨roundJ, roundI, ⟨-0x10000000000000, -102⟩⟩]
      ∧ F64.lt (F64.sub (F64.add (F64.DistanceBetweenPoints roundSavings.depot roundI.Pickup)
            (F64.DistanceBetweenPoints roundJ.Dropoff roundSavings.depot))
          (F64.DistanceBetweenPoints roundI.Pickup roundJ.Dropoff)) (F64.ofInt 0) = true := by
  decide

/-- Claim C19 fails as stated on the `float64` values the program computes.
With the depot at the origin, loads `A1`, `A2` resting at `(7,2)` and loads
`B1`, `B2` resting at `(-21,-6)`: `computeDistance [A1, A2]` is
`0x1.d1ed52076fbe9p+3` (14.560219778561036), `computeDistance [B1, B2]` is
`0x1.5d71fd8593cefp+5` (43.68065933568311), their sum is
`0x1.d1ed52076fbe9p+5` (58.240879114244144), and
`computeDistance ([A1, A2] ++ [B1, B2])` is `0x1.d1ed52076fbeap+5`
(58.24087911424415), which is larger.  On these four loads (map visited in
list order) the merge loop first makes the drivers `[B1, B2]` and `[A1, A2]`
and then, for the pair `(A1, B1)`, commits the merge of the two drivers;
`calculateCost` is `0x1.088f6a903b7dfp+10` (1058.240879114244) before and
`0x1.171ed52076fbfp+9` (558.2408791142442) after, so the cost after plus `500`
exceeds the cost before, and the cost before minus the cost after is below
`500`. -/
theorem concat_adds_distance_float64 :
    F64.computeDistance roundStart [roundA1, roundA2] = ⟨0x1d1ed52076fbe9, -49⟩
      ∧ F64.computeDistance roundStart [roundB1, roundB2] = ⟨0x15d71fd8593cef, -47⟩
      ∧ F64.add (F64.computeDistance roundStart [roundA1, roundA2])
          (F64.computeDistance roundStart [roundB1, roundB2]) = ⟨0x1d1ed52076fbe9, -47⟩
      ∧ F64.computeDistance roundStart ([roundA1, roundA2] ++ [roundB1, roundB2])
          = ⟨0x1d1ed52076fbea, -47⟩
      ∧ F64.lt (F64.add (F64.computeDistance roundStart [roundA1, roundA2])
            (F64.computeDistance roundStart [roundB1, roundB2]))
          (F64.computeDistance roundStart ([roundA1, roundA2] ++ [roundB1, roundB2])) = true
      ∧ (F64.sortSavings (F64.savingsList roundLoads)).take 5
          = [⟨roundB1, roundB2, ⟨0x15d71fd8593cef, -47⟩⟩,
              ⟨roundB2, roundB1, ⟨0x15d71fd8593cef, -47⟩⟩,
              ⟨roundA1, roundA2, ⟨0x1d1ed52076fbe9, -49⟩⟩,
              ⟨roundA2, roundA1, ⟨0x1d1ed52076fbe9, -49⟩⟩,
              ⟨roundA1, roundB1, F64.ofInt 0⟩]
      ∧ F64.mergeRoutes roundLoads ((F64.sortSavings (F64.savingsList roundLoads)).take 4)
          = roundStart
      ∧ F64.mergeStep roundStart ⟨roundA1, roundB1, F64.ofInt 0⟩ = roundEnd
      ∧ F64.calculateCost roundStart = ⟨0x1088f6a903b7df, -42⟩
      ∧ F64.calculateCost roundEnd = ⟨0x1171ed52076fbf, -43⟩
      ∧ F64.lt (F64.calculateCost roundStart)
          (F64.add (F64.calculateCost (F64.mergeStep roundStart ⟨roundA1, roundB1, F64.ofInt 0⟩))
            (F64.ofInt 500)) = true
      ∧ F64.lt (F64.sub (F64.calculateCost roundStart)
            (F64.calculateCost (F64.mergeStep roundStart ⟨roundA1, roundB1, F64.ofInt 0⟩)))
          (F64.ofInt 500) = true := by
  decide
end Vorto
